import Mathlib

/-!
The maze carver and the bitmap renderer of aws-image-maze.

A shallow embedding of `maze.go` (the carver `generate`, its frontier
`edgeHeap`, the renderer `writeBase64`) and of the dimension handling of
`index` in `application.go`.

Conventions of the embedding

* Go `int` is `Int`; no value of the program comes near `2^63` (indices are
  below `501 * 501`, weights below `5 * 255 + 1`), so no wrap-around is modelled.
  Go `/` and `%` truncate towards zero: `Int.tdiv`, `Int.tmod`.
* `[]uint8` / `[]byte` are `List Nat`; a nil slice is `none`.
* A slice access with an index outside `[0, len)` panics in Go; accesses
  return `Option` and the operations built on them return `Res`, whose
  `panic` outcome is that run-time panic.
* Loops (`goto loop`, `for h.Len() > 0`, the loops of `container/heap`) are
  run with fuel; `Res.timeout` is the outcome of a run whose fuel ran out.
* `container/heap` is the Go standard library; `up`, `down`, `heapPush` and
  `heapPop` transcribe its `up`, `down`, `Push` and `Pop` at the instance
  `edgeHeap`. Heap positions are slice indices and are kept in `Nat`.
-/

namespace AwsImageMaze

/-! ## Outcomes -/

/-- Outcome of a piece of Go code: a value, a run-time panic, or fuel exhausted. -/
inductive Res (α : Type) where
  | ok (a : α)
  | panic
  | timeout
  deriving DecidableEq, Repr

/-! ## Slices -/

/-- Read `s[i]` of a Go slice; `none` when the index is out of range. -/
def idx? {α : Type} (s : List α) (i : Int) : Option α :=
  if i < 0 then none else s[i.toNat]?

/-- Write `s[i] = v` of a Go slice; `none` when the index is out of range. -/
def upd? {α : Type} (s : List α) (i : Int) (v : α) : Option (List α) :=
  if i < 0 then none
  else if i.toNat < s.length then some (s.set i.toNat v) else none

/-! ## `maze.go`: the maze value -/

/-- The struct `maze`: the embedded `image.Gray` (`Pix`, `Stride`, and the
extent `Dx`, `Dy` of `Rect`) and the cell grid, the field `maze` of the source
(named `grid` here, a field cannot carry the name of its structure). -/
structure maze where
  Pix : List Nat
  Stride : Int
  Dx : Int
  Dy : Int
  grid : Option (List Nat)
  deriving DecidableEq, Repr

/-- Cell value of a carved cell. -/
def PASSAGE : Nat := 0

/-- Cell value of an uncarved cell. -/
def WALL : Nat := 1

/-- The method `maze.index`. -/
def maze.index (m : maze) (x y : Int) : Int :=
  y * m.Stride + x

/-- The method `maze.position`. -/
def maze.position (m : maze) (p : Int) : Int × Int :=
  (p.tmod m.Stride, p.tdiv m.Stride)

/-- The method `maze.weight`: `4*int(m.Pix[p]) + int(m.Pix[n])`. -/
def maze.weight (m : maze) (n p : Int) : Option Int :=
  match idx? m.Pix p, idx? m.Pix n with
  | some pp, some pn => some (4 * (pp : Int) + (pn : Int))
  | _, _ => none

/-! ## `maze.go`: edges and the edge heap -/

/-- The struct `edge`: target room `n`, connecting wall `p`, age `a`, weight `v`. -/
structure edge where
  n : Int
  p : Int
  a : Int
  v : Int
  deriving DecidableEq, Repr

/-- The type `edgeHeap`. -/
abbrev edgeHeap := List edge

/-- The method `edgeHeap.Len`. -/
def edgeHeap.Len (e : edgeHeap) : Nat := e.length

/-- The body of `edgeHeap.Less` on the two edges `e[i]` and `e[j]`. -/
def edge.less (ei ej : edge) : Bool :=
  let vi := ei.v
  let vj := ej.v
  if vi > vj then true
  else if vj = vi then decide (ei.a > ej.a)
  else false

/-- The method `edgeHeap.Less`; `none` when an index is out of range. -/
def edgeHeap.Less (e : edgeHeap) (i j : Nat) : Option Bool :=
  match e[i]?, e[j]? with
  | some ei, some ej => some (edge.less ei ej)
  | _, _ => none

/-- The method `edgeHeap.Swap`; `none` when an index is out of range. -/
def edgeHeap.Swap (e : edgeHeap) (i j : Nat) : Option edgeHeap :=
  match e[i]?, e[j]? with
  | some ei, some ej => some ((e.set i ej).set j ei)
  | _, _ => none

/-- The method `edgeHeap.Push`: append. -/
def edgeHeap.Push (e : edgeHeap) (x : edge) : edgeHeap := e ++ [x]

/-- The method `edgeHeap.Pop`: remove and return the last element. -/
def edgeHeap.Pop (e : edgeHeap) : Option (edge × edgeHeap) :=
  match e.getLast? with
  | some item => some (item, e.dropLast)
  | none => none

/-! ## `container/heap` at `edgeHeap` -/

/-- The function `up` of `container/heap`: sift the element at `j` towards the root. -/
def up : Nat → edgeHeap → Nat → Res edgeHeap
  | 0, _, _ => Res.timeout
  | fuel + 1, h, j =>
    let i := (j - 1) / 2
    if i = j then Res.ok h
    else
      match h.Less j i with
      | none => Res.panic
      | some false => Res.ok h
      | some true =>
        match h.Swap i j with
        | none => Res.panic
        | some h1 => up fuel h1 i

/-- The function `down` of `container/heap`: sift the element at `i` towards
the leaves, within the first `n` positions. -/
def down : Nat → edgeHeap → Nat → Nat → Res edgeHeap
  | 0, _, _, _ => Res.timeout
  | fuel + 1, h, i, n =>
    let j1 := 2 * i + 1
    if j1 ≥ n then Res.ok h
    else
      let j2 := j1 + 1
      match (if j2 < n then h.Less j2 j1 else some false) with
      | none => Res.panic
      | some b =>
        let j := if b then j2 else j1
        match h.Less j i with
        | none => Res.panic
        | some false => Res.ok h
        | some true =>
          match h.Swap i j with
          | none => Res.panic
          | some h1 => down fuel h1 j n

/-- The function `heap.Push`: append, then sift up from the last position. -/
def heapPush (h : edgeHeap) (x : edge) : Res edgeHeap :=
  let h1 := edgeHeap.Push h x
  up h1.Len h1 (h1.Len - 1)

/-- The function `heap.Pop`: swap root and last, sift the new root down within
the first `n` positions, remove and return the last element. -/
def heapPop (h : edgeHeap) : Res (edge × edgeHeap) :=
  let n := h.Len - 1
  match h.Swap 0 n with
  | none => Res.panic
  | some h1 =>
    match down h1.Len h1 0 n with
    | Res.ok h2 =>
      match edgeHeap.Pop h2 with
      | some r => Res.ok r
      | none => Res.panic
    | Res.panic => Res.panic
    | Res.timeout => Res.timeout

/-! ## `maze.go`: the carver `generate` -/

/-- The local state of `generate` between two steps: the cell grid `m.maze`,
the frontier `h`, the current room `p`, the counter `age`, and whether control
is at the label `loop` (`atLoop = true`) or at the head of the `for` loop. -/
structure State where
  cells : List Nat
  h : edgeHeap
  p : Int
  age : Int
  atLoop : Bool
  deriving DecidableEq, Repr

/-- One of the four guarded pushes of `generate`: when `inside` holds and the
room `next` is still a wall, push the edge to `next` through `wall`. -/
def tryPush (m : maze) (cells : List Nat) (age : Int) (h : edgeHeap)
    (inside : Bool) (next wall : Int) : Res edgeHeap :=
  if inside then
    match idx? cells next with
    | none => Res.panic
    | some c =>
      if c = 1 then
        match m.weight next wall with
        | none => Res.panic
        | some v => heapPush h { n := next, p := wall, a := age, v := v }
      else Res.ok h
  else Res.ok h

/-- The four guarded pushes after the label `loop`, from the room `p`:
up, down, left, right. -/
def expand (m : maze) (cells : List Nat) (h : edgeHeap) (p age : Int) : Res edgeHeap :=
  let width := m.Dx
  let height := m.Dy
  let x := (m.position p).1
  let y := (m.position p).2
  match tryPush m cells age h (decide (y - 2 > 0)) (m.index x (y - 2)) (m.index x (y - 2) + width) with
  | Res.ok h1 =>
    match tryPush m cells age h1 (decide (y + 2 < height)) (m.index x (y + 2)) (m.index x (y + 2) - width) with
    | Res.ok h2 =>
      match tryPush m cells age h2 (decide (x - 2 > 0)) (m.index (x - 2) y) (m.index (x - 2) y + 1) with
      | Res.ok h3 =>
        tryPush m cells age h3 (decide (x + 2 < width)) (m.index (x + 2) y) (m.index (x + 2) y - 1)
      | r => r
    | r => r
  | r => r

/-- Where a step of `generate` leads: on to a next state, to the return with
the finished cell grid, or to a panic. -/
inductive Status where
  | running (s : State)
  | done (cells : List Nat)
  | failed
  | starved
  deriving DecidableEq, Repr

/-- One step of `generate`: at the label `loop` the four guarded pushes; at the
head of the `for` loop either the return (frontier empty) or one `heap.Pop`
followed by the discard of a stale edge or by a carve and the jump to `loop`. -/
def step (m : maze) (s : State) : Status :=
  if s.atLoop then
    match expand m s.cells s.h s.p s.age with
    | Res.ok h1 => Status.running { s with h := h1, atLoop := false }
    | Res.panic => Status.failed
    | Res.timeout => Status.starved
  else if s.h.Len > 0 then
    match heapPop s.h with
    | Res.ok (item, h1) =>
      match idx? s.cells item.n with
      | none => Status.failed
      | some c =>
        if c = 0 then Status.running { s with h := h1 }
        else
          match upd? s.cells item.n 0 with
          | none => Status.failed
          | some c1 =>
            match upd? c1 item.p 0 with
            | none => Status.failed
            | some c2 =>
              Status.running { cells := c2, h := h1, p := item.n, age := item.a + 1, atLoop := true }
    | Res.panic => Status.failed
    | Res.timeout => Status.starved
  else Status.done s.cells

/-- The prologue of `generate` up to the label `loop`: allocate the cell grid,
fill it with walls, compute the start room and clear it. -/
def start (m : maze) : Status :=
  let width := m.Dx
  let height := m.Dy
  let size := width * height
  if size < 0 then Status.failed
  else
    let cells := List.replicate size.toNat 1
    let startx := width.tdiv 2
    let starty := height.tdiv 2
    let startx := if startx.tmod 2 = 0 then startx - 1 else startx
    let starty := if starty.tmod 2 = 0 then starty - 1 else starty
    let p := m.index startx starty
    match upd? cells p 0 with
    | none => Status.failed
    | some c1 => Status.running { cells := c1, h := [], p := p, age := 0, atLoop := true }

/-- Advance a status by one step of `generate`; a finished run stays finished. -/
def Status.next (m : maze) : Status → Status
  | Status.running s => step m s
  | r => r

/-- The status of `generate` after the prologue and `k` further steps. -/
def runSteps (m : maze) : Nat → Status
  | 0 => start m
  | k + 1 => (runSteps m k).next m

/-- Number of steps that `generate` is given: six for every cell, and six more. -/
def stepBound (m : maze) : Nat := 6 * (m.Dx * m.Dy).toNat + 6

/-- The method `generate`: the cell grid it leaves in `m.maze`, a panic, or
`timeout` if the run were not over after `stepBound m` steps. -/
def generate (m : maze) : Res (List Nat) :=
  match runSteps m (stepBound m) with
  | Status.done cells => Res.ok cells
  | Status.failed => Res.panic
  | Status.starved => Res.timeout
  | Status.running _ => Res.timeout

/-! ## Specification vocabulary for the frontier heap -/

/-- Priority of an edge in the frontier: weight first, then age. -/
def key (e : edge) : Lex (Int × Int) := toLex (e.v, e.a)

/-- Heap condition on the first `n` positions: no element is `Less` than its parent. -/
def IsHeapN (h : edgeHeap) (n : Nat) : Prop :=
  ∀ k x y, 0 < k → k < n → h[k]? = some x → h[(k - 1) / 2]? = some y → key x ≤ key y

/-- Heap condition of `container/heap` on the whole slice. -/
def IsHeap (h : edgeHeap) : Prop := IsHeapN h h.length

/-- Heap condition on the whole slice except between `j` and its parent; the
children of `j` already respect the parent of `j`. -/
def UpInv (h : edgeHeap) (j : Nat) : Prop :=
  (∀ k x y, 0 < k → k ≠ j → h[k]? = some x → h[(k - 1) / 2]? = some y → key x ≤ key y) ∧
  (∀ k x y, 0 < j → 0 < k → (k - 1) / 2 = j → h[k]? = some x →
    h[(j - 1) / 2]? = some y → key x ≤ key y)

/-- Heap condition on the first `n` positions except between `i` and its
children; the children of `i` already respect the parent of `i`. -/
def DownInv (h : edgeHeap) (i n : Nat) : Prop :=
  (∀ k x y, 0 < k → k < n → (k - 1) / 2 ≠ i → h[k]? = some x →
    h[(k - 1) / 2]? = some y → key x ≤ key y) ∧
  (∀ k x y, 0 < i → 0 < k → k < n → (k - 1) / 2 = i → h[k]? = some x →
    h[(i - 1) / 2]? = some y → key x ≤ key y)

/-! ## Specification vocabulary for the carver -/

/-- What `generate` relies on: the layout `newMaze` gives the image (`Stride`
equal to the width, `Pix` of `width * height` bytes) and odd dimensions of at
least 3. -/
def Admissible (m : maze) : Prop :=
  m.Stride = m.Dx ∧ (m.Pix.length : Int) = m.Dx * m.Dy ∧
  m.Dx % 2 = 1 ∧ m.Dy % 2 = 1 ∧ 3 ≤ m.Dx ∧ 3 ≤ m.Dy

/-- The precondition of the carver: the layout `newMaze` gives the image, and
odd width and height in `[11, 501]`. -/
def Valid (m : maze) : Prop :=
  m.Stride = m.Dx ∧ (m.Pix.length : Int) = m.Dx * m.Dy ∧
  m.Dx % 2 = 1 ∧ m.Dy % 2 = 1 ∧
  11 ≤ m.Dx ∧ m.Dx ≤ 501 ∧ 11 ≤ m.Dy ∧ m.Dy ≤ 501

/-- The cell `(x, y)` lies in the grid. -/
def InGrid (m : maze) (x y : Int) : Prop :=
  0 ≤ x ∧ x < m.Dx ∧ 0 ≤ y ∧ y < m.Dy

/-- The cell `(x, y)` is a room: inside the grid, both coordinates odd. -/
def IsRoom (m : maze) (x y : Int) : Prop :=
  0 < x ∧ x < m.Dx ∧ 0 < y ∧ y < m.Dy ∧ x % 2 = 1 ∧ y % 2 = 1

/-- A unit step along one axis. -/
def Dir (dx dy : Int) : Prop :=
  (dx = 0 ∧ (dy = 1 ∨ dy = -1)) ∨ (dy = 0 ∧ (dx = 1 ∨ dx = -1))

/-- The value of the cell `(x, y)` of a cell grid. -/
def cellAt (m : maze) (cells : List Nat) (x y : Int) : Option Nat :=
  idx? cells (m.index x y)

/-- The cell `(x, y)` is `PASSAGE`. -/
def Open (m : maze) (cells : List Nat) (x y : Int) : Prop :=
  cellAt m cells x y = some PASSAGE

/-- The x coordinate of the start room, as `generate` computes it. -/
def startX (m : maze) : Int :=
  let startx := m.Dx.tdiv 2
  if startx.tmod 2 = 0 then startx - 1 else startx

/-- The y coordinate of the start room, as `generate` computes it. -/
def startY (m : maze) : Int :=
  let starty := m.Dy.tdiv 2
  if starty.tmod 2 = 0 then starty - 1 else starty

/-- A frontier edge is well formed: its target `n` is the room `(x, y)`, its
wall `p` is the cell one step from it, the room one step further is already
`PASSAGE`, and its weight is `weight(n, p)`. -/
def EdgeOk (m : maze) (cells : List Nat) (e : edge) : Prop :=
  ∃ x y dx dy, Dir dx dy ∧ IsRoom m x y ∧ IsRoom m (x + 2 * dx) (y + 2 * dy) ∧
    Open m cells (x + 2 * dx) (y + 2 * dy) ∧
    e.n = m.index x y ∧ e.p = m.index (x + dx) (y + dy) ∧ m.weight e.n e.p = some e.v

/-- Carving order: `ord` numbers the `PASSAGE` rooms injectively below `N`,
every `PASSAGE` room but the start room has an open wall to a room of smaller
number, and no room has two of them. -/
def TreeOrd (m : maze) (cells : List Nat) (ord : Int → Int → Nat) (N : Nat) : Prop :=
  (∀ x y, IsRoom m x y → Open m cells x y → ord x y < N) ∧
  (∀ x y x1 y1, IsRoom m x y → Open m cells x y → IsRoom m x1 y1 → Open m cells x1 y1 →
    ord x y = ord x1 y1 → x = x1 ∧ y = y1) ∧
  (∀ x y, IsRoom m x y → Open m cells x y → ¬ (x = startX m ∧ y = startY m) →
    ∃ dx dy, Dir dx dy ∧ Open m cells (x + dx) (y + dy) ∧
      IsRoom m (x + 2 * dx) (y + 2 * dy) ∧ Open m cells (x + 2 * dx) (y + 2 * dy) ∧
      ord (x + 2 * dx) (y + 2 * dy) < ord x y) ∧
  (∀ x y dx dy ex ey, IsRoom m x y → Open m cells x y → Dir dx dy → Dir ex ey →
    Open m cells (x + dx) (y + dy) → Open m cells (x + ex) (y + ey) →
    ord (x + 2 * dx) (y + 2 * dy) < ord x y → ord (x + 2 * ex) (y + 2 * ey) < ord x y →
    dx = ex ∧ dy = ey)

/-- The invariant of `generate` between two steps. -/
structure Inv (m : maze) (s : State) : Prop where
  len : (s.cells.length : Int) = m.Dx * m.Dy
  bits : ∀ v ∈ s.cells, v = 0 ∨ v = 1
  cur : ∃ x y, IsRoom m x y ∧ s.p = m.index x y ∧ Open m s.cells x y
  startOpen : Open m s.cells (startX m) (startY m)
  edges : ∀ e ∈ s.h, EdgeOk m s.cells e
  opens : ∀ x y, InGrid m x y → Open m s.cells x y → IsRoom m x y ∨
    ∃ dx dy, Dir dx dy ∧ IsRoom m (x + dx) (y + dy) ∧ IsRoom m (x - dx) (y - dy) ∧
      Open m s.cells (x + dx) (y + dy) ∧ Open m s.cells (x - dx) (y - dy)
  tree : ∃ ord N, TreeOrd m s.cells ord N
  front : ∀ x y dx dy, IsRoom m x y → Open m s.cells x y →
    (s.atLoop = true → m.index x y ≠ s.p) → Dir dx dy →
    IsRoom m (x + 2 * dx) (y + 2 * dy) → ¬ Open m s.cells (x + 2 * dx) (y + 2 * dy) →
    ∃ e ∈ s.h, e.n = m.index (x + 2 * dx) (y + 2 * dy)
  heap : IsHeap s.h

/-- Progress measure of `generate`: six for every `WALL` cell, one for every
frontier edge, five more at the label `loop`. -/
def measure (s : State) : Nat :=
  6 * s.cells.sum + s.h.length + (if s.atLoop then 5 else 0)

/-- The carving order after the room `(x, y)` has been carved as number `N`. -/
def bumpOrd (ord : Int → Int → Nat) (x y : Int) (N : Nat) : Int → Int → Nat :=
  fun a b => if a = x ∧ b = y then N else ord a b

/-! ## The room graph of a cell grid -/

/-- A room of the grid that is `PASSAGE`. -/
def PassageRoom (m : maze) (cells : List Nat) (r : Int × Int) : Prop :=
  IsRoom m r.1 r.2 ∧ Open m cells r.1 r.2

/-- The room graph of a cell grid: its vertices are the `PASSAGE` rooms; two
of them at distance 2 on one axis are adjacent when the cell between them is
`PASSAGE`. -/
def roomGraph (m : maze) (cells : List Nat) :
    SimpleGraph { r : Int × Int // PassageRoom m cells r } where
  Adj u v := ∃ dx dy, Dir dx dy ∧ v.1.1 = u.1.1 + 2 * dx ∧ v.1.2 = u.1.2 + 2 * dy ∧
    Open m cells (u.1.1 + dx) (u.1.2 + dy)
  symm := by
    intro u v h
    obtain ⟨dx, dy, hd, h1, h2, ho⟩ := h
    refine ⟨-dx, -dy, ?_, by omega, by omega, ?_⟩
    · unfold Dir at hd ⊢
      omega
    · have e1 : v.1.1 + -dx = u.1.1 + dx := by omega
      have e2 : v.1.2 + -dy = u.1.2 + dy := by omega
      rw [e1, e2]
      exact ho
  loopless := by
    intro u h
    obtain ⟨dx, dy, hd, h1, h2, _⟩ := h
    unfold Dir at hd
    omega

/-- The number of rooms of the grid that are `PASSAGE`. -/
def passageRoomCount (m : maze) (cells : List Nat) : Nat :=
  ((Finset.range m.Dx.toNat ×ˢ Finset.range m.Dy.toNat).filter
    (fun q => q.1 % 2 = 1 ∧ q.2 % 2 = 1 ∧
      cellAt m cells (q.1 : Int) (q.2 : Int) = some PASSAGE)).card

/-! ## Sample inputs -/

/-- The maze value `newMaze` returns for a `w` by `h` image of intensities `pix`. -/
def mazeOf (w h : Nat) (pix : List Nat) : maze :=
  { Pix := pix, Stride := w, Dx := w, Dy := h, grid := none }

/-- The all-zero intensity grid of `w` by `h` cells. -/
def flat (w h : Nat) : maze := mazeOf w h (List.replicate (w * h) 0)

/-- An 11 by 11 intensity grid, zero but for intensity 1 at the cell `(5, 4)`,
the wall above the start room. -/
def spot : maze := mazeOf 11 11 (List.replicate 49 0 ++ [1] ++ List.replicate 71 0)

/-- Whether a maze value meets the precondition of the carver can be computed. -/
instance (m : maze) : Decidable (Valid m) := by
  unfold Valid
  infer_instance

/-! ## `application.go`: the dimensions `index` passes to the carver -/

/-- The constant `minDim`. -/
def minDim : Int := 11

/-- The constant `maxDim`. -/
def maxDim : Int := 501

/-- The function `clamp`, applied: `clamp(a, b)(x)`. -/
def clamp (a b : Int) (x : Int) : Int :=
  if x < a then a
  else if x > b then b
  else x

/-- The width and height that `index` passes to `newMaze` and `generate`.
`customSize` is `getBool(req, "custom-size")`; `(w, wOk)` and `(h, hOk)` are the
results of `getInt` for the fields `width` and `height`; `dimDx`, `dimDy` are the
extent of the decoded image. The floating-point expression
`int(float64(a) * (float64(num) / float64(den)))` is the parameter
`scale a num den`, left arbitrary. `width&1 == 0` is `width % 2 = 0`. -/
def indexDims (scale : Int → Int → Int → Int) (customSize : Bool) (w : Int) (wOk : Bool)
    (h : Int) (hOk : Bool) (dimDx dimDy : Int) : Int × Int :=
  let cl := clamp minDim maxDim
  let wh : Int × Int :=
    if customSize then
      if wOk && hOk then (cl w, cl h)
      else if wOk then (cl w, cl (scale (cl w) dimDy dimDx))
      else if hOk then (cl (scale (cl h) dimDx dimDy), cl h)
      else (0, 0)
    else (cl dimDx, cl (scale (cl dimDx) dimDy dimDx))
  let width := if wh.1 % 2 = 0 then wh.1 + 1 else wh.1
  let height := if wh.2 % 2 = 0 then wh.2 + 1 else wh.2
  (width, height)

/-! ## `maze.go`: the renderer `writeBase64` -/

/-- The type `image.Paletted` as far as the renderer uses it: the colour
indices `Pix`, the `Stride`, and the extent of `Rect`, whose minimum is `(0, 0)`. -/
structure Paletted where
  Pix : List Nat
  Stride : Int
  Dx : Int
  Dy : Int
  deriving DecidableEq, Repr

/-- The variable `palette`: white, then black, as `NRGBA` components. -/
def palette : List (Nat × Nat × Nat × Nat) :=
  [(0xff, 0xff, 0xff, 0xff), (0, 0, 0, 0xff)]

/-- The function `image.NewPaletted` on the rectangle `(0, 0)-(dx, dy)`: a
zeroed buffer of `dx * dy` indices; `none` is its panic on a rectangle with a
negative extent. -/
def NewPaletted (dx dy : Int) : Option Paletted :=
  if dx < 0 ∨ dy < 0 then none
  else some { Pix := List.replicate (dx * dy).toNat 0, Stride := dx, Dx := dx, Dy := dy }

/-- The method `Paletted.SetColorIndex`: nothing outside the rectangle,
otherwise `Pix[y*Stride + x] = index`. -/
def Paletted.SetColorIndex (p : Paletted) (x y : Int) (index : Nat) : Option Paletted :=
  if 0 ≤ x ∧ x < p.Dx ∧ 0 ≤ y ∧ y < p.Dy then
    match upd? p.Pix (y * p.Stride + x) index with
    | some pix => some { p with Pix := pix }
    | none => none
  else some p

/-- The slice expression `s[lo:hi]`; `none` when the bounds are out of range. -/
def slice? {α : Type} (s : List α) (lo hi : Int) : Option (List α) :=
  if 0 ≤ lo ∧ lo ≤ hi ∧ hi ≤ s.length then some ((s.drop lo.toNat).take (hi - lo).toNat)
  else none

/-- The inner loop of `writeBase64`: `for x, v := range row`, from column `x`. -/
def setRow (p : Paletted) (y : Int) : List Nat → Int → Option Paletted
  | [], _ => some p
  | v :: vs, x =>
    match p.SetColorIndex x y v with
    | some p1 => setRow p1 y vs (x + 1)
    | none => none

/-- The outer loop of `writeBase64`: `for y := 0; y < height; y++`, from row `y`
with `pos` the offset of that row. -/
def renderRows (m : maze) (cells : List Nat) : Nat → Int → Int → Paletted → Res Paletted
  | 0, y, _, p => if y < m.Dy then Res.timeout else Res.ok p
  | fuel + 1, y, pos, p =>
    if y < m.Dy then
      match slice? cells pos (pos + m.Dx) with
      | none => Res.panic
      | some row =>
        match setRow p y row 0 with
        | none => Res.panic
        | some p1 => renderRows m cells fuel (y + 1) (pos + m.Dx) p1
    else Res.ok p

/-- The method `writeBase64`: the paletted image it hands to `png.Encode`
(`none` when the cell grid is nil and nothing is encoded) and the error it
returns, which is nil for a nil cell grid and otherwise `closeErr`, the result
of closing the base64 encoder on the caller's writer. -/
def writeBase64 (m : maze) (closeErr : Option String) :
    Res (Option Paletted × Option String) :=
  match m.grid with
  | none => Res.ok (none, none)
  | some cells =>
    match NewPaletted m.Dx m.Dy with
    | none => Res.panic
    | some p =>
      match renderRows m cells m.Dy.toNat 0 0 p with
      | Res.ok p1 => Res.ok (some p1, closeErr)
      | Res.panic => Res.panic
      | Res.timeout => Res.timeout

/-- The bytes that `writeBase64` sends to the caller's writer `w`, given the
raster it hands to `png.Encode`: none when no raster is built (the method
returns before the encoder is made), and otherwise `enc p`, the base64 text of
the PNG encoding of the raster `p`, with the encoders of the Go library as the
parameter `enc`. -/
def writtenBytes (enc : Paletted → List Nat) : Option Paletted → List Nat
  | none => []
  | some p => enc p

/-! ## Counting the jumps to the label `loop` -/

/-- The cell grid of a status of `generate`, if it has one. -/
def statusCells : Status → Option (List Nat)
  | Status.running s => some s.cells
  | Status.done cells => some cells
  | _ => none

/-- Whether a status of `generate` is a state at the label `loop`. -/
def atLabel : Status → Bool
  | Status.running s => s.atLoop
  | _ => false

/-- The number of times control has come back to the label `loop` within the
first `k` steps of `generate` (the first arrival, from the prologue, is not
counted). -/
def loopEntries (m : maze) : Nat → Nat
  | 0 => 0
  | k + 1 => loopEntries m k + (if atLabel (runSteps m (k + 1)) then 1 else 0)

/-- A cell grid after `c` carves: `c + 1` rooms are `PASSAGE`, and the `WALL`
cells are all cells but those rooms and `c` walls. -/
def Counted (m : maze) (cells : List Nat) (c : Nat) : Prop :=
  passageRoomCount m cells = c + 1 ∧ cells.sum + 2 * c + 1 = (m.Dx * m.Dy).toNat

/-! ## Ages and depths -/

/-- The ages follow the depth in the carved tree: `depth` is 0 at the start
room; every other `PASSAGE` room has an open wall to a `PASSAGE` room of depth
one less; rooms joined by an open wall differ in depth by at most one; the age
of a frontier edge is the depth of the room it was discovered from; the age
counter is the depth of the current room. -/
def DepthInv (m : maze) (s : State) (depth : Int → Int → Nat) : Prop :=
  depth (startX m) (startY m) = 0 ∧
  (∀ x y, IsRoom m x y → Open m s.cells x y → ¬ (x = startX m ∧ y = startY m) →
    ∃ dx dy, Dir dx dy ∧ Open m s.cells (x + dx) (y + dy) ∧
      IsRoom m (x + 2 * dx) (y + 2 * dy) ∧ Open m s.cells (x + 2 * dx) (y + 2 * dy) ∧
      depth (x + 2 * dx) (y + 2 * dy) + 1 = depth x y) ∧
  (∀ x y dx dy, IsRoom m x y → Open m s.cells x y → Dir dx dy →
    Open m s.cells (x + dx) (y + dy) →
    depth (x + 2 * dx) (y + 2 * dy) ≤ depth x y + 1) ∧
  (∀ e ∈ s.h, ∃ x y dx dy, Dir dx dy ∧ IsRoom m x y ∧ IsRoom m (x + 2 * dx) (y + 2 * dy) ∧
    Open m s.cells (x + 2 * dx) (y + 2 * dy) ∧
    e.n = m.index x y ∧ e.p = m.index (x + dx) (y + dy) ∧
    e.a = (depth (x + 2 * dx) (y + 2 * dy) : Int)) ∧
  (∃ x y, IsRoom m x y ∧ s.p = m.index x y ∧ s.age = (depth x y : Int))

/-! ## Correctness of `container/heap` at `edgeHeap` -/

theorem less_iff (x y : edge) : edge.less x y = true ↔ key y < key x := by
  unfold edge.less key
  rw [Prod.Lex.lt_iff]
  simp only [gt_iff_lt]
  by_cases h1 : y.v < x.v
  · simp [h1]
  · by_cases h2 : y.v = x.v
    · simp [h1, h2]
    · simp [h1, h2]

theorem less_false_iff (x y : edge) : edge.less x y = false ↔ key x ≤ key y := by
  rw [← not_lt, ← less_iff]
  simp

theorem set_cons_perm {α : Type} (t : List α) (j : Nat) (a b : α)
    (hb : t[j]? = some b) : (b :: t.set j a).Perm (a :: t) := by
  induction t generalizing j with
  | nil => simp at hb
  | cons c t ih =>
    cases j with
    | zero =>
      simp at hb
      subst hb
      simpa using List.Perm.swap a c t
    | succ j =>
      simp at hb
      have h1 := ih j hb
      simp only [List.set_cons_succ]
      exact ((List.Perm.swap c b _).trans (h1.cons c)).trans (List.Perm.swap a c t)

theorem swap_perm_lt {α : Type} (l : List α) (i j : Nat) (x y : α)
    (hx : l[i]? = some x) (hy : l[j]? = some y) (hij : i < j) :
    ((l.set i y).set j x).Perm l := by
  induction l generalizing i j with
  | nil => simp at hx
  | cons c t ih =>
    cases j with
    | zero => omega
    | succ j =>
      cases i with
      | zero =>
        simp at hx hy
        subst hx
        simpa using set_cons_perm t j c y hy
      | succ i =>
        simp at hx hy
        simpa using ih i j hx hy (by omega)

theorem swap_perm {α : Type} (l : List α) (i j : Nat) (x y : α)
    (hx : l[i]? = some x) (hy : l[j]? = some y) :
    ((l.set i y).set j x).Perm l := by
  rcases Nat.lt_trichotomy i j with h | h | h
  · exact swap_perm_lt l i j x y hx hy h
  · subst h
    rw [hx] at hy
    cases hy
    have : l.set i x = l := by
      apply List.ext_getElem?
      intro k
      rw [List.getElem?_set]
      split
      · rename_i hk
        subst hk
        rw [hx]
        have := (List.getElem?_eq_some.1 hx).1
        simp [this]
      · rfl
    rw [this, this]
  · rw [List.set_comm y x l (by omega : i ≠ j)]
    exact swap_perm_lt l j i y x hy hx h

theorem Swap_eq (h : edgeHeap) (i j : Nat) (x y : edge)
    (hx : h[i]? = some x) (hy : h[j]? = some y) :
    h.Swap i j = some ((h.set i y).set j x) := by
  unfold edgeHeap.Swap
  rw [hx, hy]

theorem Less_eq (h : edgeHeap) (i j : Nat) (x y : edge)
    (hx : h[i]? = some x) (hy : h[j]? = some y) :
    h.Less i j = some (edge.less x y) := by
  unfold edgeHeap.Less
  rw [hx, hy]

/-- Reading a swapped slice. -/
theorem getElem?_swap (h : edgeHeap) (i j k : Nat) (x y : edge)
    (hx : h[i]? = some x) (hy : h[j]? = some y) :
    ((h.set i y).set j x)[k]? = if k = j then some x else if k = i then some y else h[k]? := by
  have hi := (List.getElem?_eq_some.1 hx).1
  have hj := (List.getElem?_eq_some.1 hy).1
  rw [List.getElem?_set, List.getElem?_set]
  by_cases h1 : j = k
  · subst h1
    simp [hj]
  · by_cases h2 : i = k
    · subst h2
      simp [h1, hi, Ne.symm h1]
    · simp [h1, h2, Ne.symm h1, Ne.symm h2]

theorem getElem?_swap_cases (h : edgeHeap) (i j k : Nat) (x y a : edge)
    (hx : h[i]? = some x) (hy : h[j]? = some y)
    (ha : ((h.set i y).set j x)[k]? = some a) :
    (k = j ∧ a = x) ∨ (k ≠ j ∧ k = i ∧ a = y) ∨ (k ≠ j ∧ k ≠ i ∧ h[k]? = some a) := by
  rw [getElem?_swap h i j k x y hx hy] at ha
  by_cases h1 : k = j
  · left
    simp [h1] at ha
    exact ⟨h1, ha.symm⟩
  · by_cases h2 : k = i
    · right; left
      simp [h1, h2] at ha
      have h1' : i ≠ j := by rw [← h2]; exact h1
      simp [h1'] at ha
      exact ⟨h1, h2, ha.symm⟩
    · right; right
      simp [h1, h2] at ha
      exact ⟨h1, h2, ha⟩

theorem up_spec (fuel : Nat) : ∀ (h : edgeHeap) (j : Nat), j < h.length → j < fuel →
    UpInv h j → ∃ h1, up fuel h j = Res.ok h1 ∧ h1.Perm h ∧ IsHeap h1 := by
  induction fuel with
  | zero => intro h j _ hf; omega
  | succ fuel ih =>
    intro h j hj hf inv
    obtain ⟨invA, invB⟩ := inv
    unfold up
    simp only
    by_cases hij : (j - 1) / 2 = j
    · rw [if_pos hij]
      refine ⟨h, rfl, List.Perm.refl _, ?_⟩
      intro k x y hk _ hx hy
      exact invA k x y hk (by omega) hx hy
    · rw [if_neg hij]
      have hj0 : 0 < j := by omega
      have hi : (j - 1) / 2 < j := by omega
      have hil : (j - 1) / 2 < h.length := by omega
      have hyj : h[j]? = some h[j] := List.getElem?_eq_getElem hj
      have hxi : h[(j - 1) / 2]? = some h[(j - 1) / 2] := List.getElem?_eq_getElem hil
      rw [Less_eq h j ((j - 1) / 2) h[j] h[(j - 1) / 2] hyj hxi]
      cases hl : edge.less h[j] h[(j - 1) / 2] with
      | false =>
        simp only
        refine ⟨h, rfl, List.Perm.refl _, ?_⟩
        intro k x y hk _ hx hy
        by_cases hkj : k = j
        · subst hkj
          rw [hyj] at hx
          rw [hxi] at hy
          cases hx
          cases hy
          exact (less_false_iff _ _).1 hl
        · exact invA k x y hk hkj hx hy
      | true =>
        simp only
        rw [Swap_eq h ((j - 1) / 2) j _ _ hxi hyj]
        simp only
        have hlt : key h[(j - 1) / 2] < key h[j] := (less_iff _ _).1 hl
        have hlen : ((h.set ((j - 1) / 2) h[j]).set j h[(j - 1) / 2]).length = h.length := by simp
        have hperm := swap_perm h ((j - 1) / 2) j _ _ hxi hyj
        obtain ⟨h2, e2, p2, k2⟩ := ih ((h.set ((j - 1) / 2) h[j]).set j h[(j - 1) / 2]) ((j - 1) / 2)
          (by rw [hlen]; exact hil) (by omega) (by
            constructor
            · intro k a b hk hki ha hb
              rcases getElem?_swap_cases h _ _ k _ _ a hxi hyj ha with
                ⟨c1, c2⟩ | ⟨c1, c2, c3⟩ | ⟨c1, c2, c3⟩
              · -- k = j
                subst c1
                rw [getElem?_swap h _ _ _ _ _ hxi hyj] at hb
                simp [Nat.ne_of_lt hi] at hb
                rw [c2, ← hb]
                exact le_of_lt hlt
              · exact absurd c2 hki
              · rcases getElem?_swap_cases h _ _ _ _ _ b hxi hyj hb with
                  ⟨d1, d2⟩ | ⟨d1, d2, d3⟩ | ⟨d1, d2, d3⟩
                · -- parent k = j
                  rw [d2]
                  exact invB k a _ hj0 hk d1 c3 hxi
                · -- parent k = i
                  rw [d3]
                  have := invA k a _ hk c1 c3 (by rw [d2]; exact hxi)
                  exact le_trans this (le_of_lt hlt)
                · exact invA k a b hk c1 c3 d3
            · intro k a b hi0 hk hki ha hb
              have hpp : (((j - 1) / 2) - 1) / 2 < (j - 1) / 2 := by omega
              rw [getElem?_swap h _ _ _ _ _ hxi hyj] at hb
              rw [if_neg (by omega), if_neg (by omega)] at hb
              have hx2 : key h[(j - 1) / 2] ≤ key b :=
                invA ((j - 1) / 2) _ b hi0 (by omega) hxi hb
              rcases getElem?_swap_cases h _ _ k _ _ a hxi hyj ha with
                ⟨c1, c2⟩ | ⟨c1, c2, c3⟩ | ⟨c1, c2, c3⟩
              · rw [c2]; exact hx2
              · omega
              · have := invA k a _ hk c1 c3 (by rw [hki]; exact hxi)
                exact le_trans this hx2)
        exact ⟨h2, e2, p2.trans hperm, k2⟩

theorem upInv_push (h : edgeHeap) (x : edge) (hh : IsHeap h) :
    UpInv (edgeHeap.Push h x) h.length := by
  unfold edgeHeap.Push
  constructor
  · intro k a b hk hkj ha hb
    have hkl : k < (h ++ [x]).length := (List.getElem?_eq_some.1 ha).1
    simp at hkl
    have hk2 : k < h.length := by omega
    rw [List.getElem?_append_left hk2] at ha
    rw [List.getElem?_append_left (by omega)] at hb
    exact hh k a b hk hk2 ha hb
  · intro k a b _ hk hkj ha _
    have hkl : k < (h ++ [x]).length := (List.getElem?_eq_some.1 ha).1
    simp at hkl
    omega

theorem heapPush_spec (h : edgeHeap) (x : edge) (hh : IsHeap h) :
    ∃ h1, heapPush h x = Res.ok h1 ∧ h1.Perm (x :: h) ∧ IsHeap h1 := by
  unfold heapPush
  simp only
  have hl : (edgeHeap.Push h x).Len = h.length + 1 := by
    simp [edgeHeap.Push, edgeHeap.Len]
  rw [hl]
  obtain ⟨h1, e1, p1, k1⟩ := up_spec (h.length + 1) (edgeHeap.Push h x) h.length
    (by simp [edgeHeap.Push]) (by omega) (upInv_push h x hh)
  refine ⟨h1, by simpa using e1, ?_, k1⟩
  refine p1.trans ?_
  unfold edgeHeap.Push
  exact List.perm_append_singleton x h

theorem getElem?_some_of_lt (h : edgeHeap) (k : Nat) (hk : k < h.length) :
    ∃ x, h[k]? = some x := ⟨h[k], List.getElem?_eq_getElem hk⟩

theorem down_spec (fuel : Nat) : ∀ (h : edgeHeap) (i n : Nat), n ≤ h.length → n - i < fuel →
    DownInv h i n →
    ∃ h1, down fuel h i n = Res.ok h1 ∧ h1.Perm h ∧ (∀ k, n ≤ k → h1[k]? = h[k]?) ∧
      IsHeapN h1 n := by
  induction fuel with
  | zero => intro h i n _ hf; omega
  | succ fuel ih =>
    intro h i n hn hf inv
    obtain ⟨invA, invB⟩ := inv
    unfold down
    simp only
    by_cases hj1 : 2 * i + 1 ≥ n
    · rw [if_pos hj1]
      refine ⟨h, rfl, List.Perm.refl _, fun _ _ => rfl, ?_⟩
      intro k x y hk hkn hx hy
      exact invA k x y hk hkn (by omega) hx hy
    · rw [if_neg hj1]
      have hj1n : 2 * i + 1 < n := by omega
      obtain ⟨xi, hxi⟩ := getElem?_some_of_lt h i (by omega)
      obtain ⟨x1, hx1⟩ := getElem?_some_of_lt h (2 * i + 1) (by omega)
      -- the larger child
      have hsel : ∃ b : Bool, (if 2 * i + 1 + 1 < n then h.Less (2 * i + 1 + 1) (2 * i + 1)
            else some false) = some b ∧
          ∃ xj, h[(if b then 2 * i + 1 + 1 else 2 * i + 1)]? = some xj ∧
            (if b then 2 * i + 1 + 1 else 2 * i + 1) < n ∧
            key x1 ≤ key xj ∧
            (∀ x2, 2 * i + 2 < n → h[2 * i + 2]? = some x2 → key x2 ≤ key xj) := by
        by_cases hj2 : 2 * i + 1 + 1 < n
        · obtain ⟨x2, hx2⟩ := getElem?_some_of_lt h (2 * i + 1 + 1) (by omega)
          rw [if_pos hj2, Less_eq h _ _ x2 x1 hx2 hx1]
          refine ⟨edge.less x2 x1, rfl, ?_⟩
          cases hl : edge.less x2 x1 with
          | true =>
            refine ⟨x2, by simpa using hx2, by simpa using hj2,
              le_of_lt ((less_iff _ _).1 hl), ?_⟩
            intro x2' _ hx2'
            have : 2 * i + 2 = 2 * i + 1 + 1 := by omega
            rw [this, hx2] at hx2'
            cases hx2'
            exact le_refl _
          | false =>
            refine ⟨x1, by simpa using hx1, by simpa using hj1n, le_refl _, ?_⟩
            intro x2' _ hx2'
            have : 2 * i + 2 = 2 * i + 1 + 1 := by omega
            rw [this, hx2] at hx2'
            cases hx2'
            exact (less_false_iff _ _).1 hl
        · rw [if_neg hj2]
          refine ⟨false, rfl, x1, by simpa using hx1, by simpa using hj1n, le_refl _, ?_⟩
          intro x2 h2 _
          omega
      obtain ⟨b, hb, xj, hxj, hjn, hc1, hc2⟩ := hsel
      rw [hb]
      simp only
      generalize hjdef : (if b then 2 * i + 1 + 1 else 2 * i + 1) = j at hxj hjn
      have hjpar : (j - 1) / 2 = i := by
        rw [← hjdef]; split <;> omega
      have hji : i < j := by
        rw [← hjdef]; split <;> omega
      have hchild : ∀ k, 0 < k → (k - 1) / 2 = i → k < n → ∀ x, h[k]? = some x →
          key x ≤ key xj := by
        intro k hk hki hkn x hx
        have hk12 : k = 2 * i + 1 ∨ k = 2 * i + 2 := by omega
        rcases hk12 with hk1 | hk2
        · rw [hk1, hx1] at hx
          cases hx
          exact hc1
        · rw [hk2] at hx hkn
          exact hc2 x hkn hx
      rw [Less_eq h j i xj xi hxj hxi]
      cases hl : edge.less xj xi with
      | false =>
        simp only
        refine ⟨h, rfl, List.Perm.refl _, fun _ _ => rfl, ?_⟩
        intro k x y hk hkn hx hy
        by_cases hki : (k - 1) / 2 = i
        · rw [hki, hxi] at hy
          cases hy
          exact le_trans (hchild k hk hki hkn x hx) ((less_false_iff _ _).1 hl)
        · exact invA k x y hk hkn hki hx hy
      | true =>
        simp only
        rw [Swap_eq h i j _ _ hxi hxj]
        simp only
        have hlt : key xi < key xj := (less_iff _ _).1 hl
        have hlen : ((h.set i xj).set j xi).length = h.length := by simp
        have hperm := swap_perm h i j _ _ hxi hxj
        obtain ⟨h2, e2, p2, f2, k2⟩ := ih ((h.set i xj).set j xi) j n
          (by rw [hlen]; exact hn) (by omega) (by
            constructor
            · intro k a c hk hkn hkj ha hc
              rcases getElem?_swap_cases h _ _ k _ _ a hxi hxj ha with
                ⟨c1, c2⟩ | ⟨c1, c2, c3⟩ | ⟨c1, c2, c3⟩
              · -- k = j, parent i holds xj
                rw [c1, hjpar, getElem?_swap h _ _ _ _ _ hxi hxj] at hc
                simp [Nat.ne_of_lt hji] at hc
                rw [c2, ← hc]
                exact le_of_lt hlt
              · -- k = i, parent unchanged
                have hi0 : 0 < i := by omega
                rw [getElem?_swap h _ _ _ _ _ hxi hxj] at hc
                rw [if_neg (by omega), if_neg (by omega)] at hc
                rw [c3]
                rw [c2] at hc
                exact invB j xj c hi0 (by omega) hjn hjpar hxj hc
              · rcases getElem?_swap_cases h _ _ _ _ _ c hxi hxj hc with
                  ⟨d1, d2⟩ | ⟨d1, d2, d3⟩ | ⟨d1, d2, d3⟩
                · exact absurd d1 hkj
                · rw [d3]
                  exact hchild k hk d2 hkn a c3
                · exact invA k a c hk hkn d2 c3 d3
            · intro k a c _ hk hkn hkj ha hc
              rw [hjpar, getElem?_swap h _ _ _ _ _ hxi hxj] at hc
              simp [Nat.ne_of_lt hji] at hc
              rcases getElem?_swap_cases h _ _ k _ _ a hxi hxj ha with
                ⟨c1, c2⟩ | ⟨c1, c2, c3⟩ | ⟨c1, c2, c3⟩
              · omega
              · omega
              · rw [← hc]
                exact invA k a xj hk hkn (by omega) c3 (by rw [hkj]; exact hxj))
        refine ⟨h2, e2, p2.trans hperm, ?_, k2⟩
        intro k hk
        rw [f2 k hk, getElem?_swap h _ _ _ _ _ hxi hxj]
        rw [if_neg (by omega), if_neg (by omega)]

/-- In a heap the root has the greatest key. -/
theorem root_max (h : edgeHeap) (hh : IsHeap h) (r : edge) (hr : h[0]? = some r) :
    ∀ (k : Nat) (x : edge), h[k]? = some x → key x ≤ key r := by
  intro k
  induction k using Nat.strong_induction_on with
  | _ k ih =>
    intro x hx
    by_cases hk : k = 0
    · subst hk
      rw [hr] at hx
      cases hx
      exact le_refl _
    · have hkl : k < h.length := (List.getElem?_eq_some.1 hx).1
      obtain ⟨y, hy⟩ := getElem?_some_of_lt h ((k - 1) / 2) (by omega)
      exact le_trans (hh k x y (by omega) hkl hx hy) (ih _ (by omega) y hy)

theorem heapPop_spec (h : edgeHeap) (hh : IsHeap h) (hne : 0 < h.length) :
    ∃ item h1, heapPop h = Res.ok (item, h1) ∧ h.Perm (item :: h1) ∧ IsHeap h1 ∧
      h[0]? = some item ∧ ∀ e ∈ h, key e ≤ key item := by
  obtain ⟨r, hr⟩ := getElem?_some_of_lt h 0 hne
  obtain ⟨z, hz⟩ := getElem?_some_of_lt h (h.length - 1) (by omega)
  unfold heapPop
  simp only [edgeHeap.Len]
  rw [Swap_eq h 0 (h.length - 1) r z hr hz]
  simp only
  have hlen : ((h.set 0 z).set (h.length - 1) r).length = h.length := by simp
  rw [hlen]
  obtain ⟨h2, e2, p2, f2, k2⟩ := down_spec h.length ((h.set 0 z).set (h.length - 1) r) 0
    (h.length - 1) (by rw [hlen]; omega) (by omega) (by
      constructor
      · intro k a c hk hkn hkp ha hc
        rw [getElem?_swap h _ _ _ _ _ hr hz, if_neg (by omega), if_neg (by omega)] at ha hc
        exact hh k a c hk (by omega) ha hc
      · intro k a c hi0
        omega)
  rw [e2]
  simp only
  have hl2 : h2.length = h.length := by rw [p2.length_eq, hlen]
  have hlast : h2[h.length - 1]? = some r := by
    rw [f2 _ (le_refl _), getElem?_swap h _ _ _ _ _ hr hz]
    simp
  have hgl : h2.getLast? = some r := by
    rw [List.getLast?_eq_getElem?, hl2, hlast]
  unfold edgeHeap.Pop
  rw [hgl]
  simp only
  have hsplit : h2.dropLast ++ [r] = h2 := List.dropLast_append_getLast? r hgl
  refine ⟨r, h2.dropLast, rfl, ?_, ?_, hr, ?_⟩
  · have hp : h2.Perm h := p2.trans (swap_perm h 0 (h.length - 1) _ _ hr hz)
    refine hp.symm.trans ?_
    rw [← hsplit]
    simp
  · intro k x y hk hkn hx hy
    rw [List.length_dropLast, hl2] at hkn
    rw [List.getElem?_dropLast, hl2, if_pos (by omega)] at hx hy
    exact k2 k x y hk hkn hx hy
  · intro e he
    obtain ⟨k, hk⟩ := List.mem_iff_getElem?.1 he
    exact root_max h hh r hr k e hk

theorem isHeap_nil : IsHeap [] := by
  intro k x y _ hk
  simp at hk

/-! ## Slices and coordinates -/

theorem idx?_of_range {α : Type} (s : List α) (i : Int) (h0 : 0 ≤ i) (h1 : i < s.length) :
    ∃ v, idx? s i = some v ∧ v ∈ s := by
  unfold idx?
  rw [if_neg (by omega)]
  have : i.toNat < s.length := by omega
  exact ⟨s[i.toNat], List.getElem?_eq_getElem this, List.getElem_mem this⟩

theorem idx?_mem {α : Type} (s : List α) (i : Int) (v : α) (h : idx? s i = some v) : v ∈ s := by
  unfold idx? at h
  split at h
  · cases h
  · exact List.mem_iff_getElem?.2 ⟨_, h⟩

theorem upd?_of_range {α : Type} (s : List α) (i : Int) (v : α) (h0 : 0 ≤ i)
    (h1 : i < s.length) : upd? s i v = some (s.set i.toNat v) := by
  unfold upd?
  rw [if_neg (by omega), if_pos (by omega)]

theorem idx?_set {α : Type} (s : List α) (i j : Int) (v : α) (h0 : 0 ≤ i)
    (h1 : i < s.length) (hj : 0 ≤ j) :
    idx? (s.set i.toNat v) j = if j = i then some v else idx? s j := by
  have hj0 : ¬ j < 0 := by omega
  by_cases hij : j = i
  · subst hij
    have : j.toNat < s.length := by omega
    rw [if_pos rfl]
    unfold idx?
    rw [if_neg hj0, List.getElem?_set, if_pos rfl, if_pos this]
  · have : i.toNat ≠ j.toNat := by omega
    rw [if_neg hij]
    unfold idx?
    rw [if_neg hj0, if_neg hj0, List.getElem?_set, if_neg this]

theorem index_range (m : maze) (ha : Admissible m) (x y : Int) (hg : InGrid m x y) :
    0 ≤ m.index x y ∧ m.index x y < m.Dx * m.Dy := by
  obtain ⟨hs, _, _, _, hw, hh⟩ := ha
  obtain ⟨hx0, hx1, hy0, hy1⟩ := hg
  unfold maze.index
  rw [hs]
  constructor
  · have := mul_nonneg hy0 (by omega : (0 : Int) ≤ m.Dx)
    omega
  · have h1 : (y + 1) * m.Dx ≤ m.Dy * m.Dx :=
      mul_le_mul_of_nonneg_right (by omega) (by omega)
    have h2 : (y + 1) * m.Dx = y * m.Dx + m.Dx := by ring
    have h3 : m.Dy * m.Dx = m.Dx * m.Dy := by ring
    omega

theorem position_index (m : maze) (ha : Admissible m) (x y : Int) (hg : InGrid m x y) :
    m.position (m.index x y) = (x, y) := by
  have hr := index_range m ha x y hg
  obtain ⟨hs, _, _, _, hw, hh⟩ := ha
  obtain ⟨hx0, hx1, hy0, hy1⟩ := hg
  unfold maze.position
  rw [Int.tmod_eq_emod hr.1 (by omega), Int.tdiv_eq_ediv hr.1 (by omega)]
  unfold maze.index
  rw [hs]
  have hw0 : m.Dx ≠ 0 := by omega
  have e1 : (y * m.Dx + x) % m.Dx = x := by
    rw [add_comm, Int.add_mul_emod_self]
    exact Int.emod_eq_of_lt hx0 hx1
  have e2 : (y * m.Dx + x) / m.Dx = y := by
    rw [add_comm, Int.add_mul_ediv_right _ _ hw0, Int.ediv_eq_zero_of_lt hx0 hx1]
    simp
  rw [e1, e2]

theorem index_inj (m : maze) (ha : Admissible m) (x y x1 y1 : Int) (hg : InGrid m x y)
    (hg1 : InGrid m x1 y1) (he : m.index x y = m.index x1 y1) : x = x1 ∧ y = y1 := by
  have h1 := position_index m ha x y hg
  have h2 := position_index m ha x1 y1 hg1
  rw [he, h2] at h1
  simp only [Prod.mk.injEq] at h1
  exact ⟨h1.1.symm, h1.2.symm⟩

theorem index_step (m : maze) (ha : Admissible m) (x y dx dy : Int) :
    m.index (x + dx) (y + dy) = m.index x y + dy * m.Dx + dx := by
  unfold maze.index
  rw [ha.1]
  ring

theorem cellAt_some (m : maze) (ha : Admissible m) (cells : List Nat)
    (hl : (cells.length : Int) = m.Dx * m.Dy) (x y : Int) (hg : InGrid m x y) :
    ∃ v, cellAt m cells x y = some v ∧ v ∈ cells := by
  have hr := index_range m ha x y hg
  exact idx?_of_range cells _ hr.1 (by omega)

/-- Writing the cell `(x, y)` changes that cell and no other cell of the grid. -/
theorem cellAt_upd (m : maze) (ha : Admissible m) (cells : List Nat)
    (hl : (cells.length : Int) = m.Dx * m.Dy) (x y : Int) (hg : InGrid m x y) (v : Nat) :
    ∃ c1, upd? cells (m.index x y) v = some c1 ∧ (c1.length : Int) = m.Dx * m.Dy ∧
      (∀ u ∈ c1, u = v ∨ u ∈ cells) ∧
      (∀ x1 y1, InGrid m x1 y1 →
        cellAt m c1 x1 y1 = if x1 = x ∧ y1 = y then some v else cellAt m cells x1 y1) ∧
      c1 = cells.set (m.index x y).toNat v := by
  have hr := index_range m ha x y hg
  refine ⟨_, upd?_of_range cells _ v hr.1 (by omega), by simpa using hl, ?_, ?_, rfl⟩
  · intro u hu
    rcases List.mem_or_eq_of_mem_set hu with h | h
    · exact Or.inr h
    · exact Or.inl h
  · intro x1 y1 hg1
    have hr1 := index_range m ha x1 y1 hg1
    unfold cellAt
    rw [idx?_set cells _ _ v hr.1 (by omega) hr1.1]
    by_cases hxy : x1 = x ∧ y1 = y
    · rw [if_pos hxy, if_pos (by rw [hxy.1, hxy.2])]
    · rw [if_neg hxy, if_neg]
      intro he
      exact hxy (index_inj m ha x1 y1 x y hg1 hg he)

/-! ## The prologue of `generate` -/

theorem sum_set_zero (l : List Nat) (i : Nat) (v : Nat) (hv : l[i]? = some v) :
    (l.set i 0).sum + v = l.sum := by
  induction l generalizing i with
  | nil => simp at hv
  | cons a t ih =>
    cases i with
    | zero =>
      simp at hv
      simp [hv]
      omega
    | succ i =>
      simp at hv
      have := ih i hv
      simp only [List.set_cons_succ, List.sum_cons]
      omega

theorem sum_replicate_one (n : Nat) : (List.replicate n 1).sum = n := by
  induction n with
  | zero => rfl
  | succ n ih => simp [List.replicate_succ, ih]; omega

theorem valid_admissible (m : maze) (hv : Valid m) : Admissible m := by
  obtain ⟨h1, h2, h3, h4, h5, h6, h7, h8⟩ := hv
  exact ⟨h1, h2, h3, h4, by omega, by omega⟩

theorem startX_eq (m : maze) (ha : Admissible m) :
    startX m = if (m.Dx / 2) % 2 = 0 then m.Dx / 2 - 1 else m.Dx / 2 := by
  obtain ⟨_, _, _, _, hw, _⟩ := ha
  unfold startX
  simp only
  rw [Int.tdiv_eq_ediv (by omega) (by omega), Int.tmod_eq_emod (by omega) (by omega)]

theorem startY_eq (m : maze) (ha : Admissible m) :
    startY m = if (m.Dy / 2) % 2 = 0 then m.Dy / 2 - 1 else m.Dy / 2 := by
  obtain ⟨_, _, _, _, _, hh⟩ := ha
  unfold startY
  simp only
  rw [Int.tdiv_eq_ediv (by omega) (by omega), Int.tmod_eq_emod (by omega) (by omega)]

theorem start_isRoom (m : maze) (ha : Admissible m) : IsRoom m (startX m) (startY m) := by
  rw [startX_eq m ha, startY_eq m ha]
  obtain ⟨_, _, h3, h4, hw, hh⟩ := ha
  unfold IsRoom
  split <;> split <;> omega

theorem room_inGrid (m : maze) (x y : Int) (h : IsRoom m x y) : InGrid m x y := by
  unfold IsRoom at h
  unfold InGrid
  omega

theorem start_spec (m : maze) (ha : Admissible m) :
    ∃ s, start m = Status.running s ∧ Inv m s ∧ s.atLoop = true ∧ s.age = 0 ∧ s.h = [] ∧
      s.p = m.index (startX m) (startY m) ∧ s.cells.sum + 1 = (m.Dx * m.Dy).toNat := by
  have hroom := start_isRoom m ha
  have hg := room_inGrid m _ _ hroom
  have hsz : 0 ≤ m.Dx * m.Dy := by
    obtain ⟨_, _, _, _, hw, hh⟩ := ha
    exact mul_nonneg (by omega) (by omega)
  have hl : ((List.replicate (m.Dx * m.Dy).toNat 1).length : Int) = m.Dx * m.Dy := by
    simp
    omega
  obtain ⟨c1, hu, hl1, hb1, hc1, hset⟩ :=
    cellAt_upd m ha (List.replicate (m.Dx * m.Dy).toNat 1) hl _ _ hg 0
  have hold : ∀ x y, InGrid m x y →
      cellAt m (List.replicate (m.Dx * m.Dy).toNat 1) x y = some 1 := by
    intro x y hxy
    obtain ⟨v, hv, hm⟩ := cellAt_some m ha _ hl x y hxy
    rw [hv, List.eq_of_mem_replicate hm]
  have honly : ∀ x y, InGrid m x y → Open m c1 x y → x = startX m ∧ y = startY m := by
    intro x y hxy ho
    unfold Open at ho
    rw [hc1 x y hxy] at ho
    by_cases h : x = startX m ∧ y = startY m
    · exact h
    · rw [if_neg h, hold x y hxy] at ho
      cases ho
  have hopen : Open m c1 (startX m) (startY m) := by
    unfold Open
    rw [hc1 _ _ hg, if_pos ⟨rfl, rfl⟩]
    rfl
  refine ⟨{ cells := c1, h := [], p := m.index (startX m) (startY m), age := 0,
            atLoop := true }, ?_, ?_, rfl, rfl, rfl, rfl, ?_⟩
  · unfold start
    simp only
    rw [if_neg (by omega)]
    have : (if (m.Dx.tdiv 2).tmod 2 = 0 then m.Dx.tdiv 2 - 1 else m.Dx.tdiv 2) = startX m := rfl
    rw [this]
    have : (if (m.Dy.tdiv 2).tmod 2 = 0 then m.Dy.tdiv 2 - 1 else m.Dy.tdiv 2) = startY m := rfl
    rw [this, hu]
  · refine
      { len := hl1, bits := ?_, cur := ⟨_, _, hroom, rfl, hopen⟩, startOpen := hopen,
        edges := ?_, opens := ?_, tree := ?_, front := ?_, heap := isHeap_nil }
    · intro v hv
      rcases hb1 v hv with h | h
      · exact Or.inl h
      · exact Or.inr (List.eq_of_mem_replicate h)
    · intro e he
      simp at he
    · intro x y hxy ho
      obtain ⟨h1, h2⟩ := honly x y hxy ho
      rw [h1, h2]
      exact Or.inl hroom
    · refine ⟨fun _ _ => 0, 1, ?_, ?_, ?_, ?_⟩
      · intro x y _ _
        exact Nat.zero_lt_one
      · intro x y x1 y1 hr ho hr1 ho1 _
        obtain ⟨h1, h2⟩ := honly x y (room_inGrid m _ _ hr) ho
        obtain ⟨h3, h4⟩ := honly x1 y1 (room_inGrid m _ _ hr1) ho1
        omega
      · intro x y hr ho hne
        exact absurd (honly x y (room_inGrid m _ _ hr) ho) hne
      · intro x y dx dy ex ey hr ho hd _ ho1 _ h1 _
        exact absurd h1 (Nat.lt_irrefl _)
    · intro x y dx dy hr ho hp
      obtain ⟨h1, h2⟩ := honly x y (room_inGrid m _ _ hr) ho
      rw [h1, h2] at hp
      exact absurd rfl (hp rfl)
  · show c1.sum + 1 = (m.Dx * m.Dy).toNat
    rw [hset]
    have hr := index_range m ha _ _ hg
    have h1 : (List.replicate (m.Dx * m.Dy).toNat 1)[(m.index (startX m) (startY m)).toNat]?
        = some 1 := by
      have := hold _ _ hg
      unfold cellAt idx? at this
      rw [if_neg (by omega)] at this
      exact this
    rw [sum_set_zero _ _ 1 h1, sum_replicate_one]

/-! ## The four guarded pushes -/

theorem weight_some (m : maze) (ha : Admissible m) (x y wx wy : Int)
    (hg : InGrid m x y) (hw : InGrid m wx wy) :
    ∃ v, m.weight (m.index x y) (m.index wx wy) = some v := by
  have h1 := index_range m ha x y hg
  have h2 := index_range m ha wx wy hw
  obtain ⟨a, ha1, _⟩ := idx?_of_range m.Pix (m.index x y) h1.1 (by rw [ha.2.1]; exact h1.2)
  obtain ⟨b, hb1, _⟩ := idx?_of_range m.Pix (m.index wx wy) h2.1 (by rw [ha.2.1]; exact h2.2)
  unfold maze.weight
  rw [ha1, hb1]
  exact ⟨_, rfl⟩

theorem tryPush_spec (m : maze) (ha : Admissible m) (cells : List Nat)
    (hl : (cells.length : Int) = m.Dx * m.Dy) (hb : ∀ v ∈ cells, v = 0 ∨ v = 1)
    (age : Int) (h : edgeHeap) (hh : IsHeap h) (inside : Bool) (x y wx wy : Int)
    (hin : inside = true → InGrid m x y ∧ InGrid m wx wy) :
    ∃ h1 new, tryPush m cells age h inside (m.index x y) (m.index wx wy) = Res.ok h1 ∧
      IsHeap h1 ∧ h1.Perm (new ++ h) ∧ new.length ≤ 1 ∧
      (∀ e ∈ new, e.n = m.index x y ∧ e.p = m.index wx wy ∧ e.a = age ∧
        m.weight e.n e.p = some e.v ∧ inside = true) ∧
      (inside = true → ¬ Open m cells x y → ∃ e ∈ new, e.n = m.index x y) := by
  unfold tryPush
  cases inside with
  | false =>
    refine ⟨h, [], rfl, hh, List.Perm.refl _, by simp, ?_, ?_⟩
    · intro e he; simp at he
    · intro h1; cases h1
  | true =>
    obtain ⟨hg, hw⟩ := hin rfl
    obtain ⟨c, hc, hcm⟩ := cellAt_some m ha cells hl x y hg
    unfold cellAt at hc
    rw [if_pos rfl, hc]
    simp only
    by_cases hc1 : c = 1
    · rw [if_pos hc1]
      obtain ⟨v, hv⟩ := weight_some m ha x y wx wy hg hw
      rw [hv]
      simp only
      obtain ⟨h1, e1, p1, k1⟩ := heapPush_spec h
        { n := m.index x y, p := m.index wx wy, a := age, v := v } hh
      refine ⟨h1, [{ n := m.index x y, p := m.index wx wy, a := age, v := v }], e1, k1,
        by simpa using p1, by simp, ?_, ?_⟩
      · intro e he
        simp at he
        subst he
        exact ⟨rfl, rfl, rfl, hv, by simp⟩
      · intro _ _
        exact ⟨_, List.mem_singleton.2 rfl, rfl⟩
    · rw [if_neg hc1]
      refine ⟨h, [], rfl, hh, List.Perm.refl _, by simp, ?_, ?_⟩
      · intro e he; simp at he
      · intro _ ho
        exfalso
        apply ho
        unfold Open cellAt
        rw [hc]
        rcases hb c hcm with h0 | h1
        · rw [h0]; rfl
        · exact absurd h1 hc1

theorem edgeOk_mk (m : maze) (cells : List Nat) (e : edge) (x y dx dy qx qy wx wy : Int)
    (hd : Dir dx dy) (hr : IsRoom m x y) (hqx : qx = x + 2 * dx) (hqy : qy = y + 2 * dy)
    (hwx : wx = x + dx) (hwy : wy = y + dy) (hq : IsRoom m qx qy) (ho : Open m cells qx qy)
    (hn : e.n = m.index x y) (hp : e.p = m.index wx wy) (hv : m.weight e.n e.p = some e.v) :
    EdgeOk m cells e := by
  subst hqx hqy hwx hwy
  exact ⟨x, y, dx, dy, hd, hr, hq, ho, hn, hp, hv⟩

theorem expand_spec (m : maze) (ha : Admissible m) (cells : List Nat)
    (hl : (cells.length : Int) = m.Dx * m.Dy) (hb : ∀ v ∈ cells, v = 0 ∨ v = 1)
    (h : edgeHeap) (hh : IsHeap h) (age : Int) (x y : Int) (hr : IsRoom m x y)
    (ho : Open m cells x y) :
    ∃ h1 new, expand m cells h (m.index x y) age = Res.ok h1 ∧ IsHeap h1 ∧
      h1.Perm (new ++ h) ∧ new.length ≤ 4 ∧
      (∀ e ∈ new, e.a = age ∧ EdgeOk m cells e) ∧
      (∀ dx dy, Dir dx dy → IsRoom m (x + 2 * dx) (y + 2 * dy) →
        ¬ Open m cells (x + 2 * dx) (y + 2 * dy) →
        ∃ e ∈ h1, e.n = m.index (x + 2 * dx) (y + 2 * dy)) := by
  have hg := room_inGrid m x y hr
  have hst := ha.1
  have hr1 := hr
  unfold IsRoom at hr1
  unfold expand
  simp only
  rw [position_index m ha x y hg]
  simp only
  have w1 : m.index x (y - 2) + m.Dx = m.index x (y - 1) := by
    unfold maze.index; rw [hst]; ring
  have w2 : m.index x (y + 2) - m.Dx = m.index x (y + 1) := by
    unfold maze.index; rw [hst]; ring
  have w3 : m.index (x - 2) y + 1 = m.index (x - 1) y := by
    unfold maze.index; ring
  have w4 : m.index (x + 2) y - 1 = m.index (x + 1) y := by
    unfold maze.index; ring
  rw [w1, w2, w3, w4]
  obtain ⟨h1, n1, e1, k1, p1, l1, a1, f1⟩ := tryPush_spec m ha cells hl hb age h hh
    (decide (y - 2 > 0)) x (y - 2) x (y - 1) (by
      intro hd
      simp only [decide_eq_true_eq] at hd
      unfold InGrid
      omega)
  rw [e1]
  simp only
  obtain ⟨h2, n2, e2, k2, p2, l2, a2, f2⟩ := tryPush_spec m ha cells hl hb age h1 k1
    (decide (y + 2 < m.Dy)) x (y + 2) x (y + 1) (by
      intro hd
      simp only [decide_eq_true_eq] at hd
      unfold InGrid
      omega)
  rw [e2]
  simp only
  obtain ⟨h3, n3, e3, k3, p3, l3, a3, f3⟩ := tryPush_spec m ha cells hl hb age h2 k2
    (decide (x - 2 > 0)) (x - 2) y (x - 1) y (by
      intro hd
      simp only [decide_eq_true_eq] at hd
      unfold InGrid
      omega)
  rw [e3]
  simp only
  obtain ⟨h4, n4, e4, k4, p4, l4, a4, f4⟩ := tryPush_spec m ha cells hl hb age h3 k3
    (decide (x + 2 < m.Dx)) (x + 2) y (x + 1) y (by
      intro hd
      simp only [decide_eq_true_eq] at hd
      unfold InGrid
      omega)
  rw [e4]
  have hperm : h4.Perm ((n4 ++ n3 ++ n2 ++ n1) ++ h) := by
    refine p4.trans ?_
    refine (List.Perm.append_left n4 p3).trans ?_
    refine (List.Perm.append_left n4 (List.Perm.append_left n3 p2)).trans ?_
    refine (List.Perm.append_left n4 (List.Perm.append_left n3
      (List.Perm.append_left n2 p1))).trans ?_
    simp
  refine ⟨h4, n4 ++ n3 ++ n2 ++ n1, rfl, k4, hperm, by simp; omega, ?_, ?_⟩
  · intro e he
    simp only [List.mem_append] at he
    rcases he with ((he | he) | he) | he
    · obtain ⟨b1, b2, b3, b4, b5⟩ := a4 e he
      simp only [decide_eq_true_eq] at b5
      refine ⟨b3, edgeOk_mk m cells e (x + 2) y (-1) 0 x y (x + 1) y ?_ ?_ (by ring) (by ring)
        (by ring) (by ring) hr ho b1 b2 b4⟩
      · unfold Dir; omega
      · unfold IsRoom; omega
    · obtain ⟨b1, b2, b3, b4, b5⟩ := a3 e he
      simp only [decide_eq_true_eq] at b5
      refine ⟨b3, edgeOk_mk m cells e (x - 2) y 1 0 x y (x - 1) y ?_ ?_ (by ring) (by ring)
        (by ring) (by ring) hr ho b1 b2 b4⟩
      · unfold Dir; omega
      · unfold IsRoom; omega
    · obtain ⟨b1, b2, b3, b4, b5⟩ := a2 e he
      simp only [decide_eq_true_eq] at b5
      refine ⟨b3, edgeOk_mk m cells e x (y + 2) 0 (-1) x y x (y + 1) ?_ ?_ (by ring) (by ring)
        (by ring) (by ring) hr ho b1 b2 b4⟩
      · unfold Dir; omega
      · unfold IsRoom; omega
    · obtain ⟨b1, b2, b3, b4, b5⟩ := a1 e he
      simp only [decide_eq_true_eq] at b5
      refine ⟨b3, edgeOk_mk m cells e x (y - 2) 0 1 x y x (y - 1) ?_ ?_ (by ring) (by ring)
        (by ring) (by ring) hr ho b1 b2 b4⟩
      · unfold Dir; omega
      · unfold IsRoom; omega
  · intro dx dy hd hq hno
    have m4 : ∀ e, e ∈ n4 → e ∈ h4 := fun e he => hperm.symm.subset
      (List.mem_append_left _ (List.mem_append_left _ (List.mem_append_left _
        (List.mem_append_left _ he))))
    have m3 : ∀ e, e ∈ n3 → e ∈ h4 := fun e he => hperm.symm.subset
      (List.mem_append_left _ (List.mem_append_left _ (List.mem_append_left _
        (List.mem_append_right _ he))))
    have m2 : ∀ e, e ∈ n2 → e ∈ h4 := fun e he => hperm.symm.subset
      (List.mem_append_left _ (List.mem_append_left _ (List.mem_append_right _ he)))
    have m1 : ∀ e, e ∈ n1 → e ∈ h4 := fun e he => hperm.symm.subset
      (List.mem_append_left _ (List.mem_append_right _ he))
    unfold IsRoom at hq
    unfold Dir at hd
    rcases hd with ⟨hx, hy | hy⟩ | ⟨hy, hx | hx⟩
    · subst hx hy
      have e1 : x + 2 * 0 = x := by ring
      have e2 : y + 2 * 1 = y + 2 := by ring
      rw [e1, e2] at hno hq ⊢
      obtain ⟨e, he, hen⟩ := f2 (by simp only [decide_eq_true_eq]; omega) hno
      exact ⟨e, m2 e he, hen⟩
    · subst hx hy
      have e1 : x + 2 * 0 = x := by ring
      have e2 : y + 2 * (-1) = y - 2 := by ring
      rw [e1, e2] at hno hq ⊢
      obtain ⟨e, he, hen⟩ := f1 (by simp only [decide_eq_true_eq]; omega) hno
      exact ⟨e, m1 e he, hen⟩
    · subst hx hy
      have e1 : x + 2 * 1 = x + 2 := by ring
      have e2 : y + 2 * 0 = y := by ring
      rw [e1, e2] at hno hq ⊢
      obtain ⟨e, he, hen⟩ := f4 (by simp only [decide_eq_true_eq]; omega) hno
      exact ⟨e, m4 e he, hen⟩
    · subst hx hy
      have e1 : x + 2 * (-1) = x - 2 := by ring
      have e2 : y + 2 * 0 = y := by ring
      rw [e1, e2] at hno hq ⊢
      obtain ⟨e, he, hen⟩ := f3 (by simp only [decide_eq_true_eq]; omega) hno
      exact ⟨e, m3 e he, hen⟩

/-! ## One step of `generate` -/

theorem idx?_getElem? {α : Type} (s : List α) (i : Int) (h0 : 0 ≤ i) :
    idx? s i = s[i.toNat]? := by
  unfold idx?
  rw [if_neg (by omega)]

theorem measure_pos_le (s : State) : s.h.length ≤ measure s := by
  unfold measure
  omega

/-- The step at the label `loop`: the four guarded pushes. -/
theorem step_expand (m : maze) (ha : Admissible m) (s : State) (hi : Inv m s)
    (hat : s.atLoop = true) :
    ∃ h1 new, step m s = Status.running { s with h := h1, atLoop := false } ∧
      IsHeap h1 ∧ h1.Perm (new ++ s.h) ∧ new.length ≤ 4 ∧
      (∀ e ∈ new, e.a = s.age ∧ EdgeOk m s.cells e) ∧
      Inv m { s with h := h1, atLoop := false } := by
  obtain ⟨x, y, hr, hp, ho⟩ := hi.cur
  obtain ⟨h1, new, e1, k1, p1, l1, a1, f1⟩ :=
    expand_spec m ha s.cells hi.len hi.bits s.h hi.heap s.age x y hr ho
  refine ⟨h1, new, ?_, k1, p1, l1, a1, ?_⟩
  · unfold step
    rw [if_pos hat, hp, e1]
  · refine
      { len := hi.len, bits := hi.bits, cur := hi.cur, startOpen := hi.startOpen,
        edges := ?_, opens := hi.opens, tree := hi.tree, front := ?_, heap := k1 }
    · intro e he
      rcases List.mem_append.1 (p1.subset he) with h | h
      · exact (a1 e h).2
      · exact hi.edges e h
    · intro x1 y1 dx dy hr1 ho1 _ hd hq hno
      by_cases hc : m.index x1 y1 = s.p
      · rw [hp] at hc
        obtain ⟨hx, hy⟩ := index_inj m ha x1 y1 x y (room_inGrid m _ _ hr1)
          (room_inGrid m _ _ hr) hc
        subst hx hy
        exact f1 dx dy hd hq hno
      · obtain ⟨e, he, hen⟩ := hi.front x1 y1 dx dy hr1 ho1 (fun _ => hc) hd hq hno
        exact ⟨e, p1.symm.subset (List.mem_append_right _ he), hen⟩

/-- The step at the head of the `for` loop with a non-empty frontier: what is
popped, and the two ways on. -/
theorem step_pop (m : maze) (ha : Admissible m) (s : State) (hi : Inv m s)
    (hat : s.atLoop = false) (hne : 0 < s.h.length) :
    ∃ item h1 x y dx dy, heapPop s.h = Res.ok (item, h1) ∧ s.h.Perm (item :: h1) ∧
      IsHeap h1 ∧ (∀ e ∈ s.h, key e ≤ key item) ∧
      Dir dx dy ∧ IsRoom m x y ∧ IsRoom m (x + 2 * dx) (y + 2 * dy) ∧
      Open m s.cells (x + 2 * dx) (y + 2 * dy) ∧
      item.n = m.index x y ∧ item.p = m.index (x + dx) (y + dy) ∧
      m.weight item.n item.p = some item.v ∧
      ((Open m s.cells x y ∧ step m s = Status.running { s with h := h1 }) ∨
       (cellAt m s.cells x y = some 1 ∧ ∃ c2,
          step m s = Status.running
            { cells := c2, h := h1, p := item.n, age := item.a + 1, atLoop := true } ∧
          (c2.length : Int) = m.Dx * m.Dy ∧ (∀ v ∈ c2, v = 0 ∨ v = 1) ∧
          c2.sum < s.cells.sum ∧
          (∀ x1 y1, InGrid m x1 y1 → cellAt m c2 x1 y1 =
            if (x1 = x ∧ y1 = y) ∨ (x1 = x + dx ∧ y1 = y + dy) then some 0
            else cellAt m s.cells x1 y1))) := by
  obtain ⟨item, h1, e1, p1, k1, _, mx⟩ := heapPop_spec s.h hi.heap hne
  have hmem : item ∈ s.h := p1.symm.subset (List.mem_cons_self _ _)
  obtain ⟨x, y, dx, dy, hd, hr, hq, hqo, hn, hp, hw⟩ := hi.edges item hmem
  refine ⟨item, h1, x, y, dx, dy, e1, p1, k1, mx, hd, hr, hq, hqo, hn, hp, hw, ?_⟩
  have hg := room_inGrid m x y hr
  have hgw : InGrid m (x + dx) (y + dy) := by
    unfold IsRoom at hr hq
    unfold Dir at hd
    unfold InGrid
    omega
  obtain ⟨c, hc, hcm⟩ := cellAt_some m ha s.cells hi.len x y hg
  have hlen : ¬ (s.h.Len ≤ 0) := by
    unfold edgeHeap.Len
    omega
  rcases hi.bits c hcm with h0 | h1c
  · left
    subst h0
    refine ⟨hc, ?_⟩
    unfold step
    rw [if_neg (by rw [hat]; simp), if_pos (by unfold edgeHeap.Len; omega), e1]
    simp only
    unfold cellAt at hc
    rw [hn, hc]
    simp
  · right
    subst h1c
    refine ⟨hc, ?_⟩
    obtain ⟨c1, hu1, hl1, hb1, hc1, hs1⟩ := cellAt_upd m ha s.cells hi.len x y hg 0
    obtain ⟨c2, hu2, hl2, hb2, hc2, hs2⟩ := cellAt_upd m ha c1 hl1 (x + dx) (y + dy) hgw 0
    refine ⟨c2, ?_, hl2, ?_, ?_, ?_⟩
    · unfold step
      rw [if_neg (by rw [hat]; simp), if_pos (by unfold edgeHeap.Len; omega), e1]
      simp only
      unfold cellAt at hc
      rw [hn, hc]
      simp only
      rw [if_neg (by omega), hu1]
      simp only
      rw [hp, hu2]
    · intro v hv
      rcases hb2 v hv with h | h
      · exact Or.inl h
      · rcases hb1 v h with h | h
        · exact Or.inl h
        · exact hi.bits v h
    · have hr1 := index_range m ha x y hg
      have hr2 := index_range m ha (x + dx) (y + dy) hgw
      have g1 : s.cells[(m.index x y).toNat]? = some 1 := by
        rw [← idx?_getElem? _ _ hr1.1]
        exact hc
      obtain ⟨v, hv, _⟩ := idx?_of_range c1 (m.index (x + dx) (y + dy)) hr2.1 (by omega)
      rw [idx?_getElem? _ _ hr2.1] at hv
      have s1 := sum_set_zero s.cells _ 1 g1
      have s2 := sum_set_zero c1 _ v hv
      rw [← hs1] at s1
      rw [← hs2] at s2
      omega
    · intro x1 y1 hg1
      rw [hc2 x1 y1 hg1, hc1 x1 y1 hg1]
      by_cases a : x1 = x + dx ∧ y1 = y + dy
      · rw [if_pos a, if_pos (Or.inr a)]
      · by_cases b : x1 = x ∧ y1 = y
        · rw [if_neg a, if_pos b, if_pos (Or.inl b)]
        · rw [if_neg a, if_neg b, if_neg (by tauto)]

/-- The step at the head of the `for` loop with an empty frontier: the return. -/
theorem step_done (m : maze) (s : State) (hat : s.atLoop = false) (he : s.h = []) :
    step m s = Status.done s.cells := by
  unfold step
  rw [if_neg (by rw [hat]; simp), if_neg (by rw [he]; simp [edgeHeap.Len])]


/-! ## The invariant is kept by a pop -/

theorem open_congr (m : maze) (cells : List Nat) (a b a1 b1 : Int) (ha : a = a1)
    (hb : b = b1) (h : Open m cells a b) : Open m cells a1 b1 := by
  subst ha hb
  exact h

theorem isRoom_congr (m : maze) (a b a1 b1 : Int) (ha : a = a1)
    (hb : b = b1) (h : IsRoom m a b) : IsRoom m a1 b1 := by
  subst ha hb
  exact h

/-- An open wall cell next to a room joins two open rooms. -/
theorem wall_open_ends (m : maze) (ha : Admissible m) (s : State) (hi : Inv m s)
    (x y dx dy : Int)
    (hr : IsRoom m x y) (hd : Dir dx dy) (ho : Open m s.cells (x + dx) (y + dy)) :
    Open m s.cells x y ∧ IsRoom m (x + 2 * dx) (y + 2 * dy) ∧
      Open m s.cells (x + 2 * dx) (y + 2 * dy) := by
  have hg : InGrid m (x + dx) (y + dy) := by
    obtain ⟨_, _, hwo, hho, _, _⟩ := ha
    unfold IsRoom at hr
    unfold Dir at hd
    unfold InGrid
    omega
  rcases hi.opens _ _ hg ho with h | ⟨ex, ey, he, hr1, hr2, ho1, ho2⟩
  · exfalso
    unfold IsRoom at hr h
    unfold Dir at hd
    omega
  · have hcase : (ex = dx ∧ ey = dy) ∨ (ex = -dx ∧ ey = -dy) := by
      unfold IsRoom at hr hr1 hr2
      unfold Dir at hd he
      omega
    rcases hcase with ⟨h1, h2⟩ | ⟨h1, h2⟩
    · subst h1 h2
      exact ⟨open_congr m _ _ _ _ _ (by omega) (by omega) ho2,
        isRoom_congr m _ _ _ _ (by omega) (by omega) hr1,
        open_congr m _ _ _ _ _ (by omega) (by omega) ho1⟩
    · subst h1 h2
      exact ⟨open_congr m _ _ _ _ _ (by omega) (by omega) ho1,
        isRoom_congr m _ _ _ _ (by omega) (by omega) hr2,
        open_congr m _ _ _ _ _ (by omega) (by omega) ho2⟩

/-- A stale edge is discarded: the invariant is kept and the measure drops. -/
theorem inv_discard (m : maze) (ha : Admissible m) (s : State) (hi : Inv m s)
    (hat : s.atLoop = false) (item : edge) (h1 : edgeHeap) (x y : Int)
    (hp : s.h.Perm (item :: h1)) (hk : IsHeap h1) (hr : IsRoom m x y)
    (hn : item.n = m.index x y) (ho : Open m s.cells x y) :
    Inv m { s with h := h1 } ∧ measure { s with h := h1 } < measure s := by
  constructor
  · refine
      { len := hi.len, bits := hi.bits, cur := hi.cur, startOpen := hi.startOpen,
        edges := ?_, opens := hi.opens, tree := hi.tree, front := ?_, heap := hk }
    · intro e he
      exact hi.edges e (hp.symm.subset (List.mem_cons_of_mem _ he))
    · intro x1 y1 dx dy hr1 ho1 _ hd hq hno
      obtain ⟨e, he, hen⟩ := hi.front x1 y1 dx dy hr1 ho1 (by rw [hat]; simp) hd hq hno
      rcases List.mem_cons.1 (hp.subset he) with h | h
      · exfalso
        rw [h, hn] at hen
        obtain ⟨hx, hy⟩ := index_inj m ha _ _ _ _ (room_inGrid m _ _ hr)
          (room_inGrid m _ _ hq) hen
        rw [← hx, ← hy] at hno
        exact hno ho
      · exact ⟨e, h, hen⟩
  · have := hp.length_eq
    simp at this
    unfold measure
    simp only
    omega


theorem bumpOrd_eq (ord : Int → Int → Nat) (x y : Int) (N : Nat) (a b : Int)
    (h : a = x ∧ b = y) : bumpOrd ord x y N a b = N := by
  unfold bumpOrd
  rw [if_pos h]

theorem bumpOrd_ne (ord : Int → Int → Nat) (x y : Int) (N : Nat) (a b : Int)
    (h : ¬ (a = x ∧ b = y)) : bumpOrd ord x y N a b = ord a b := by
  unfold bumpOrd
  rw [if_neg h]

theorem geo_not_room (a b x y ex ey : Int) (ha : a % 2 = 1) (hb : b % 2 = 1)
    (hx : x % 2 = 1) (hy : y % 2 = 1) (he : Dir ex ey) :
    ¬ (a + ex = x ∧ b + ey = y) := by
  unfold Dir at he
  omega

theorem geo_across (a b x y dx dy ex ey : Int) (ha : a % 2 = 1) (hb : b % 2 = 1)
    (hx : x % 2 = 1) (hy : y % 2 = 1) (hd : Dir dx dy) (he : Dir ex ey)
    (h1 : a + ex = x + dx ∧ b + ey = y + dy) (hne : ¬ (a = x ∧ b = y)) :
    a + 2 * ex = x ∧ b + 2 * ey = y := by
  unfold Dir at he hd
  omega

/-- The tree order is kept by a carve. -/
theorem treeOrd_carve (m : maze) (ha : Admissible m) (s : State) (hi : Inv m s)
    (x y dx dy : Int) (c2 : List Nat) (hd : Dir dx dy) (hr : IsRoom m x y)
    (hq : IsRoom m (x + 2 * dx) (y + 2 * dy))
    (hqo : Open m s.cells (x + 2 * dx) (y + 2 * dy))
    (hclosed : ¬ Open m s.cells x y)
    (mono : ∀ a b, InGrid m a b → Open m s.cells a b → Open m c2 a b)
    (newo : ∀ a b, InGrid m a b → Open m c2 a b →
      (a = x ∧ b = y) ∨ (a = x + dx ∧ b = y + dy) ∨ Open m s.cells a b)
    (onew : Open m c2 (x + dx) (y + dy))
    (ord : Int → Int → Nat) (N : Nat) (ht : TreeOrd m s.cells ord N) :
    TreeOrd m c2 (bumpOrd ord x y N) (N + 1) := by
  obtain ⟨t1, t2, t3, t4⟩ := ht
  obtain ⟨_, _, hwo, hho, _, _⟩ := ha
  have ha : Admissible m := ⟨by assumption, by assumption, hwo, hho, by assumption, by assumption⟩
  have hrN := hr
  have hqN := hq
  have hdN := hd
  unfold IsRoom at hrN hqN
  unfold Dir at hdN
  have old : ∀ a b, Open m s.cells a b → ¬ (a = x ∧ b = y) := by
    intro a b ho h
    rw [h.1, h.2] at ho
    exact hclosed ho
  have roomOpen : ∀ a b, IsRoom m a b → Open m c2 a b →
      (a = x ∧ b = y) ∨ Open m s.cells a b := by
    intro a b hra hoa
    rcases newo a b (room_inGrid m _ _ hra) hoa with h | h | h
    · exact Or.inl h
    · exfalso
      unfold IsRoom at hra
      omega
    · exact Or.inr h
  have stepGrid : ∀ a b ex ey, IsRoom m a b → Dir ex ey → InGrid m (a + ex) (b + ey) := by
    intro a b ex ey hra he
    unfold IsRoom at hra
    unfold Dir at he
    unfold InGrid
    omega
  refine ⟨?_, ?_, ?_, ?_⟩
  · intro a b hra hoa
    rcases roomOpen a b hra hoa with h | h
    · rw [bumpOrd_eq _ _ _ _ _ _ h]
      omega
    · rw [bumpOrd_ne _ _ _ _ _ _ (old a b h)]
      have := t1 a b hra h
      omega
  · intro a b a1 b1 hra hoa hra1 hoa1 heq
    rcases roomOpen a b hra hoa with h | h
    · rcases roomOpen a1 b1 hra1 hoa1 with h1 | h1
      · omega
      · rw [bumpOrd_eq _ _ _ _ _ _ h, bumpOrd_ne _ _ _ _ _ _ (old a1 b1 h1)] at heq
        have := t1 a1 b1 hra1 h1
        omega
    · rcases roomOpen a1 b1 hra1 hoa1 with h1 | h1
      · rw [bumpOrd_eq _ _ _ _ _ _ h1, bumpOrd_ne _ _ _ _ _ _ (old a b h)] at heq
        have := t1 a b hra h
        omega
      · rw [bumpOrd_ne _ _ _ _ _ _ (old a b h), bumpOrd_ne _ _ _ _ _ _ (old a1 b1 h1)] at heq
        exact t2 a b a1 b1 hra h hra1 h1 heq
  · intro a b hra hoa hns
    rcases roomOpen a b hra hoa with h | h
    · obtain ⟨h1, h2⟩ := h
      subst h1 h2
      refine ⟨dx, dy, hd, onew, hq, mono _ _ (room_inGrid m _ _ hq) hqo, ?_⟩
      rw [bumpOrd_eq _ _ _ _ _ _ ⟨rfl, rfl⟩, bumpOrd_ne _ _ _ _ _ _ (old _ _ hqo)]
      exact t1 _ _ hq hqo
    · obtain ⟨ex, ey, he, ho1, hr2, ho2, hlt⟩ := t3 a b hra h hns
      refine ⟨ex, ey, he, mono _ _ (stepGrid a b ex ey hra he) ho1, hr2,
        mono _ _ (room_inGrid m _ _ hr2) ho2, ?_⟩
      rw [bumpOrd_ne _ _ _ _ _ _ (old _ _ ho2), bumpOrd_ne _ _ _ _ _ _ (old _ _ h)]
      exact hlt
  · intro a b d1x d1y d2x d2y hra hoa hd1 hd2 ho1 ho2 hlt1 hlt2
    have hraN := hra
    have hd1N := hd1
    have hd2N := hd2
    unfold IsRoom at hraN
    unfold Dir at hd1N hd2N
    rcases roomOpen a b hra hoa with h | h
    · obtain ⟨h1, h2⟩ := h
      subst h1 h2
      have key1 : ∀ ex ey, Dir ex ey → Open m c2 (a + ex) (b + ey) → ex = dx ∧ ey = dy := by
        intro ex ey he ho
        have heN := he
        unfold Dir at heN
        rcases newo _ _ (stepGrid a b ex ey hra he) ho with h | h | h
        · omega
        · omega
        · exact absurd (wall_open_ends m ha s hi a b ex ey hra he h).1 hclosed
      have k1 := key1 d1x d1y hd1 ho1
      have k2 := key1 d2x d2y hd2 ho2
      omega
    · have hne := old a b h
      have hN := t1 a b hra h
      rw [bumpOrd_ne _ _ _ _ _ _ hne] at hlt1 hlt2
      have key2 : ∀ ex ey, Dir ex ey → Open m c2 (a + ex) (b + ey) →
          bumpOrd ord x y N (a + 2 * ex) (b + 2 * ey) < ord a b →
          Open m s.cells (a + ex) (b + ey) ∧ ord (a + 2 * ex) (b + 2 * ey) < ord a b := by
        intro ex ey he ho hlt
        rcases newo _ _ (stepGrid a b ex ey hra he) ho with h1 | h1 | h1
        · exact absurd h1 (geo_not_room a b x y ex ey hraN.2.2.2.2.1 hraN.2.2.2.2.2
            hrN.2.2.2.2.1 hrN.2.2.2.2.2 he)
        · exfalso
          have hcase := geo_across a b x y dx dy ex ey hraN.2.2.2.2.1 hraN.2.2.2.2.2
            hrN.2.2.2.2.1 hrN.2.2.2.2.2 hd he h1 hne
          rw [bumpOrd_eq _ _ _ _ _ _ hcase] at hlt
          exact absurd hlt (by omega)
        · have hw := wall_open_ends m ha s hi a b ex ey hra he h1
          rw [bumpOrd_ne _ _ _ _ _ _ (old _ _ hw.2.2)] at hlt
          exact ⟨h1, hlt⟩
      obtain ⟨o1, l1⟩ := key2 d1x d1y hd1 ho1 hlt1
      obtain ⟨o2, l2⟩ := key2 d2x d2y hd2 ho2 hlt2
      exact t4 a b d1x d1y d2x d2y hra h hd1 hd2 o1 o2 l1 l2


/-- A carve keeps the invariant and lowers the measure. -/
theorem inv_carve (m : maze) (ha : Admissible m) (s : State) (hi : Inv m s)
    (hat : s.atLoop = false) (item : edge) (h1 : edgeHeap) (x y dx dy : Int) (c2 : List Nat)
    (hp : s.h.Perm (item :: h1)) (hk : IsHeap h1) (hd : Dir dx dy) (hr : IsRoom m x y)
    (hq : IsRoom m (x + 2 * dx) (y + 2 * dy))
    (hqo : Open m s.cells (x + 2 * dx) (y + 2 * dy))
    (hn : item.n = m.index x y) (hc : cellAt m s.cells x y = some 1)
    (hl2 : (c2.length : Int) = m.Dx * m.Dy) (hb2 : ∀ v ∈ c2, v = 0 ∨ v = 1)
    (hsum : c2.sum < s.cells.sum)
    (hcell : ∀ x1 y1, InGrid m x1 y1 → cellAt m c2 x1 y1 =
      if (x1 = x ∧ y1 = y) ∨ (x1 = x + dx ∧ y1 = y + dy) then some 0
      else cellAt m s.cells x1 y1) :
    Inv m { cells := c2, h := h1, p := item.n, age := item.a + 1, atLoop := true } ∧
      measure { cells := c2, h := h1, p := item.n, age := item.a + 1, atLoop := true }
        < measure s := by
  have hg := room_inGrid m x y hr
  have hrN := hr
  have hqN := hq
  have hdN := hd
  unfold IsRoom at hrN hqN
  unfold Dir at hdN
  have hgw : InGrid m (x + dx) (y + dy) := by
    unfold InGrid
    omega
  have hclosed : ¬ Open m s.cells x y := by
    unfold Open
    rw [hc]
    simp [PASSAGE]
  have mono : ∀ a b, InGrid m a b → Open m s.cells a b → Open m c2 a b := by
    intro a b hab ho
    unfold Open
    rw [hcell a b hab]
    split
    · rfl
    · exact ho
  have newo : ∀ a b, InGrid m a b → Open m c2 a b →
      (a = x ∧ b = y) ∨ (a = x + dx ∧ b = y + dy) ∨ Open m s.cells a b := by
    intro a b hab ho
    unfold Open at ho
    rw [hcell a b hab] at ho
    by_cases h : (a = x ∧ b = y) ∨ (a = x + dx ∧ b = y + dy)
    · rcases h with h | h
      · exact Or.inl h
      · exact Or.inr (Or.inl h)
    · rw [if_neg h] at ho
      exact Or.inr (Or.inr ho)
  have onew : Open m c2 (x + dx) (y + dy) := by
    unfold Open
    rw [hcell _ _ hgw, if_pos (Or.inr ⟨rfl, rfl⟩)]
    rfl
  have oroom : Open m c2 x y := by
    unfold Open
    rw [hcell _ _ hg, if_pos (Or.inl ⟨rfl, rfl⟩)]
    rfl
  constructor
  · refine
      { len := hl2, bits := hb2, cur := ⟨x, y, hr, hn, oroom⟩,
        startOpen := mono _ _ (room_inGrid m _ _ (start_isRoom m ha)) hi.startOpen,
        edges := ?_, opens := ?_, tree := ?_, front := ?_, heap := hk }
    · intro e he
      obtain ⟨ex, ey, fx, fy, hf, hre, hqe, hoe, hne, hpe, hwe⟩ :=
        hi.edges e (hp.symm.subset (List.mem_cons_of_mem _ he))
      exact ⟨ex, ey, fx, fy, hf, hre, hqe, mono _ _ (room_inGrid m _ _ hqe) hoe, hne, hpe, hwe⟩
    · intro a b hab ho
      rcases newo a b hab ho with h | h | h
      · left
        rw [h.1, h.2]
        exact hr
      · right
        obtain ⟨h1, h2⟩ := h
        subst h1 h2
        refine ⟨dx, dy, hd, isRoom_congr m _ _ _ _ (by omega) (by omega) hq,
          isRoom_congr m _ _ _ _ (by omega) (by omega) hr,
          open_congr m _ _ _ _ _ (by omega) (by omega)
            (mono _ _ (room_inGrid m _ _ hq) hqo),
          open_congr m _ _ _ _ _ (by omega) (by omega) oroom⟩
      · rcases hi.opens a b hab h with h1 | ⟨ex, ey, he, hr1, hr2, ho1, ho2⟩
        · exact Or.inl h1
        · exact Or.inr ⟨ex, ey, he, hr1, hr2, mono _ _ (room_inGrid m _ _ hr1) ho1,
            mono _ _ (room_inGrid m _ _ hr2) ho2⟩
    · obtain ⟨ord, N, ht⟩ := hi.tree
      exact ⟨bumpOrd ord x y N, N + 1,
        treeOrd_carve m ha s hi x y dx dy c2 hd hr hq hqo hclosed mono newo onew ord N ht⟩
    · intro a b ex ey hra hoa hne he hqe hno
      have hab : ¬ (a = x ∧ b = y) := by
        intro h
        apply hne rfl
        show m.index a b = item.n
        rw [hn, h.1, h.2]
      have hold : Open m s.cells a b := by
        rcases newo a b (room_inGrid m _ _ hra) hoa with h | h | h
        · exact absurd h hab
        · exfalso
          unfold IsRoom at hra
          omega
        · exact h
      have hno1 : ¬ Open m s.cells (a + 2 * ex) (b + 2 * ey) :=
        fun h => hno (mono _ _ (room_inGrid m _ _ hqe) h)
      obtain ⟨e, hmem, hen⟩ := hi.front a b ex ey hra hold (by rw [hat]; simp) he hqe hno1
      rcases List.mem_cons.1 (hp.subset hmem) with h | h
      · exfalso
        rw [h, hn] at hen
        obtain ⟨hx, hy⟩ := index_inj m ha _ _ _ _ hg (room_inGrid m _ _ hqe) hen
        rw [← hx, ← hy] at hno
        exact hno oroom
      · exact ⟨e, h, hen⟩
  · have := hp.length_eq
    simp at this
    unfold measure
    simp only
    rw [hat]
    simp
    omega

/-- Every step from a state that satisfies the invariant either leads to a
state that satisfies it, with a smaller measure, or is the return. -/
theorem step_progress (m : maze) (ha : Admissible m) (s : State) (hi : Inv m s) :
    (∃ s1, step m s = Status.running s1 ∧ Inv m s1 ∧ measure s1 < measure s) ∨
    (step m s = Status.done s.cells ∧ s.atLoop = false ∧ s.h = []) := by
  cases hat : s.atLoop with
  | true =>
    left
    obtain ⟨h1, new, e1, _, p1, l1, _, i1⟩ := step_expand m ha s hi hat
    refine ⟨_, e1, i1, ?_⟩
    have := p1.length_eq
    simp at this
    unfold measure
    simp only
    rw [hat]
    simp
    omega
  | false =>
    by_cases hne : 0 < s.h.length
    · left
      obtain ⟨item, h1, x, y, dx, dy, _, p1, k1, _, hd, hr, hq, hqo, hn, _, _, hcase⟩ :=
        step_pop m ha s hi hat hne
      rcases hcase with ⟨ho, hs⟩ | ⟨hc, c2, hs, hl2, hb2, hsum, hcell⟩
      · obtain ⟨i1, m1⟩ := inv_discard m ha s hi hat item h1 x y p1 k1 hr hn ho
        exact ⟨_, hs, i1, m1⟩
      · obtain ⟨i1, m1⟩ := inv_carve m ha s hi hat item h1 x y dx dy c2 p1 k1 hd hr hq hqo
          hn hc hl2 hb2 hsum hcell
        exact ⟨_, hs, i1, m1⟩
    · right
      have he : s.h = [] := List.length_eq_zero.1 (by omega)
      exact ⟨step_done m s hat he, rfl, he⟩


/-! ## The run of `generate` -/

/-- Every state that `generate` reaches satisfies the invariant, and the run
is over after at most as many steps as the measure of the first state. -/
theorem run_inv (m : maze) (ha : Admissible m) : ∀ k,
    (∃ s, runSteps m k = Status.running s ∧ Inv m s ∧
      measure s + k + 7 ≤ stepBound m) ∨
    (∃ s, runSteps m k = Status.done s.cells ∧ Inv m s ∧ s.atLoop = false ∧ s.h = []) := by
  intro k
  induction k with
  | zero =>
    left
    obtain ⟨s, hs, hi, hat, _, hh, _, hsum⟩ := start_spec m ha
    refine ⟨s, hs, hi, ?_⟩
    unfold measure stepBound
    rw [hat, hh]
    simp
    omega
  | succ k ih =>
    rcases ih with ⟨s, hs, hi, hm⟩ | ⟨s, hs, hi, hat, hh⟩
    · rcases step_progress m ha s hi with ⟨s1, e1, i1, m1⟩ | ⟨e1, hat, hh⟩
      · left
        refine ⟨s1, ?_, i1, by omega⟩
        show (runSteps m k).next m = _
        rw [hs]
        exact e1
      · right
        refine ⟨s, ?_, hi, hat, hh⟩
        show (runSteps m k).next m = _
        rw [hs]
        exact e1
    · right
      refine ⟨s, ?_, hi, hat, hh⟩
      show (runSteps m k).next m = _
      rw [hs]
      rfl

/-- Every state that `generate` reaches satisfies the invariant. -/
theorem reach_inv (m : maze) (ha : Admissible m) (k : Nat) (s : State)
    (hs : runSteps m k = Status.running s) : Inv m s := by
  rcases run_inv m ha k with ⟨s1, h1, i1, _⟩ | ⟨s1, h1, _⟩
  · rw [hs] at h1
    cases h1
    exact i1
  · rw [hs] at h1
    cases h1

/-- The carver returns: `generate` ends with a cell grid, the one of a state
that satisfies the invariant and has an empty frontier. -/
theorem generate_spec (m : maze) (ha : Admissible m) :
    ∃ s, generate m = Res.ok s.cells ∧ Inv m s ∧ s.atLoop = false ∧ s.h = [] := by
  rcases run_inv m ha (stepBound m) with ⟨s, _, _, hm⟩ | ⟨s, hs, hi, hat, hh⟩
  · omega
  · refine ⟨s, ?_, hi, hat, hh⟩
    unfold generate
    rw [hs]


/-! ## The finished grid -/

/-- With an empty frontier every room next to a `PASSAGE` room is `PASSAGE`. -/
theorem final_closure (m : maze) (s : State) (hi : Inv m s) (hat : s.atLoop = false)
    (hh : s.h = []) (x y dx dy : Int) (hr : IsRoom m x y) (ho : Open m s.cells x y)
    (hd : Dir dx dy) (hq : IsRoom m (x + 2 * dx) (y + 2 * dy)) :
    Open m s.cells (x + 2 * dx) (y + 2 * dy) := by
  by_contra hno
  obtain ⟨e, he, _⟩ := hi.front x y dx dy hr ho (by rw [hat]; simp) hd hq hno
  rw [hh] at he
  simp at he

theorem final_row (m : maze) (s : State) (hi : Inv m s) (hat : s.atLoop = false)
    (hh : s.h = []) (x y : Int) (hr : IsRoom m x y) (ho : Open m s.cells x y) :
    ∀ (n : Nat) (x1 : Int), IsRoom m x1 y → (x1 = x + 2 * n ∨ x1 = x - 2 * n) →
      Open m s.cells x1 y := by
  intro n
  induction n with
  | zero =>
    intro x1 _ h
    have : x1 = x := by omega
    rw [this]
    exact ho
  | succ n ih =>
    intro x1 hr1 h
    have hrN := hr
    have hr1N := hr1
    unfold IsRoom at hrN hr1N
    rcases h with h | h
    · have hr2 : IsRoom m (x1 - 2) y := by unfold IsRoom; omega
      have ho2 := ih (x1 - 2) hr2 (Or.inl (by omega))
      have := final_closure m s hi hat hh (x1 - 2) y 1 0 hr2 ho2 (by unfold Dir; omega)
        (isRoom_congr m _ _ _ _ (by omega) (by omega) hr1)
      exact open_congr m _ _ _ _ _ (by omega) (by omega) this
    · have hr2 : IsRoom m (x1 + 2) y := by unfold IsRoom; omega
      have ho2 := ih (x1 + 2) hr2 (Or.inr (by omega))
      have := final_closure m s hi hat hh (x1 + 2) y (-1) 0 hr2 ho2 (by unfold Dir; omega)
        (isRoom_congr m _ _ _ _ (by omega) (by omega) hr1)
      exact open_congr m _ _ _ _ _ (by omega) (by omega) this

theorem final_col (m : maze) (s : State) (hi : Inv m s) (hat : s.atLoop = false)
    (hh : s.h = []) (x y : Int) (hr : IsRoom m x y) (ho : Open m s.cells x y) :
    ∀ (n : Nat) (y1 : Int), IsRoom m x y1 → (y1 = y + 2 * n ∨ y1 = y - 2 * n) →
      Open m s.cells x y1 := by
  intro n
  induction n with
  | zero =>
    intro y1 _ h
    have : y1 = y := by omega
    rw [this]
    exact ho
  | succ n ih =>
    intro y1 hr1 h
    have hrN := hr
    have hr1N := hr1
    unfold IsRoom at hrN hr1N
    rcases h with h | h
    · have hr2 : IsRoom m x (y1 - 2) := by unfold IsRoom; omega
      have ho2 := ih (y1 - 2) hr2 (Or.inl (by omega))
      have := final_closure m s hi hat hh x (y1 - 2) 0 1 hr2 ho2 (by unfold Dir; omega)
        (isRoom_congr m _ _ _ _ (by omega) (by omega) hr1)
      exact open_congr m _ _ _ _ _ (by omega) (by omega) this
    · have hr2 : IsRoom m x (y1 + 2) := by unfold IsRoom; omega
      have ho2 := ih (y1 + 2) hr2 (Or.inr (by omega))
      have := final_closure m s hi hat hh x (y1 + 2) 0 (-1) hr2 ho2 (by unfold Dir; omega)
        (isRoom_congr m _ _ _ _ (by omega) (by omega) hr1)
      exact open_congr m _ _ _ _ _ (by omega) (by omega) this

theorem even_diff (a b : Int) (ha : a % 2 = 1) (hb : b % 2 = 1) :
    ∃ n : Nat, b = a + 2 * n ∨ b = a - 2 * n := by
  refine ⟨((b - a) / 2).natAbs, ?_⟩
  omega

/-- With an empty frontier every room is `PASSAGE`. -/
theorem final_all_rooms (m : maze) (ha : Admissible m) (s : State) (hi : Inv m s)
    (hat : s.atLoop = false) (hh : s.h = []) (x y : Int) (hr : IsRoom m x y) :
    Open m s.cells x y := by
  have hs := start_isRoom m ha
  have hsN := hs
  have hrN := hr
  unfold IsRoom at hsN hrN
  have hmid : IsRoom m x (startY m) := by unfold IsRoom; omega
  obtain ⟨n1, h1⟩ := even_diff (startX m) x hsN.2.2.2.2.1 hrN.2.2.2.2.1
  obtain ⟨n2, h2⟩ := even_diff (startY m) y hsN.2.2.2.2.2 hrN.2.2.2.2.2
  have o1 := final_row m s hi hat hh _ _ hs hi.startOpen n1 x hmid h1
  exact final_col m s hi hat hh _ _ hmid o1 n2 y hr h2

/-- A cell of the grid that is not `PASSAGE` is `WALL`. -/
theorem wall_of_not_open (m : maze) (ha : Admissible m) (s : State) (hi : Inv m s)
    (x y : Int) (hg : InGrid m x y) (hno : ¬ Open m s.cells x y) :
    cellAt m s.cells x y = some WALL := by
  obtain ⟨v, hv, hm⟩ := cellAt_some m ha s.cells hi.len x y hg
  rcases hi.bits v hm with h | h
  · exfalso
    apply hno
    unfold Open
    rw [hv, h]
    rfl
  · rw [hv, h]
    rfl

/-- No cell of the outer frame is `PASSAGE`. -/
theorem border_not_open (m : maze) (ha : Admissible m) (s : State) (hi : Inv m s)
    (x y : Int) (hg : InGrid m x y)
    (hb : x = 0 ∨ x = m.Dx - 1 ∨ y = 0 ∨ y = m.Dy - 1) : ¬ Open m s.cells x y := by
  intro ho
  obtain ⟨_, _, hwo, hho, _, _⟩ := ha
  rcases hi.opens x y hg ho with h | ⟨dx, dy, hd, h1, h2, _, _⟩
  · unfold IsRoom at h
    omega
  · unfold IsRoom at h1 h2
    unfold Dir at hd
    omega

/-- No cell with two even coordinates is `PASSAGE`. -/
theorem even_not_open (m : maze) (s : State) (hi : Inv m s)
    (x y : Int) (hg : InGrid m x y) (hx : x % 2 = 0) (hy : y % 2 = 0) :
    ¬ Open m s.cells x y := by
  intro ho
  rcases hi.opens x y hg ho with h | ⟨dx, dy, hd, h1, h2, _, _⟩
  · unfold IsRoom at h
    omega
  · unfold IsRoom at h1 h2
    unfold Dir at hd
    omega


/-! ## Graphs with a carving order are trees -/

/-- A graph whose vertices are numbered injectively, such that no vertex has
two neighbours of smaller number, has no cycle. -/
theorem acyclic_of_ord {V : Type} (G : SimpleGraph V) (ord : V → Nat)
    (hinj : ∀ u v, ord u = ord v → u = v)
    (huniq : ∀ v a b, G.Adj v a → G.Adj v b → ord a < ord v → ord b < ord v → a = b) :
    G.IsAcyclic := by
  classical
  intro v c hc
  have hne : c.support.toFinset.Nonempty :=
    ⟨v, List.mem_toFinset.2 (SimpleGraph.Walk.start_mem_support c)⟩
  obtain ⟨w, hw, hmax⟩ := Finset.exists_max_image c.support.toFinset ord hne
  rw [List.mem_toFinset] at hw
  have hrot := hc.rotate hw
  have hmem : ∀ z, z ∈ (c.rotate hw).support.tail → ord z ≤ ord w := by
    intro z hz
    have h1 : z ∈ c.support.tail := (SimpleGraph.Walk.support_rotate c hw).mem_iff.1 hz
    exact hmax z (List.mem_toFinset.2 (List.mem_of_mem_tail h1))
  generalize c.rotate hw = c1 at hrot hmem
  cases c1 with
  | nil => exact hrot.ne_nil rfl
  | cons h p =>
    rename_i a
    rw [SimpleGraph.Walk.cons_isCycle_iff] at hrot
    obtain ⟨hpath, hnot⟩ := hrot
    rw [SimpleGraph.Walk.support_cons, List.tail_cons] at hmem
    cases p with
    | nil => exact G.loopless _ h
    | cons h2 p2 =>
      obtain ⟨x, q, h3, heq⟩ := SimpleGraph.Walk.exists_cons_eq_concat h2 p2
      rw [heq] at hnot hmem
      have hx : x ∈ (q.concat h3).support := by
        rw [SimpleGraph.Walk.support_concat]
        simp
      have hxa : a ∈ (q.concat h3).support := SimpleGraph.Walk.start_mem_support _
      have hax : a ≠ x := by
        intro hax
        subst hax
        apply hnot
        rw [SimpleGraph.Walk.edges_concat]
        simp [Sym2.eq_swap]
      have la : ord a < ord w := by
        have h1 := hmem a hxa
        have h2 : ord a ≠ ord w := fun h' => G.ne_of_adj h (hinj _ _ h').symm
        omega
      have lx : ord x < ord w := by
        have h1 := hmem x hx
        have h2 : ord x ≠ ord w := fun h' => G.ne_of_adj h3 (hinj _ _ h')
        omega
      exact hax (huniq w a x h h3.symm la lx)

/-- A graph in which every vertex but the root has a neighbour of smaller
number is connected. -/
theorem reachable_of_ord {V : Type} (G : SimpleGraph V) (ord : V → Nat) (root : V)
    (hpar : ∀ v, v ≠ root → ∃ p, G.Adj v p ∧ ord p < ord v) :
    ∀ v, G.Reachable v root := by
  have key : ∀ n v, ord v = n → G.Reachable v root := by
    intro n
    induction n using Nat.strong_induction_on with
    | _ n ih =>
      intro v hn
      by_cases hv : v = root
      · rw [hv]
      · obtain ⟨p, hadj, hlt⟩ := hpar v hv
        exact (SimpleGraph.Adj.reachable hadj).trans (ih (ord p) (by omega) p rfl)
  intro v
  exact key (ord v) v rfl


/-! ## Claims on the finished grid -/

theorem card_odd_range (n : Nat) :
    ((Finset.range n).filter (fun k => k % 2 = 1)).card = n / 2 := by
  induction n with
  | zero => rfl
  | succ n ih =>
    rw [Finset.range_succ, Finset.filter_insert]
    by_cases h : n % 2 = 1
    · rw [if_pos h, Finset.card_insert_of_not_mem (by simp), ih]
      omega
    · rw [if_neg h, ih]
      omega

theorem count_all_rooms (m : maze) (ha : Admissible m) (cells : List Nat)
    (hall : ∀ x y, IsRoom m x y → Open m cells x y) :
    (passageRoomCount m cells : Int) = ((m.Dx - 1) / 2) * ((m.Dy - 1) / 2) := by
  obtain ⟨_, _, hwo, hho, hw, hh⟩ := ha
  unfold passageRoomCount
  have hf : (Finset.range m.Dx.toNat ×ˢ Finset.range m.Dy.toNat).filter
      (fun q => q.1 % 2 = 1 ∧ q.2 % 2 = 1 ∧
        cellAt m cells (q.1 : Int) (q.2 : Int) = some PASSAGE)
      = (Finset.range m.Dx.toNat ×ˢ Finset.range m.Dy.toNat).filter
      (fun q => q.1 % 2 = 1 ∧ q.2 % 2 = 1) := by
    apply Finset.filter_congr
    intro q hq
    rw [Finset.mem_product, Finset.mem_range, Finset.mem_range] at hq
    constructor
    · intro h
      exact ⟨h.1, h.2.1⟩
    · intro h
      refine ⟨h.1, h.2, ?_⟩
      apply hall
      unfold IsRoom
      omega
  rw [hf, Finset.filter_product (fun k => k % 2 = 1) (fun k => k % 2 = 1),
    Finset.card_product, card_odd_range, card_odd_range]
  push_cast
  have e1 : ((m.Dx.toNat / 2 : Nat) : Int) = (m.Dx - 1) / 2 := by omega
  have e2 : ((m.Dy.toNat / 2 : Nat) : Int) = (m.Dy - 1) / 2 := by omega
  rw [← e1, ← e2]
  push_cast
  rfl

/-! ## Lemmas for the claims -/

set_option maxRecDepth 100000

theorem heapPop_nil : heapPop [] = Res.panic := rfl

/-- What is popped at the head of the `for` loop is determined by the state. -/
theorem pop_facts (m : maze) (ha : Admissible m) (s : State) (hi : Inv m s)
    (hat : s.atLoop = false) (item : edge) (h1 : edgeHeap)
    (hpop : heapPop s.h = Res.ok (item, h1)) :
    s.h.Perm (item :: h1) ∧ (∀ e ∈ s.h, key e ≤ key item) ∧
    ∃ x y dx dy, Dir dx dy ∧ IsRoom m x y ∧ IsRoom m (x + 2 * dx) (y + 2 * dy) ∧
      Open m s.cells (x + 2 * dx) (y + 2 * dy) ∧
      item.n = m.index x y ∧ item.p = m.index (x + dx) (y + dy) ∧
      m.weight item.n item.p = some item.v := by
  have hne : 0 < s.h.length := by
    rcases Nat.eq_zero_or_pos s.h.length with h | h
    · rw [List.length_eq_zero.1 h, heapPop_nil] at hpop
      cases hpop
    · exact h
  obtain ⟨item1, h2, x, y, dx, dy, e1, p1, _, mx, hd, hr, hq, hqo, hn, hp, hw, _⟩ :=
    step_pop m ha s hi hat hne
  rw [hpop] at e1
  cases e1
  exact ⟨p1, mx, x, y, dx, dy, hd, hr, hq, hqo, hn, hp, hw⟩

/-- The room graph of a grid with a carving order is a tree. -/
theorem roomGraph_tree (m : maze) (cells : List Nat) (ord : Int → Int → Nat) (N : Nat)
    (ht : TreeOrd m cells ord N) (hs : PassageRoom m cells (startX m, startY m)) :
    (roomGraph m cells).IsTree := by
  obtain ⟨_, t2, t3, t4⟩ := ht
  constructor
  · have hroot : ∀ v : { r : Int × Int // PassageRoom m cells r },
        (roomGraph m cells).Reachable v ⟨(startX m, startY m), hs⟩ := by
      apply reachable_of_ord (roomGraph m cells) (fun v => ord v.1.1 v.1.2)
      intro v hv
      have hns : ¬ (v.1.1 = startX m ∧ v.1.2 = startY m) := by
        intro h
        apply hv
        apply Subtype.ext
        exact Prod.ext h.1 h.2
      obtain ⟨dx, dy, hd, ho, hr, hro, hlt⟩ := t3 v.1.1 v.1.2 v.2.1 v.2.2 hns
      exact ⟨⟨(v.1.1 + 2 * dx, v.1.2 + 2 * dy), ⟨hr, hro⟩⟩, ⟨dx, dy, hd, rfl, rfl, ho⟩, hlt⟩
    exact
      { preconnected := fun u v => (hroot u).trans (hroot v).symm
        nonempty := ⟨⟨(startX m, startY m), hs⟩⟩ }
  · apply acyclic_of_ord (roomGraph m cells) (fun v => ord v.1.1 v.1.2)
    · intro u v h
      obtain ⟨h1, h2⟩ := t2 u.1.1 u.1.2 v.1.1 v.1.2 u.2.1 u.2.2 v.2.1 v.2.2 h
      apply Subtype.ext
      exact Prod.ext h1 h2
    · intro v a b hva hvb la lb
      obtain ⟨dx, dy, hd, a1, a2, ao⟩ := hva
      obtain ⟨ex, ey, he, b1, b2, bo⟩ := hvb
      rw [a1, a2] at la
      rw [b1, b2] at lb
      obtain ⟨h1, h2⟩ := t4 v.1.1 v.1.2 dx dy ex ey v.2.1 v.2.2 hd he ao bo la lb
      apply Subtype.ext
      apply Prod.ext
      · rw [a1, b1, h1]
      · rw [a2, b2, h2]

/-- The function `clamp(minDim, maxDim)` returns a value in `[11, 501]`. -/
theorem clamp_range (x : Int) : 11 ≤ clamp minDim maxDim x ∧ clamp minDim maxDim x ≤ 501 := by
  unfold clamp minDim maxDim
  split
  · omega
  · split <;> omega

/-- Whenever the custom size flag is off, or at least one of the two fields
parses, `index` passes odd dimensions in `[11, 501]`. -/
theorem indexDims_ok (scale : Int → Int → Int → Int) (customSize : Bool) (w : Int)
    (wOk : Bool) (h : Int) (hOk : Bool) (dimDx dimDy : Int)
    (hc : customSize = false ∨ wOk = true ∨ hOk = true) :
    (indexDims scale customSize w wOk h hOk dimDx dimDy).1 % 2 = 1 ∧
    11 ≤ (indexDims scale customSize w wOk h hOk dimDx dimDy).1 ∧
    (indexDims scale customSize w wOk h hOk dimDx dimDy).1 ≤ 501 ∧
    (indexDims scale customSize w wOk h hOk dimDx dimDy).2 % 2 = 1 ∧
    11 ≤ (indexDims scale customSize w wOk h hOk dimDx dimDy).2 ∧
    (indexDims scale customSize w wOk h hOk dimDx dimDy).2 ≤ 501 := by
  have fix : ∀ a : Int, 11 ≤ a → a ≤ 501 →
      (if a % 2 = 0 then a + 1 else a) % 2 = 1 ∧ 11 ≤ (if a % 2 = 0 then a + 1 else a) ∧
      (if a % 2 = 0 then a + 1 else a) ≤ 501 := by
    intro a h1 h2
    split <;> omega
  have cr := clamp_range
  unfold indexDims
  simp only
  cases customSize with
  | false =>
    simp only [Bool.false_eq_true, if_false]
    have f1 := fix _ (cr dimDx).1 (cr dimDx).2
    have f2 := fix _ (cr (scale (clamp minDim maxDim dimDx) dimDy dimDx)).1
      (cr (scale (clamp minDim maxDim dimDx) dimDy dimDx)).2
    exact ⟨f1.1, f1.2.1, f1.2.2, f2.1, f2.2.1, f2.2.2⟩
  | true =>
    cases wOk with
    | true =>
      cases hOk with
      | true =>
        simp only [Bool.and_self, if_true]
        have f1 := fix _ (cr w).1 (cr w).2
        have f2 := fix _ (cr h).1 (cr h).2
        exact ⟨f1.1, f1.2.1, f1.2.2, f2.1, f2.2.1, f2.2.2⟩
      | false =>
        simp only [Bool.and_false, Bool.false_eq_true, if_false, if_true]
        have f1 := fix _ (cr w).1 (cr w).2
        have f2 := fix _ (cr (scale (clamp minDim maxDim w) dimDy dimDx)).1
          (cr (scale (clamp minDim maxDim w) dimDy dimDx)).2
        exact ⟨f1.1, f1.2.1, f1.2.2, f2.1, f2.2.1, f2.2.2⟩
    | false =>
      cases hOk with
      | true =>
        simp only [Bool.false_and, Bool.false_eq_true, if_false, if_true]
        have f1 := fix _ (cr (scale (clamp minDim maxDim h) dimDx dimDy)).1
          (cr (scale (clamp minDim maxDim h) dimDx dimDy)).2
        have f2 := fix _ (cr h).1 (cr h).2
        exact ⟨f1.1, f1.2.1, f1.2.2, f2.1, f2.2.1, f2.2.2⟩
      | false =>
        simp at hc

theorem setRow_spec : ∀ (vs : List Nat) (p : Paletted) (y x : Int) (pre old post : List Nat),
    p.Pix = pre ++ old ++ post → old.length = vs.length →
    (pre.length : Int) = y * p.Stride + x → 0 ≤ x → x + vs.length ≤ p.Dx → 0 ≤ y →
    y < p.Dy →
    ∃ p1, setRow p y vs x = some p1 ∧ p1.Pix = pre ++ vs ++ post ∧
      p1.Stride = p.Stride ∧ p1.Dx = p.Dx ∧ p1.Dy = p.Dy := by
  intro vs
  induction vs with
  | nil =>
    intro p y x pre old post hp ho _ _ _ _ _
    have : old = [] := List.length_eq_zero.1 ho
    subst this
    exact ⟨p, rfl, by simpa using hp, rfl, rfl, rfl⟩
  | cons v vs ih =>
    intro p y x pre old post hp ho hpre hx0 hx1 hy0 hy1
    cases old with
    | nil => simp at ho
    | cons o old =>
      simp only [List.length_cons] at ho hx1
      have hset : upd? p.Pix (y * p.Stride + x) v = some (pre ++ v :: old ++ post) := by
        rw [← hpre]
        unfold upd?
        rw [if_neg (by omega)]
        have hlt : (pre.length : Int).toNat < p.Pix.length := by
          rw [hp]
          simp
        rw [if_pos hlt, hp]
        simp [List.set_append]
      unfold setRow
      unfold Paletted.SetColorIndex
      rw [if_pos ⟨hx0, by push_cast at hx1; omega, hy0, hy1⟩, hset]
      simp only
      obtain ⟨p1, e1, q1, s1, d1, d2⟩ := ih { p with Pix := pre ++ v :: old ++ post } y (x + 1)
        (pre ++ [v]) old post (by simp) (by omega)
        (by simp only [List.length_append, List.length_singleton]; push_cast; omega)
        (by omega) (by simp only; push_cast at hx1 ⊢; omega) hy0 hy1
      exact ⟨p1, e1, by rw [q1]; simp, s1, d1, d2⟩

theorem renderRows_spec (m : maze) (cells : List Nat) (W H : Nat) (hW : m.Dx = W)
    (hH : m.Dy = H) (hl : cells.length = H * W) :
    ∀ (fuel y : Nat) (p : Paletted), fuel + y = H → p.Stride = W → p.Dx = W → p.Dy = H →
      p.Pix = cells.take (y * W) ++ List.replicate ((H - y) * W) 0 →
      ∃ p1, renderRows m cells fuel (y : Int) ((y * W : Nat) : Int) p = Res.ok p1 ∧
        p1.Pix = cells ∧ p1.Stride = W ∧ p1.Dx = W ∧ p1.Dy = H := by
  intro fuel
  induction fuel with
  | zero =>
    intro y p hy hs hdx hdy hp
    have hyH : y = H := by omega
    subst hyH
    refine ⟨p, ?_, ?_, hs, hdx, hdy⟩
    · unfold renderRows
      rw [if_neg (by omega)]
    · rw [hp, List.take_of_length_le (by omega)]
      simp
  | succ fuel ih =>
    intro y p hy hs hdx hdy hp
    have hyH : y < H := by omega
    have hmul : y * W + W ≤ H * W := by
      have : (y + 1) * W ≤ H * W := Nat.mul_le_mul_right W (by omega)
      rw [Nat.add_mul, Nat.one_mul] at this
      exact this
    unfold renderRows
    rw [if_pos (by omega)]
    have hslice : slice? cells ((y * W : Nat) : Int) (((y * W : Nat) : Int) + m.Dx)
        = some ((cells.drop (y * W)).take W) := by
      have e1 : ((y * W : Nat) : Int).toNat = y * W := Int.toNat_natCast _
      have e2 : (((y * W : Nat) : Int) + (W : Int) - ((y * W : Nat) : Int)).toNat = W := by
        rw [add_sub_cancel_left]
        exact Int.toNat_natCast _
      unfold slice?
      rw [hW, if_pos ⟨by omega, by omega, by omega⟩, e1, e2]
    rw [hslice]
    simp only
    have hrep : List.replicate ((H - y) * W) 0
        = List.replicate W 0 ++ List.replicate ((H - (y + 1)) * W) 0 := by
      rw [← List.replicate_add]
      congr 1
      have : H - y = (H - (y + 1)) + 1 := by omega
      rw [this, Nat.add_mul, Nat.one_mul, Nat.add_comm]
    obtain ⟨p1, e1, q1, s1, d1, d2⟩ := setRow_spec ((cells.drop (y * W)).take W) p (y : Int) 0
      (cells.take (y * W)) (List.replicate W 0) (List.replicate ((H - (y + 1)) * W) 0)
      (by rw [hp, hrep, List.append_assoc])
      (by rw [List.length_replicate, List.length_take, List.length_drop]; omega)
      (by
        have : (cells.take (y * W)).length = y * W := by
          rw [List.length_take]
          omega
        rw [this, hs]
        push_cast
        ring)
      (le_refl _)
      (by rw [List.length_take, List.length_drop, hdx]; push_cast; omega)
      (by omega) (by rw [hdy]; omega)
    rw [e1]
    simp only
    have hpos : ((y * W : Nat) : Int) + m.Dx = (((y + 1) * W : Nat) : Int) := by
      rw [hW]
      push_cast
      ring
    have hy1 : (y : Int) + 1 = ((y + 1 : Nat) : Int) := by push_cast; rfl
    rw [hpos, hy1]
    apply ih (y + 1) p1 (by omega) (by rw [s1, hs]) (by rw [d1, hdx]) (by rw [d2, hdy])
    rw [q1, Nat.add_mul, Nat.one_mul, List.take_add]

/-- The renderer copies a cell grid of `width * height` cells into the raster. -/
theorem writeBase64_spec (m : maze) (cells : List Nat) (closeErr : Option String)
    (hw : 0 ≤ m.Dx) (hh : 0 ≤ m.Dy) (hl : (cells.length : Int) = m.Dx * m.Dy) :
    ∃ p, writeBase64 { m with grid := some cells } closeErr = Res.ok (some p, closeErr) ∧
      p.Pix = cells ∧ p.Stride = m.Dx ∧ p.Dx = m.Dx ∧ p.Dy = m.Dy := by
  obtain ⟨W, hW⟩ := Int.eq_ofNat_of_zero_le hw
  obtain ⟨H, hH⟩ := Int.eq_ofNat_of_zero_le hh
  have hl1 : cells.length = H * W := by
    rw [hW, hH] at hl
    have : ((cells.length : Nat) : Int) = ((H * W : Nat) : Int) := by
      rw [hl]; push_cast; ring
    exact_mod_cast this
  have hsz : (m.Dx * m.Dy).toNat = H * W := by
    rw [hW, hH]
    have : ((W : Int) * (H : Int)) = ((H * W : Nat) : Int) := by push_cast; ring
    rw [this]
    exact Int.toNat_natCast _
  obtain ⟨p1, e1, q1, s1, d1, d2⟩ := renderRows_spec { m with grid := some cells } cells W H
    hW hH hl1 H 0
    { Pix := List.replicate (m.Dx * m.Dy).toNat 0, Stride := m.Dx, Dx := m.Dx, Dy := m.Dy }
    (by omega) hW hW hH (by simp [hsz])
  refine ⟨p1, ?_, q1, by rw [s1, hW], by rw [d1, hW], by rw [d2, hH]⟩
  unfold writeBase64 NewPaletted
  simp only
  rw [if_neg (by omega)]
  simp only
  have hfuel : m.Dy.toNat = H := by rw [hH]; simp
  rw [hfuel]
  simp only [Nat.zero_mul, Nat.cast_zero] at e1
  rw [e1]

/-! ## The claims -/

/-- C1 (perfect maze). For odd width and height in `[11, 501]` and every
intensity grid of `width * height` bytes, `generate` returns a cell grid whose
room graph contains the start room, is connected and is acyclic; any two
`PASSAGE` rooms are joined by exactly one path. -/
theorem perfect_maze (m : maze) (hv : Valid m) :
    ∃ cells, generate m = Res.ok cells ∧
      PassageRoom m cells (startX m, startY m) ∧
      (roomGraph m cells).Connected ∧ (roomGraph m cells).IsAcyclic ∧
      ∀ u v : { r : Int × Int // PassageRoom m cells r },
        ∃! p : (roomGraph m cells).Walk u v, p.IsPath := by
  have ha := valid_admissible m hv
  obtain ⟨s, hs, hi, _, _⟩ := generate_spec m ha
  obtain ⟨ord, N, ht⟩ := hi.tree
  have hst : PassageRoom m s.cells (startX m, startY m) :=
    ⟨start_isRoom m ha, hi.startOpen⟩
  have htree := roomGraph_tree m s.cells ord N ht hst
  exact ⟨s.cells, hs, hst, htree.1, htree.2,
    (SimpleGraph.isTree_iff_existsUnique_path.1 htree).2⟩

/-- Witness of `perfect_maze` on the flat 11 by 11 grid. -/
theorem perfect_maze_witness :
    Valid (flat 11 11) ∧ ∃ cells, generate (flat 11 11) = Res.ok cells ∧
      PassageRoom (flat 11 11) cells (startX (flat 11 11), startY (flat 11 11)) ∧
      (roomGraph (flat 11 11) cells).Connected ∧ (roomGraph (flat 11 11) cells).IsAcyclic ∧
      ∀ u v : { r : Int × Int // PassageRoom (flat 11 11) cells r },
        ∃! p : (roomGraph (flat 11 11) cells).Walk u v, p.IsPath :=
  ⟨by simp [Valid, flat, mazeOf], perfect_maze (flat 11 11) (by simp [Valid, flat, mazeOf])⟩

/-- C2 (spanning). For odd width and height in `[11, 501]` and every intensity
grid, `generate` returns a cell grid in which every cell with both coordinates
odd, `0 < x < width` and `0 < y < height`, is `PASSAGE`; the `PASSAGE` rooms
number `((width-1)/2) * ((height-1)/2)`, which is 25 for an 11 by 11 grid. -/
theorem spanning_all_rooms (m : maze) (hv : Valid m) :
    ∃ cells, generate m = Res.ok cells ∧
      (∀ x y : Int, 0 < x → x < m.Dx → 0 < y → y < m.Dy → x % 2 = 1 → y % 2 = 1 →
        cellAt m cells x y = some PASSAGE) ∧
      (passageRoomCount m cells : Int) = ((m.Dx - 1) / 2) * ((m.Dy - 1) / 2) ∧
      (m.Dx = 11 → m.Dy = 11 → passageRoomCount m cells = 25) := by
  have ha := valid_admissible m hv
  obtain ⟨s, hs, hi, hat, hh⟩ := generate_spec m ha
  have hall : ∀ x y, IsRoom m x y → Open m s.cells x y :=
    fun x y hr => final_all_rooms m ha s hi hat hh x y hr
  have hcount := count_all_rooms m ha s.cells hall
  refine ⟨s.cells, hs, ?_, hcount, ?_⟩
  · intro x y h1 h2 h3 h4 h5 h6
    exact hall x y ⟨h1, h2, h3, h4, h5, h6⟩
  · intro h1 h2
    rw [h1, h2] at hcount
    have : ((11 : Int) - 1) / 2 * ((11 - 1) / 2) = 25 := by decide
    rw [this] at hcount
    exact_mod_cast hcount

/-- Witness of `spanning_all_rooms` on the flat 11 by 11 grid. -/
theorem spanning_all_rooms_witness :
    Valid (flat 11 11) ∧ ∃ cells, generate (flat 11 11) = Res.ok cells ∧
      (∀ x y : Int, 0 < x → x < (flat 11 11).Dx → 0 < y → y < (flat 11 11).Dy →
        x % 2 = 1 → y % 2 = 1 → cellAt (flat 11 11) cells x y = some PASSAGE) ∧
      (passageRoomCount (flat 11 11) cells : Int)
        = (((flat 11 11).Dx - 1) / 2) * (((flat 11 11).Dy - 1) / 2) ∧
      ((flat 11 11).Dx = 11 → (flat 11 11).Dy = 11 →
        passageRoomCount (flat 11 11) cells = 25) :=
  ⟨by simp [Valid, flat, mazeOf], spanning_all_rooms (flat 11 11) (by simp [Valid, flat, mazeOf])⟩

/-- C3, counterexample. On the 11 by 11 grid `spot` (intensity 1 at the wall
above the start room, 0 elsewhere) the edge pushed first has target room 38 of
intensity 0, wall 49 of intensity 1 and weight 4, not `4 * 0 + 1`: the weight
of a pushed edge is not always four times the intensity of the target room
plus the intensity of the wall. -/
theorem weight_room_first_fails :
    ¬ (∀ k s e pn pw, runSteps spot k = Status.running s → e ∈ s.h →
        idx? spot.Pix e.n = some pn → idx? spot.Pix e.p = some pw →
        e.v = 4 * (pn : Int) + (pw : Int)) := by
  intro h
  have h1 := h 1 _ ⟨38, 49, 0, 4⟩ 0 1 rfl (by decide) rfl rfl
  revert h1
  decide

/-- C3, amended. For odd width and height in `[11, 501]`, every edge of the
frontier of `generate`, so every edge it pushes, has as weight four times the
intensity of its connecting wall `p` plus the intensity of its target room `n`. -/
theorem weight_wall_first (m : maze) (hv : Valid m) (k : Nat) (s : State) (e : edge)
    (hs : runSteps m k = Status.running s) (he : e ∈ s.h) :
    ∃ pn pw, idx? m.Pix e.n = some pn ∧ idx? m.Pix e.p = some pw ∧
      e.v = 4 * (pw : Int) + (pn : Int) := by
  have ha := valid_admissible m hv
  have hi := reach_inv m ha k s hs
  obtain ⟨_, _, _, _, _, _, _, _, _, _, hw⟩ := hi.edges e he
  unfold maze.weight at hw
  cases hp : idx? m.Pix e.p with
  | none => rw [hp] at hw; simp at hw
  | some pw =>
    cases hn : idx? m.Pix e.n with
    | none => rw [hp, hn] at hw; simp at hw
    | some pn =>
      rw [hp, hn] at hw
      simp only [Option.some.injEq] at hw
      exact ⟨pn, pw, rfl, rfl, hw.symm⟩

/-- Witness of `weight_wall_first`: the first edge pushed on the grid `spot`. -/
theorem weight_wall_first_witness :
    Valid spot ∧ (⟨38, 49, 0, 4⟩ : edge) ∈
      [(⟨38, 49, 0, 4⟩ : edge), ⟨82, 71, 0, 0⟩, ⟨58, 59, 0, 0⟩, ⟨62, 61, 0, 0⟩] ∧
    ∃ pn pw, idx? spot.Pix (38 : Int) = some pn ∧ idx? spot.Pix (49 : Int) = some pw ∧
      (4 : Int) = 4 * (pw : Int) + (pn : Int) :=
  ⟨by simp [Valid, spot, mazeOf], by decide,
    weight_wall_first spot (by simp [Valid, spot, mazeOf]) 1
      { cells := List.replicate 60 1 ++ [0] ++ List.replicate 60 1,
        h := [⟨38, 49, 0, 4⟩, ⟨82, 71, 0, 0⟩, ⟨58, 59, 0, 0⟩, ⟨62, 61, 0, 0⟩],
        p := 60, age := 0, atLoop := false }
      ⟨38, 49, 0, 4⟩ rfl (by decide)⟩

/-- C4, counterexample. On the 13 by 13 all-zero grid the four edges pushed
from the start room, in the order up (room 44), down (96), left (68), right
(72), all have weight 0 and age 0, and their targets are all `WALL`; the first
pop returns the edge pushed first, and the first carve opens room 44 while
room 72, the target of the edge pushed last, is still `WALL`. -/
theorem lifo_tiebreak_fails :
    ∃ s0 s1 s2, runSteps (flat 13 13) 0 = Status.running s0 ∧
      runSteps (flat 13 13) 1 = Status.running s1 ∧
      runSteps (flat 13 13) 2 = Status.running s2 ∧
      tryPush (flat 13 13) s0.cells 0 [] true 44 57 = Res.ok [⟨44, 57, 0, 0⟩] ∧
      tryPush (flat 13 13) s0.cells 0 [⟨44, 57, 0, 0⟩] true 96 83
        = Res.ok [⟨44, 57, 0, 0⟩, ⟨96, 83, 0, 0⟩] ∧
      tryPush (flat 13 13) s0.cells 0 [⟨44, 57, 0, 0⟩, ⟨96, 83, 0, 0⟩] true 68 69
        = Res.ok [⟨44, 57, 0, 0⟩, ⟨96, 83, 0, 0⟩, ⟨68, 69, 0, 0⟩] ∧
      tryPush (flat 13 13) s0.cells 0 [⟨44, 57, 0, 0⟩, ⟨96, 83, 0, 0⟩, ⟨68, 69, 0, 0⟩]
        true 72 71
        = Res.ok [⟨44, 57, 0, 0⟩, ⟨96, 83, 0, 0⟩, ⟨68, 69, 0, 0⟩, ⟨72, 71, 0, 0⟩] ∧
      s1.h = [⟨44, 57, 0, 0⟩, ⟨96, 83, 0, 0⟩, ⟨68, 69, 0, 0⟩, ⟨72, 71, 0, 0⟩] ∧
      (∀ e ∈ s1.h, idx? s1.cells e.n = some WALL) ∧
      heapPop s1.h = Res.ok (⟨44, 57, 0, 0⟩,
        [⟨72, 71, 0, 0⟩, ⟨96, 83, 0, 0⟩, ⟨68, 69, 0, 0⟩]) ∧
      s2.p = 44 ∧ idx? s2.cells 44 = some PASSAGE ∧ idx? s2.cells 72 = some WALL := by
  refine ⟨_, _, _, rfl, rfl, rfl, rfl, rfl, rfl, rfl, rfl, ?_, rfl, rfl, rfl, rfl⟩
  decide

/-- C4, amended. For odd width and height in `[11, 501]`, ties in weight are
broken by the age field: when two edges of the frontier have the same weight
and the first has a strictly smaller age, a pop does not return the first; it
stays in the frontier, and the returned edge, if it has that weight, has a
strictly greater age than the first. -/
theorem tiebreak_by_age (m : maze) (hv : Valid m) (k : Nat) (s : State)
    (e1 e2 item : edge) (h1 : edgeHeap)
    (hs : runSteps m k = Status.running s) (hat : s.atLoop = false)
    (m1 : e1 ∈ s.h) (m2 : e2 ∈ s.h) (hw : e1.v = e2.v) (hage : e1.a < e2.a)
    (hpop : heapPop s.h = Res.ok (item, h1)) :
    item ≠ e1 ∧ e1 ∈ h1 ∧ (item.v = e1.v → e1.a < item.a) := by
  have ha := valid_admissible m hv
  have hi := reach_inv m ha k s hs
  obtain ⟨p1, mx, _⟩ := pop_facts m ha s hi hat item h1 hpop
  have k2 := mx e2 m2
  unfold key at k2
  rw [Prod.Lex.le_iff] at k2
  simp only at k2
  have hne : item ≠ e1 := by
    intro h
    rw [h] at k2
    omega
  refine ⟨hne, ?_, by omega⟩
  rcases List.mem_cons.1 (p1.subset m1) with h | h
  · exact absurd h.symm hne
  · exact h

/-- Witness of `tiebreak_by_age`: the second pop on the 13 by 13 all-zero grid,
with the edge to room 72 of age 0 and the edge to room 18 of age 1. -/
theorem tiebreak_by_age_witness :
    Valid (flat 13 13) ∧ (⟨72, 71, 0, 0⟩ : edge).v = (⟨18, 31, 1, 0⟩ : edge).v ∧
    (⟨72, 71, 0, 0⟩ : edge).a < (⟨18, 31, 1, 0⟩ : edge).a ∧
    heapPop [⟨18, 31, 1, 0⟩, ⟨42, 43, 1, 0⟩, ⟨46, 45, 1, 0⟩, ⟨96, 83, 0, 0⟩,
        ⟨72, 71, 0, 0⟩, ⟨68, 69, 0, 0⟩]
      = Res.ok (⟨18, 31, 1, 0⟩, [⟨42, 43, 1, 0⟩, ⟨68, 69, 0, 0⟩, ⟨46, 45, 1, 0⟩,
        ⟨96, 83, 0, 0⟩, ⟨72, 71, 0, 0⟩]) ∧
    ((⟨18, 31, 1, 0⟩ : edge) ≠ ⟨72, 71, 0, 0⟩ ∧
      (⟨72, 71, 0, 0⟩ : edge) ∈ [(⟨42, 43, 1, 0⟩ : edge), ⟨68, 69, 0, 0⟩, ⟨46, 45, 1, 0⟩,
        ⟨96, 83, 0, 0⟩, ⟨72, 71, 0, 0⟩] ∧
      ((⟨18, 31, 1, 0⟩ : edge).v = (⟨72, 71, 0, 0⟩ : edge).v →
        (⟨72, 71, 0, 0⟩ : edge).a < (⟨18, 31, 1, 0⟩ : edge).a)) := by
  refine ⟨by simp [Valid, flat, mazeOf], rfl, by decide, rfl, ?_⟩
  exact tiebreak_by_age (flat 13 13) (by simp [Valid, flat, mazeOf]) 3
    { cells := (List.replicate 44 1 ++ [0] ++ List.replicate 12 1 ++ [0]
        ++ List.replicate 12 1 ++ [0] ++ List.replicate 98 1),
      h := [⟨18, 31, 1, 0⟩, ⟨42, 43, 1, 0⟩, ⟨46, 45, 1, 0⟩, ⟨96, 83, 0, 0⟩,
        ⟨72, 71, 0, 0⟩, ⟨68, 69, 0, 0⟩],
      p := 44, age := 1, atLoop := false }
    ⟨72, 71, 0, 0⟩ ⟨18, 31, 1, 0⟩ ⟨18, 31, 1, 0⟩ _ rfl rfl (by decide) (by decide) rfl
    (by decide) rfl

/-- C5 (frontier pop order). For odd width and height in `[11, 501]`, at every
pop of `generate` (control at the head of the `for` loop, frontier not empty)
`heap.Pop` returns an edge of the frontier and leaves the others, and no edge
of the frontier has a strictly greater weight than the returned edge, nor equal
weight and a strictly greater age. -/
theorem pop_is_maximal (m : maze) (hv : Valid m) (k : Nat) (s : State)
    (hs : runSteps m k = Status.running s) (hat : s.atLoop = false) (hne : s.h ≠ []) :
    ∃ item h1, heapPop s.h = Res.ok (item, h1) ∧ s.h.Perm (item :: h1) ∧
      ∀ e ∈ s.h, ¬ (e.v > item.v) ∧ (e.v = item.v → ¬ (e.a > item.a)) := by
  have ha := valid_admissible m hv
  have hi := reach_inv m ha k s hs
  have _ := hat
  have hlen : 0 < s.h.length := List.length_pos.2 hne
  obtain ⟨item, h1, e1, p1, _, _, mx⟩ := heapPop_spec s.h hi.heap hlen
  refine ⟨item, h1, e1, p1, ?_⟩
  intro e he
  have := mx e he
  unfold key at this
  rw [Prod.Lex.le_iff] at this
  simp only at this
  omega

/-- Witness of `pop_is_maximal`: the first pop on the grid `spot`, which returns
the edge of weight 4. -/
theorem pop_is_maximal_witness :
    Valid spot ∧ ∃ s, runSteps spot 1 = Status.running s ∧ s.atLoop = false ∧ s.h ≠ [] ∧
      ∃ item h1, heapPop s.h = Res.ok (item, h1) ∧ s.h.Perm (item :: h1) ∧
        ∀ e ∈ s.h, ¬ (e.v > item.v) ∧ (e.v = item.v → ¬ (e.a > item.a)) := by
  have hv : Valid spot := by simp [Valid, spot, mazeOf]
  refine ⟨hv, _, rfl, rfl, by decide, ?_⟩
  exact pop_is_maximal spot hv 1 _ rfl rfl (by decide)

/-- C6, counterexample. On the 13 by 13 all-zero grid the edges to the rooms
44 and 96, both pushed from the start room, are different edges of the same
run and both carry age 0: ages are not strictly increasing in push order. -/
theorem age_per_push_fails :
    ¬ (∀ k s e1 e2, runSteps (flat 13 13) k = Status.running s → e1 ∈ s.h → e2 ∈ s.h →
        e1 ≠ e2 → e1.a ≠ e2.a) := by
  intro h
  have h1 := h 1 _ ⟨44, 57, 0, 0⟩ ⟨96, 83, 0, 0⟩ rfl (by decide) (by decide) (by decide)
  exact h1 rfl

/-- C6, amended. For odd width and height in `[11, 501]`: the age counter
starts at 0 with an empty frontier; the pushes at the label `loop` leave the
counter unchanged and every edge they add carries its value, so the edges
discovered from one room share one age; a pop that discards a stale edge
leaves the counter unchanged, and a carve sets it to the age of the carved
edge plus one. -/
theorem age_assignment (m : maze) (hv : Valid m) :
    (∃ s0, runSteps m 0 = Status.running s0 ∧ s0.age = 0 ∧ s0.h = []) ∧
    (∀ k s s1, runSteps m k = Status.running s → runSteps m (k + 1) = Status.running s1 →
      s.atLoop = true →
      s1.age = s.age ∧ ∃ new, s1.h.Perm (new ++ s.h) ∧ ∀ e ∈ new, e.a = s.age) ∧
    (∀ k s s1, runSteps m k = Status.running s → runSteps m (k + 1) = Status.running s1 →
      s.atLoop = false →
      ∃ item h1, heapPop s.h = Res.ok (item, h1) ∧ s1.h = h1 ∧
        ((s1.atLoop = false ∧ s1.age = s.age) ∨
         (s1.atLoop = true ∧ s1.p = item.n ∧ s1.age = item.a + 1))) := by
  have ha := valid_admissible m hv
  refine ⟨?_, ?_, ?_⟩
  · obtain ⟨s, hs, _, _, hage, hh, _, _⟩ := start_spec m ha
    exact ⟨s, hs, hage, hh⟩
  · intro k s s1 hs hs1 hat
    have hi := reach_inv m ha k s hs
    obtain ⟨h1, new, e1, _, p1, _, a1, _⟩ := step_expand m ha s hi hat
    have : runSteps m (k + 1) = step m s := by
      show (runSteps m k).next m = _
      rw [hs]
      rfl
    rw [this, e1] at hs1
    cases hs1
    exact ⟨rfl, new, p1, fun e he => (a1 e he).1⟩
  · intro k s s1 hs hs1 hat
    have hi := reach_inv m ha k s hs
    have hstep : runSteps m (k + 1) = step m s := by
      show (runSteps m k).next m = _
      rw [hs]
      rfl
    rw [hstep] at hs1
    by_cases hne : 0 < s.h.length
    · obtain ⟨item, h1, x, y, dx, dy, e1, _, _, _, _, _, _, _, _, _, _, hcase⟩ :=
        step_pop m ha s hi hat hne
      refine ⟨item, h1, e1, ?_⟩
      rcases hcase with ⟨_, e2⟩ | ⟨_, c2, e2, _⟩
      · rw [e2] at hs1
        cases hs1
        exact ⟨rfl, Or.inl ⟨hat, rfl⟩⟩
      · rw [e2] at hs1
        cases hs1
        exact ⟨rfl, Or.inr ⟨rfl, rfl, rfl⟩⟩
    · have he : s.h = [] := List.length_eq_zero.1 (by omega)
      rw [step_done m s hat he] at hs1
      cases hs1

/-- Witness of `age_assignment` on the 13 by 13 all-zero grid: the start, the
pushes from the start room, and the first carve. -/
theorem age_assignment_witness :
    Valid (flat 13 13) ∧
    (∃ s0 s1 s2, runSteps (flat 13 13) 0 = Status.running s0 ∧
      runSteps (flat 13 13) 1 = Status.running s1 ∧
      runSteps (flat 13 13) 2 = Status.running s2 ∧
      s0.age = 0 ∧ s0.atLoop = true ∧ s1.atLoop = false ∧
      (s1.age = s0.age ∧ ∃ new, s1.h.Perm (new ++ s0.h) ∧ ∀ e ∈ new, e.a = s0.age) ∧
      (∃ item h1, heapPop s1.h = Res.ok (item, h1) ∧ s2.h = h1 ∧
        ((s2.atLoop = false ∧ s2.age = s1.age) ∨
         (s2.atLoop = true ∧ s2.p = item.n ∧ s2.age = item.a + 1)))) := by
  have hv : Valid (flat 13 13) := by simp [Valid, flat, mazeOf]
  refine ⟨hv, _, _, _, rfl, rfl, rfl, rfl, rfl, rfl, ?_, ?_⟩
  · exact (age_assignment (flat 13 13) hv).2.1 0 _ _ rfl rfl rfl
  · exact (age_assignment (flat 13 13) hv).2.2 1 _ _ rfl rfl rfl

/-- C7, failing input. With the custom size flag set and neither the width nor
the height field parsing as an integer, no case of the `switch` applies, both
dimensions stay 0 and the parity correction makes them 1: `index` passes
width 1 and height 1, outside `[11, 501]`. -/
theorem indexDims_unparsed (scale : Int → Int → Int → Int) (w h dimDx dimDy : Int) :
    indexDims scale true w false h false dimDx dimDy = (1, 1) ∧
    ¬ (11 ≤ (indexDims scale true w false h false dimDx dimDy).1) := by
  constructor
  · rfl
  · show ¬ ((11 : Int) ≤ 1)
    decide

/-- C8 (closed border). For odd width and height in `[11, 501]` and every
intensity grid, every cell with `x = 0`, `x = width-1`, `y = 0` or
`y = height-1` is `WALL` in every cell grid `generate` passes through and in
the cell grid it returns. -/
theorem closed_border (m : maze) (hv : Valid m) :
    (∀ k s, runSteps m k = Status.running s → ∀ x y : Int, InGrid m x y →
      (x = 0 ∨ x = m.Dx - 1 ∨ y = 0 ∨ y = m.Dy - 1) → cellAt m s.cells x y = some WALL) ∧
    ∃ cells, generate m = Res.ok cells ∧ ∀ x y : Int, InGrid m x y →
      (x = 0 ∨ x = m.Dx - 1 ∨ y = 0 ∨ y = m.Dy - 1) → cellAt m cells x y = some WALL := by
  have ha := valid_admissible m hv
  constructor
  · intro k s hs x y hg hb
    have hi := reach_inv m ha k s hs
    exact wall_of_not_open m ha s hi x y hg (border_not_open m ha s hi x y hg hb)
  · obtain ⟨s, hs, hi, _, _⟩ := generate_spec m ha
    refine ⟨s.cells, hs, ?_⟩
    intro x y hg hb
    exact wall_of_not_open m ha s hi x y hg (border_not_open m ha s hi x y hg hb)

/-- Witness of `closed_border` on the flat 11 by 11 grid. -/
theorem closed_border_witness :
    Valid (flat 11 11) ∧
    ((∀ k s, runSteps (flat 11 11) k = Status.running s → ∀ x y : Int,
      InGrid (flat 11 11) x y →
      (x = 0 ∨ x = (flat 11 11).Dx - 1 ∨ y = 0 ∨ y = (flat 11 11).Dy - 1) →
      cellAt (flat 11 11) s.cells x y = some WALL) ∧
    ∃ cells, generate (flat 11 11) = Res.ok cells ∧ ∀ x y : Int, InGrid (flat 11 11) x y →
      (x = 0 ∨ x = (flat 11 11).Dx - 1 ∨ y = 0 ∨ y = (flat 11 11).Dy - 1) →
      cellAt (flat 11 11) cells x y = some WALL) :=
  ⟨by simp [Valid, flat, mazeOf], closed_border (flat 11 11) (by simp [Valid, flat, mazeOf])⟩

/-- C9 (parity invariant). For odd width and height in `[11, 501]`: the
current room of every state of `generate` and the target of every frontier
edge have both coordinates odd; at every carve the connecting wall has exactly
one even coordinate and lies one step from the target room and one step from a
room that is already `PASSAGE`; every cell of the returned grid whose
coordinates are both even is `WALL`. -/
theorem parity_invariant (m : maze) (hv : Valid m) :
    (∀ k s, runSteps m k = Status.running s →
      (m.position s.p).1 % 2 = 1 ∧ (m.position s.p).2 % 2 = 1 ∧
      ∀ e ∈ s.h, (m.position e.n).1 % 2 = 1 ∧ (m.position e.n).2 % 2 = 1) ∧
    (∀ k s item h1, runSteps m k = Status.running s → s.atLoop = false →
      heapPop s.h = Res.ok (item, h1) → idx? s.cells item.n = some WALL →
      ∃ x y dx dy, Dir dx dy ∧ m.position item.n = (x, y) ∧
        m.position item.p = (x + dx, y + dy) ∧ x % 2 = 1 ∧ y % 2 = 1 ∧
        (((x + dx) % 2 = 0 ∧ (y + dy) % 2 = 1) ∨ ((x + dx) % 2 = 1 ∧ (y + dy) % 2 = 0)) ∧
        IsRoom m (x + 2 * dx) (y + 2 * dy) ∧
        cellAt m s.cells (x + 2 * dx) (y + 2 * dy) = some PASSAGE) ∧
    (∃ cells, generate m = Res.ok cells ∧ ∀ x y : Int, InGrid m x y →
      x % 2 = 0 → y % 2 = 0 → cellAt m cells x y = some WALL) := by
  have ha := valid_admissible m hv
  refine ⟨?_, ?_, ?_⟩
  · intro k s hs
    have hi := reach_inv m ha k s hs
    obtain ⟨x, y, hr, hp, _⟩ := hi.cur
    rw [hp, position_index m ha x y (room_inGrid m _ _ hr)]
    refine ⟨hr.2.2.2.2.1, hr.2.2.2.2.2, ?_⟩
    intro e he
    obtain ⟨ex, ey, _, _, _, hre, _, _, hn, _, _⟩ := hi.edges e he
    rw [hn, position_index m ha ex ey (room_inGrid m _ _ hre)]
    exact ⟨hre.2.2.2.2.1, hre.2.2.2.2.2⟩
  · intro k s item h1 hs hat hpop _
    have hi := reach_inv m ha k s hs
    obtain ⟨_, _, x, y, dx, dy, hd, hr, hq, hqo, hn, hp, _⟩ :=
      pop_facts m ha s hi hat item h1 hpop
    have hrN := hr
    have hqN := hq
    have hdN := hd
    unfold IsRoom at hrN hqN
    unfold Dir at hdN
    have hgw : InGrid m (x + dx) (y + dy) := by
      unfold InGrid
      omega
    refine ⟨x, y, dx, dy, hd, ?_, ?_, hrN.2.2.2.2.1, hrN.2.2.2.2.2, by omega, hq, hqo⟩
    · rw [hn, position_index m ha x y (room_inGrid m _ _ hr)]
    · rw [hp, position_index m ha _ _ hgw]
  · obtain ⟨s, hs, hi, _, _⟩ := generate_spec m ha
    refine ⟨s.cells, hs, ?_⟩
    intro x y hg hx hy
    exact wall_of_not_open m ha s hi x y hg (even_not_open m s hi x y hg hx hy)

/-- Witness of `parity_invariant` on the flat 11 by 11 grid: the state after
the pushes from the start room, and the first carve. -/
theorem parity_invariant_witness :
    Valid (flat 11 11) ∧
    (∃ s, runSteps (flat 11 11) 1 = Status.running s ∧
      (((flat 11 11).position s.p).1 % 2 = 1 ∧ ((flat 11 11).position s.p).2 % 2 = 1 ∧
        ∀ e ∈ s.h, ((flat 11 11).position e.n).1 % 2 = 1 ∧
          ((flat 11 11).position e.n).2 % 2 = 1) ∧
      s.atLoop = false ∧
      heapPop s.h = Res.ok (⟨38, 49, 0, 0⟩,
        [⟨62, 61, 0, 0⟩, ⟨82, 71, 0, 0⟩, ⟨58, 59, 0, 0⟩]) ∧
      idx? s.cells 38 = some WALL ∧
      ∃ x y dx dy, Dir dx dy ∧ (flat 11 11).position 38 = (x, y) ∧
        (flat 11 11).position 49 = (x + dx, y + dy) ∧ x % 2 = 1 ∧ y % 2 = 1 ∧
        (((x + dx) % 2 = 0 ∧ (y + dy) % 2 = 1) ∨ ((x + dx) % 2 = 1 ∧ (y + dy) % 2 = 0)) ∧
        IsRoom (flat 11 11) (x + 2 * dx) (y + 2 * dy) ∧
        cellAt (flat 11 11) s.cells (x + 2 * dx) (y + 2 * dy) = some PASSAGE) ∧
    (∃ cells, generate (flat 11 11) = Res.ok cells ∧ ∀ x y : Int, InGrid (flat 11 11) x y →
      x % 2 = 0 → y % 2 = 0 → cellAt (flat 11 11) cells x y = some WALL) := by
  have hv : Valid (flat 11 11) := by simp [Valid, flat, mazeOf]
  refine ⟨hv, ⟨_, rfl, ?_, rfl, rfl, rfl, ?_⟩, ?_⟩
  · exact (parity_invariant (flat 11 11) hv).1 1 _ rfl
  · exact (parity_invariant (flat 11 11) hv).2.1 1 _ ⟨38, 49, 0, 0⟩ _ rfl rfl rfl rfl
  · exact (parity_invariant (flat 11 11) hv).2.2

/-- C10 (render mapping). For odd width and height in `[11, 501]`, the raster
that `writeBase64` builds from the cell grid returned by `generate` has at
pixel `(x, y)` the colour index equal to the cell at `y*width + x`: index 0,
the white palette entry, for `PASSAGE`, index 1, the black palette entry, for
`WALL`; no other index occurs. -/
theorem render_mapping (m : maze) (hv : Valid m) (closeErr : Option String) :
    ∃ cells p, generate m = Res.ok cells ∧
      writeBase64 { m with grid := some cells } closeErr = Res.ok (some p, closeErr) ∧
      (∀ x y : Int, InGrid m x y →
        idx? p.Pix (y * p.Stride + x) = idx? cells (y * m.Dx + x)) ∧
      (∀ x y : Int, InGrid m x y → cellAt m cells x y = some PASSAGE →
        idx? p.Pix (y * p.Stride + x) = some 0) ∧
      (∀ x y : Int, InGrid m x y → cellAt m cells x y = some WALL →
        idx? p.Pix (y * p.Stride + x) = some 1) ∧
      (∀ v ∈ p.Pix, v = 0 ∨ v = 1) ∧
      palette[0]? = some (255, 255, 255, 255) ∧ palette[1]? = some (0, 0, 0, 255) := by
  have ha := valid_admissible m hv
  obtain ⟨s, hs, hi, _, _⟩ := generate_spec m ha
  obtain ⟨p, hp, q, st, _, _⟩ := writeBase64_spec m s.cells closeErr (by have := ha.2.2.2.2.1; omega)
    (by have := ha.2.2.2.2.2; omega) hi.len
  refine ⟨s.cells, p, hs, hp, ?_, ?_, ?_, ?_, rfl, rfl⟩
  · intro x y _
    rw [q, st]
  · intro x y _ hc
    unfold cellAt maze.index at hc
    rw [q, st, ← ha.1]
    exact hc
  · intro x y _ hc
    unfold cellAt maze.index at hc
    rw [q, st, ← ha.1]
    exact hc
  · rw [q]
    exact hi.bits

/-- Witness of `render_mapping` on the flat 11 by 11 grid. -/
theorem render_mapping_witness :
    Valid (flat 11 11) ∧
    ∃ cells p, generate (flat 11 11) = Res.ok cells ∧
      writeBase64 { flat 11 11 with grid := some cells } none = Res.ok (some p, none) ∧
      (∀ x y : Int, InGrid (flat 11 11) x y →
        idx? p.Pix (y * p.Stride + x) = idx? cells (y * (flat 11 11).Dx + x)) ∧
      (∀ x y : Int, InGrid (flat 11 11) x y → cellAt (flat 11 11) cells x y = some PASSAGE →
        idx? p.Pix (y * p.Stride + x) = some 0) ∧
      (∀ x y : Int, InGrid (flat 11 11) x y → cellAt (flat 11 11) cells x y = some WALL →
        idx? p.Pix (y * p.Stride + x) = some 1) ∧
      (∀ v ∈ p.Pix, v = 0 ∨ v = 1) ∧
      palette[0]? = some (255, 255, 255, 255) ∧ palette[1]? = some (0, 0, 0, 255) :=
  ⟨by simp [Valid, flat, mazeOf],
    render_mapping (flat 11 11) (by simp [Valid, flat, mazeOf]) none⟩


/-! ## Counting rooms and carves -/

theorem mem_roomFilter (m : maze) (cells : List Nat) (q : Nat × Nat) :
    q ∈ (Finset.range m.Dx.toNat ×ˢ Finset.range m.Dy.toNat).filter
        (fun q => q.1 % 2 = 1 ∧ q.2 % 2 = 1 ∧
          cellAt m cells (q.1 : Int) (q.2 : Int) = some PASSAGE) ↔
      (IsRoom m (q.1 : Int) (q.2 : Int) ∧
        cellAt m cells (q.1 : Int) (q.2 : Int) = some PASSAGE) := by
  rw [Finset.mem_filter, Finset.mem_product, Finset.mem_range, Finset.mem_range]
  unfold IsRoom
  constructor
  · intro h
    refine ⟨?_, h.2.2.2⟩
    omega
  · intro h
    refine ⟨?_, ?_, ?_, h.2⟩ <;> omega

/-- Opening one more room raises the number of `PASSAGE` rooms by one. -/
theorem count_insert (m : maze) (cells c2 : List Nat) (x y : Int) (hr : IsRoom m x y)
    (hclosed : cellAt m cells x y ≠ some PASSAGE)
    (hrooms : ∀ x1 y1, IsRoom m x1 y1 → (cellAt m c2 x1 y1 = some PASSAGE ↔
      ((x1 = x ∧ y1 = y) ∨ cellAt m cells x1 y1 = some PASSAGE))) :
    passageRoomCount m c2 = passageRoomCount m cells + 1 := by
  unfold passageRoomCount
  have hrN := hr
  unfold IsRoom at hrN
  have hx : ((x.toNat : Nat) : Int) = x := Int.toNat_of_nonneg (by omega)
  have hy : ((y.toNat : Nat) : Int) = y := Int.toNat_of_nonneg (by omega)
  have hset : (Finset.range m.Dx.toNat ×ˢ Finset.range m.Dy.toNat).filter
      (fun q => q.1 % 2 = 1 ∧ q.2 % 2 = 1 ∧
        cellAt m c2 (q.1 : Int) (q.2 : Int) = some PASSAGE)
      = insert (x.toNat, y.toNat)
        ((Finset.range m.Dx.toNat ×ˢ Finset.range m.Dy.toNat).filter
          (fun q => q.1 % 2 = 1 ∧ q.2 % 2 = 1 ∧
            cellAt m cells (q.1 : Int) (q.2 : Int) = some PASSAGE)) := by
    ext q
    rw [Finset.mem_insert, mem_roomFilter, mem_roomFilter]
    constructor
    · intro h
      rcases (hrooms _ _ h.1).1 h.2 with h1 | h1
      · left
        apply Prod.ext
        · show q.1 = x.toNat
          omega
        · show q.2 = y.toNat
          omega
      · exact Or.inr ⟨h.1, h1⟩
    · intro h
      rcases h with h | h
      · rw [h]
        simp only
        rw [hx, hy]
        exact ⟨hr, (hrooms x y hr).2 (Or.inl ⟨rfl, rfl⟩)⟩
      · exact ⟨h.1, (hrooms _ _ h.1).2 (Or.inr h.2)⟩
  rw [hset, Finset.card_insert_of_not_mem]
  rw [mem_roomFilter]
  simp only
  rw [hx, hy]
  exact fun h => hclosed h.2

/-- A grid without a `PASSAGE` room counts no `PASSAGE` room. -/
theorem count_none (m : maze) (cells : List Nat)
    (h : ∀ x y, IsRoom m x y → cellAt m cells x y ≠ some PASSAGE) :
    passageRoomCount m cells = 0 := by
  unfold passageRoomCount
  rw [Finset.card_eq_zero, Finset.eq_empty_iff_forall_not_mem]
  intro q hq
  rw [mem_roomFilter] at hq
  exact h _ _ hq.1 hq.2

/-- The number of `PASSAGE` rooms is at most the number of rooms. -/
theorem count_le_rooms (m : maze) (ha : Admissible m) (cells : List Nat) :
    (passageRoomCount m cells : Int) ≤ ((m.Dx - 1) / 2) * ((m.Dy - 1) / 2) := by
  obtain ⟨_, _, hwo, hho, hw, hh⟩ := ha
  unfold passageRoomCount
  have hsub : (Finset.range m.Dx.toNat ×ˢ Finset.range m.Dy.toNat).filter
      (fun q => q.1 % 2 = 1 ∧ q.2 % 2 = 1 ∧
        cellAt m cells (q.1 : Int) (q.2 : Int) = some PASSAGE)
      ⊆ (Finset.range m.Dx.toNat ×ˢ Finset.range m.Dy.toNat).filter
      (fun q => q.1 % 2 = 1 ∧ q.2 % 2 = 1) := by
    intro q hq
    rw [Finset.mem_filter] at hq ⊢
    exact ⟨hq.1, hq.2.1, hq.2.2.1⟩
  have hle := Finset.card_le_card hsub
  rw [Finset.filter_product (fun k => k % 2 = 1) (fun k => k % 2 = 1),
    Finset.card_product, card_odd_range, card_odd_range] at hle
  have e1 : ((m.Dx.toNat / 2 : Nat) : Int) = (m.Dx - 1) / 2 := by omega
  have e2 : ((m.Dy.toNat / 2 : Nat) : Int) = (m.Dy - 1) / 2 := by omega
  rw [← e1, ← e2]
  exact_mod_cast hle

theorem count_zero_add_sum (l : List Nat) (hb : ∀ v ∈ l, v = 0 ∨ v = 1) :
    l.count 0 + l.sum = l.length := by
  induction l with
  | nil => rfl
  | cons a t ih =>
    have h1 := ih (fun v hv => hb v (List.mem_cons_of_mem _ hv))
    rcases hb a (List.mem_cons_self _ _) with h | h
    · subst h
      simp only [List.count_cons_self, List.sum_cons, List.length_cons]
      omega
    · subst h
      rw [List.count_cons_of_ne (by decide)]
      simp only [List.sum_cons, List.length_cons]
      omega


/-! ## The steps of `generate`, exactly -/

/-- The prologue leaves a grid with one `PASSAGE` room and no carve. -/
theorem start_counted (m : maze) (ha : Admissible m) :
    ∃ s, start m = Status.running s ∧ s.atLoop = true ∧ Counted m s.cells 0 := by
  obtain ⟨s, hs, hi, hat, _, _, _, hsum⟩ := start_spec m ha
  refine ⟨s, hs, hat, ?_, by omega⟩
  have hroom := start_isRoom m ha
  have hg := room_inGrid m _ _ hroom
  have hsz : 0 ≤ m.Dx * m.Dy := by
    obtain ⟨_, _, _, _, hw, hh⟩ := ha
    exact mul_nonneg (by omega) (by omega)
  have hl : ((List.replicate (m.Dx * m.Dy).toNat 1).length : Int) = m.Dx * m.Dy := by
    simp
    omega
  obtain ⟨c1, hu, _, _, hc1, _⟩ :=
    cellAt_upd m ha (List.replicate (m.Dx * m.Dy).toNat 1) hl _ _ hg 0
  have hold : ∀ x y, InGrid m x y →
      cellAt m (List.replicate (m.Dx * m.Dy).toNat 1) x y = some 1 := by
    intro x y hxy
    obtain ⟨v, hv, hm⟩ := cellAt_some m ha _ hl x y hxy
    rw [hv, List.eq_of_mem_replicate hm]
  have hst : start m = Status.running
      { cells := c1, h := [], p := m.index (startX m) (startY m), age := 0,
        atLoop := true } := by
    unfold start
    simp only
    rw [if_neg (by omega)]
    have e1 : (if (m.Dx.tdiv 2).tmod 2 = 0 then m.Dx.tdiv 2 - 1 else m.Dx.tdiv 2)
        = startX m := rfl
    rw [e1]
    have e2 : (if (m.Dy.tdiv 2).tmod 2 = 0 then m.Dy.tdiv 2 - 1 else m.Dy.tdiv 2)
        = startY m := rfl
    rw [e2, hu]
  rw [hst] at hs
  cases hs
  simp only
  have h0 := count_none m (List.replicate (m.Dx * m.Dy).toNat 1) (by
    intro x y hr h
    rw [hold x y (room_inGrid m _ _ hr)] at h
    cases h)
  rw [count_insert m (List.replicate (m.Dx * m.Dy).toNat 1) c1 (startX m) (startY m) hroom
    (by rw [hold _ _ hg]; simp [PASSAGE]) (by
      intro x1 y1 hr1
      rw [hc1 x1 y1 (room_inGrid m _ _ hr1)]
      by_cases h : x1 = startX m ∧ y1 = startY m
      · rw [if_pos h]
        simp [PASSAGE, h]
      · rw [if_neg h]
        simp [h]), h0]

/-- The pop of a stale edge: only the frontier changes. -/
theorem step_discard (m : maze) (s : State) (item : edge) (h1 : edgeHeap)
    (hat : s.atLoop = false) (hpop : heapPop s.h = Res.ok (item, h1))
    (hc : idx? s.cells item.n = some 0) :
    step m s = Status.running { s with h := h1 } := by
  have hne : 0 < s.h.length := by
    rcases Nat.eq_zero_or_pos s.h.length with h | h
    · rw [List.length_eq_zero.1 h, heapPop_nil] at hpop
      cases hpop
    · exact h
  unfold step
  rw [if_neg (by rw [hat]; simp), if_pos (by unfold edgeHeap.Len; omega), hpop]
  simp only
  rw [hc]
  simp

/-- The pop of an edge to a `WALL` room: the room and the wall of the edge,
both `WALL`, become `PASSAGE`, and control goes to the label `loop`. -/
theorem step_carve (m : maze) (ha : Admissible m) (s : State) (hi : Inv m s)
    (item : edge) (h1 : edgeHeap) (hat : s.atLoop = false)
    (hpop : heapPop s.h = Res.ok (item, h1)) (hc : idx? s.cells item.n = some 1) :
    step m s = Status.running
      { cells := (s.cells.set item.n.toNat 0).set item.p.toNat 0, h := h1, p := item.n,
        age := item.a + 1, atLoop := true } ∧
    idx? s.cells item.p = some 1 ∧ item.n ≠ item.p ∧
    ((s.cells.set item.n.toNat 0).set item.p.toNat 0).sum + 2 = s.cells.sum := by
  obtain ⟨_, _, x, y, dx, dy, hd, hr, hq, hqo, hn, hp, _⟩ :=
    pop_facts m ha s hi hat item h1 hpop
  have hne : 0 < s.h.length := by
    rcases Nat.eq_zero_or_pos s.h.length with h | h
    · rw [List.length_eq_zero.1 h, heapPop_nil] at hpop
      cases hpop
    · exact h
  have hg := room_inGrid m x y hr
  have hrN := hr
  have hqN := hq
  have hdN := hd
  unfold IsRoom at hrN hqN
  unfold Dir at hdN
  have hgw : InGrid m (x + dx) (y + dy) := by
    unfold InGrid
    omega
  have hclosed : ¬ Open m s.cells x y := by
    unfold Open cellAt
    rw [← hn, hc]
    simp [PASSAGE]
  have hwall : cellAt m s.cells (x + dx) (y + dy) = some 1 := by
    apply wall_of_not_open m ha s hi _ _ hgw
    intro ho
    exact hclosed (wall_open_ends m ha s hi x y dx dy hr hd ho).1
  have hnp : item.n ≠ item.p := by
    rw [hn, hp]
    intro h
    have := index_inj m ha _ _ _ _ hg hgw h
    omega
  obtain ⟨c1, hu1, hl1, _, hc1, hs1⟩ := cellAt_upd m ha s.cells hi.len x y hg 0
  obtain ⟨c2, hu2, _, _, _, hs2⟩ := cellAt_upd m ha c1 hl1 (x + dx) (y + dy) hgw 0
  have hr1 := index_range m ha x y hg
  have hr2 := index_range m ha (x + dx) (y + dy) hgw
  have hw1 : cellAt m c1 (x + dx) (y + dy) = some 1 := by
    rw [hc1 _ _ hgw, if_neg (by omega)]
    exact hwall
  have g1 : s.cells[(m.index x y).toNat]? = some 1 := by
    rw [← idx?_getElem? _ _ hr1.1, ← hn]
    exact hc
  have g2 : c1[(m.index (x + dx) (y + dy)).toNat]? = some 1 := by
    rw [← idx?_getElem? _ _ hr2.1]
    exact hw1
  have s1 := sum_set_zero s.cells _ 1 g1
  have s2 := sum_set_zero c1 _ 1 g2
  rw [← hs1] at s1
  rw [← hs2] at s2
  rw [hn, hp, ← hs1, ← hs2]
  refine ⟨?_, hwall, by rw [← hn, ← hp]; exact hnp, by omega⟩
  unfold step
  rw [if_neg (by rw [hat]; simp), if_pos (by unfold edgeHeap.Len; omega), hpop]
  simp only
  rw [hn] at hc
  rw [hn, hc]
  simp only
  rw [if_neg (by omega), hu1]
  simp only
  rw [hp, hu2]


theorem runSteps_succ (m : maze) (k : Nat) : runSteps m (k + 1) = (runSteps m k).next m := rfl

theorem runSteps_succ_running (m : maze) (k : Nat) (s : State)
    (hs : runSteps m k = Status.running s) : runSteps m (k + 1) = step m s := by
  rw [runSteps_succ, hs]
  rfl

theorem loopEntries_succ (m : maze) (k : Nat) :
    loopEntries m (k + 1) = loopEntries m k + (if atLabel (runSteps m (k + 1)) then 1 else 0) :=
  rfl

/-- Along the run the number of `PASSAGE` rooms is one more than the number of
jumps back to the label `loop`, and every such jump has opened one room and
one wall. -/
theorem run_counted (m : maze) (ha : Admissible m) : ∀ k cells,
    statusCells (runSteps m k) = some cells → Counted m cells (loopEntries m k) := by
  intro k
  induction k with
  | zero =>
    intro cells hc
    obtain ⟨s, hs, _, hcnt⟩ := start_counted m ha
    have h0 : runSteps m 0 = Status.running s := hs
    rw [h0] at hc
    simp only [statusCells, Option.some.injEq] at hc
    rw [← hc]
    exact hcnt
  | succ k ih =>
    intro cells hc
    rw [loopEntries_succ]
    rcases run_inv m ha k with ⟨s, hs, hi, _⟩ | ⟨s, hs, _, _, _⟩
    · have hprev := ih s.cells (by rw [hs]; rfl)
      have hnext := runSteps_succ_running m k s hs
      cases hat : s.atLoop with
      | true =>
        obtain ⟨h1, _, e1, _, _, _, _, _⟩ := step_expand m ha s hi hat
        rw [hnext, e1] at hc ⊢
        simp only [statusCells, Option.some.injEq] at hc
        rw [← hc]
        simpa [atLabel] using hprev
      | false =>
        by_cases hne : 0 < s.h.length
        · obtain ⟨item, h1, x, y, dx, dy, hpop, _, _, _, hd, hr, hq, _, hn, _, _, hcase⟩ :=
            step_pop m ha s hi hat hne
          rcases hcase with ⟨_, e1⟩ | ⟨hcl, c2, e1, _, _, _, hcell⟩
          · rw [hnext, e1] at hc ⊢
            simp only [statusCells, Option.some.injEq] at hc
            rw [← hc]
            simpa [atLabel, hat] using hprev
          · have hidx : idx? s.cells item.n = some 1 := by
              rw [hn]
              exact hcl
            obtain ⟨e2, _, _, hsum⟩ := step_carve m ha s hi item h1 hat hpop hidx
            have hc2 : c2 = (s.cells.set item.n.toNat 0).set item.p.toNat 0 := by
              rw [e1] at e2
              simp only [Status.running.injEq, State.mk.injEq] at e2
              exact e2.1
            rw [hnext, e1] at hc ⊢
            simp only [statusCells, Option.some.injEq] at hc
            rw [← hc]
            simp only [atLabel, if_true]
            obtain ⟨p1, p2⟩ := hprev
            have hrN := hr
            have hdN := hd
            unfold IsRoom at hrN
            unfold Dir at hdN
            constructor
            · rw [count_insert m s.cells c2 x y hr (by rw [hcl]; simp [PASSAGE]) (by
                intro x1 y1 hr1
                rw [hcell x1 y1 (room_inGrid m _ _ hr1)]
                have hr1N := hr1
                unfold IsRoom at hr1N
                by_cases h : x1 = x ∧ y1 = y
                · rw [if_pos (Or.inl h)]
                  simp [PASSAGE, h]
                · rw [if_neg (by omega)]
                  simp [h]), p1]
            · rw [hc2]
              omega
        · have he : s.h = [] := List.length_eq_zero.1 (by omega)
          rw [hnext, step_done m s hat he] at hc ⊢
          simp only [statusCells, Option.some.injEq] at hc
          rw [← hc]
          simpa [atLabel] using hprev
    · have hprev := ih s.cells (by rw [hs]; rfl)
      have hnext : runSteps m (k + 1) = Status.done s.cells := by
        rw [runSteps_succ, hs]
        rfl
      rw [hnext] at hc ⊢
      simp only [statusCells, Option.some.injEq] at hc
      rw [← hc]
      simpa [atLabel] using hprev


/-! ## Depth in a graph with parents -/

/-- In a graph with a depth function that is 0 at the root, drops by one at
some neighbour of every other vertex, and rises by at most one along an edge,
the distance from the root is the depth. -/
theorem dist_eq_depth {V : Type} (G : SimpleGraph V) (depth : V → Nat) (root : V)
    (h0 : depth root = 0)
    (hpar : ∀ v, v ≠ root → ∃ p, G.Adj v p ∧ depth p + 1 = depth v)
    (hlip : ∀ u v, G.Adj u v → depth v ≤ depth u + 1) :
    ∀ v, G.dist root v = depth v := by
  have upper : ∀ n v, depth v = n → ∃ w : G.Walk root v, w.length = n := by
    intro n
    induction n with
    | zero =>
      intro v hv
      by_cases hr : v = root
      · subst hr
        exact ⟨SimpleGraph.Walk.nil, rfl⟩
      · obtain ⟨p, _, hp⟩ := hpar v hr
        omega
    | succ n ih =>
      intro v hv
      have hr : v ≠ root := by
        intro h
        rw [h, h0] at hv
        omega
      obtain ⟨p, hadj, hp⟩ := hpar v hr
      obtain ⟨w, hw⟩ := ih p (by omega)
      exact ⟨w.concat hadj.symm, by rw [SimpleGraph.Walk.length_concat, hw]⟩
  have lower : ∀ (u v : V) (w : G.Walk u v), depth v ≤ depth u + w.length := by
    intro u v w
    induction w with
    | nil => simp
    | cons h p ih =>
      have := hlip _ _ h
      rw [SimpleGraph.Walk.length_cons]
      omega
  intro v
  obtain ⟨w, hw⟩ := upper (depth v) v rfl
  have h1 : G.dist root v ≤ depth v := by
    rw [← hw]
    exact SimpleGraph.dist_le w
  obtain ⟨w2, hw2⟩ := (SimpleGraph.Walk.reachable w).exists_walk_length_eq_dist
  have h2 := lower root v w2
  rw [h0, hw2] at h2
  omega

/-! ## The source of the pushed edges -/

/-- After the prologue only the start room is `PASSAGE`. -/
theorem start_only (m : maze) (ha : Admissible m) :
    ∃ s, start m = Status.running s ∧
      ∀ x y, InGrid m x y → Open m s.cells x y → x = startX m ∧ y = startY m := by
  obtain ⟨s, hs, _⟩ := start_spec m ha
  refine ⟨s, hs, ?_⟩
  have hroom := start_isRoom m ha
  have hg := room_inGrid m _ _ hroom
  have hsz : 0 ≤ m.Dx * m.Dy := by
    obtain ⟨_, _, _, _, hw, hh⟩ := ha
    exact mul_nonneg (by omega) (by omega)
  have hl : ((List.replicate (m.Dx * m.Dy).toNat 1).length : Int) = m.Dx * m.Dy := by
    simp
    omega
  obtain ⟨c1, hu, _, _, hc1, _⟩ :=
    cellAt_upd m ha (List.replicate (m.Dx * m.Dy).toNat 1) hl _ _ hg 0
  have hold : ∀ x y, InGrid m x y →
      cellAt m (List.replicate (m.Dx * m.Dy).toNat 1) x y = some 1 := by
    intro x y hxy
    obtain ⟨v, hv, hm⟩ := cellAt_some m ha _ hl x y hxy
    rw [hv, List.eq_of_mem_replicate hm]
  have hst : start m = Status.running
      { cells := c1, h := [], p := m.index (startX m) (startY m), age := 0,
        atLoop := true } := by
    unfold start
    simp only
    rw [if_neg (by omega)]
    have e1 : (if (m.Dx.tdiv 2).tmod 2 = 0 then m.Dx.tdiv 2 - 1 else m.Dx.tdiv 2)
        = startX m := rfl
    rw [e1]
    have e2 : (if (m.Dy.tdiv 2).tmod 2 = 0 then m.Dy.tdiv 2 - 1 else m.Dy.tdiv 2)
        = startY m := rfl
    rw [e2, hu]
  rw [hst] at hs
  cases hs
  intro x y hxy ho
  unfold Open at ho
  simp only at ho
  rw [hc1 x y hxy] at ho
  by_cases h : x = startX m ∧ y = startY m
  · exact h
  · rw [if_neg h, hold x y hxy] at ho
    cases ho

/-- Every edge that the four guarded pushes add was discovered from the
current room and carries the current age. -/
theorem expand_src (m : maze) (ha : Admissible m) (cells : List Nat)
    (hl : (cells.length : Int) = m.Dx * m.Dy) (hb : ∀ v ∈ cells, v = 0 ∨ v = 1)
    (h : edgeHeap) (hh : IsHeap h) (age : Int) (x y : Int) (hr : IsRoom m x y) :
    ∃ h1, expand m cells h (m.index x y) age = Res.ok h1 ∧
      ∀ e ∈ h1, e ∈ h ∨ (e.a = age ∧ ∃ dx dy, Dir dx dy ∧
        IsRoom m (x - 2 * dx) (y - 2 * dy) ∧
        e.n = m.index (x - 2 * dx) (y - 2 * dy) ∧ e.p = m.index (x - dx) (y - dy)) := by
  have hg := room_inGrid m x y hr
  have hst := ha.1
  have hr1 := hr
  unfold IsRoom at hr1
  unfold expand
  simp only
  rw [position_index m ha x y hg]
  simp only
  have w1 : m.index x (y - 2) + m.Dx = m.index x (y - 1) := by
    unfold maze.index; rw [hst]; ring
  have w2 : m.index x (y + 2) - m.Dx = m.index x (y + 1) := by
    unfold maze.index; rw [hst]; ring
  have w3 : m.index (x - 2) y + 1 = m.index (x - 1) y := by
    unfold maze.index; ring
  have w4 : m.index (x + 2) y - 1 = m.index (x + 1) y := by
    unfold maze.index; ring
  rw [w1, w2, w3, w4]
  obtain ⟨h1, n1, e1, k1, p1, _, a1, _⟩ := tryPush_spec m ha cells hl hb age h hh
    (decide (y - 2 > 0)) x (y - 2) x (y - 1) (by
      intro hd
      simp only [decide_eq_true_eq] at hd
      unfold InGrid
      omega)
  rw [e1]
  simp only
  obtain ⟨h2, n2, e2, k2, p2, _, a2, _⟩ := tryPush_spec m ha cells hl hb age h1 k1
    (decide (y + 2 < m.Dy)) x (y + 2) x (y + 1) (by
      intro hd
      simp only [decide_eq_true_eq] at hd
      unfold InGrid
      omega)
  rw [e2]
  simp only
  obtain ⟨h3, n3, e3, k3, p3, _, a3, _⟩ := tryPush_spec m ha cells hl hb age h2 k2
    (decide (x - 2 > 0)) (x - 2) y (x - 1) y (by
      intro hd
      simp only [decide_eq_true_eq] at hd
      unfold InGrid
      omega)
  rw [e3]
  simp only
  obtain ⟨h4, n4, e4, _, p4, _, a4, _⟩ := tryPush_spec m ha cells hl hb age h3 k3
    (decide (x + 2 < m.Dx)) (x + 2) y (x + 1) y (by
      intro hd
      simp only [decide_eq_true_eq] at hd
      unfold InGrid
      omega)
  rw [e4]
  refine ⟨h4, rfl, ?_⟩
  have mk : ∀ (e : edge) (dx dy tx ty wx wy : Int), Dir dx dy → tx = x - 2 * dx →
      ty = y - 2 * dy → wx = x - dx → wy = y - dy → IsRoom m tx ty →
      e.n = m.index tx ty → e.p = m.index wx wy → e.a = age →
      e.a = age ∧ ∃ dx dy, Dir dx dy ∧ IsRoom m (x - 2 * dx) (y - 2 * dy) ∧
        e.n = m.index (x - 2 * dx) (y - 2 * dy) ∧ e.p = m.index (x - dx) (y - dy) := by
    intro e dx dy tx ty wx wy hd h1 h2 h3 h4 hroom hn hp hage
    subst h1 h2 h3 h4
    exact ⟨hage, dx, dy, hd, hroom, hn, hp⟩
  intro e he
  rcases List.mem_append.1 (p4.subset he) with he | he
  · right
    obtain ⟨b1, b2, b3, _, b5⟩ := a4 e he
    simp only [decide_eq_true_eq] at b5
    exact mk e (-1) 0 (x + 2) y (x + 1) y (by unfold Dir; omega) (by ring) (by ring)
      (by ring) (by ring) (by unfold IsRoom; omega) b1 b2 b3
  · rcases List.mem_append.1 (p3.subset he) with he | he
    · right
      obtain ⟨b1, b2, b3, _, b5⟩ := a3 e he
      simp only [decide_eq_true_eq] at b5
      exact mk e 1 0 (x - 2) y (x - 1) y (by unfold Dir; omega) (by ring) (by ring)
        (by ring) (by ring) (by unfold IsRoom; omega) b1 b2 b3
    · rcases List.mem_append.1 (p2.subset he) with he | he
      · right
        obtain ⟨b1, b2, b3, _, b5⟩ := a2 e he
        simp only [decide_eq_true_eq] at b5
        exact mk e 0 (-1) x (y + 2) x (y + 1) (by unfold Dir; omega) (by ring) (by ring)
          (by ring) (by ring) (by unfold IsRoom; omega) b1 b2 b3
      · rcases List.mem_append.1 (p1.subset he) with he | he
        · right
          obtain ⟨b1, b2, b3, _, b5⟩ := a1 e he
          simp only [decide_eq_true_eq] at b5
          exact mk e 0 1 x (y - 2) x (y - 1) (by unfold Dir; omega) (by ring) (by ring)
            (by ring) (by ring) (by unfold IsRoom; omega) b1 b2 b3
        · exact Or.inl he


/-! ## The ages along the run -/

/-- The depth invariant is kept by a carve. -/
theorem depth_carve (m : maze) (ha : Admissible m) (s : State) (hi : Inv m s)
    (depth : Int → Int → Nat) (hdp : DepthInv m s depth)
    (item : edge) (h1 : edgeHeap) (x y dx dy : Int) (c2 : List Nat)
    (hp : s.h.Perm (item :: h1)) (hd : Dir dx dy) (hr : IsRoom m x y)
    (hq : IsRoom m (x + 2 * dx) (y + 2 * dy))
    (hqo : Open m s.cells (x + 2 * dx) (y + 2 * dy))
    (hn : item.n = m.index x y) (hpi : item.p = m.index (x + dx) (y + dy))
    (hc : cellAt m s.cells x y = some 1)
    (hcell : ∀ x1 y1, InGrid m x1 y1 → cellAt m c2 x1 y1 =
      if (x1 = x ∧ y1 = y) ∨ (x1 = x + dx ∧ y1 = y + dy) then some 0
      else cellAt m s.cells x1 y1) :
    DepthInv m { cells := c2, h := h1, p := item.n, age := item.a + 1, atLoop := true }
      (bumpOrd depth x y (depth (x + 2 * dx) (y + 2 * dy) + 1)) := by
  obtain ⟨d1, d2, d3, d4, _⟩ := hdp
  have hg := room_inGrid m x y hr
  have hrN := hr
  have hqN := hq
  have hdN := hd
  unfold IsRoom at hrN hqN
  unfold Dir at hdN
  have hgw : InGrid m (x + dx) (y + dy) := by
    unfold InGrid
    omega
  have hclosed : ¬ Open m s.cells x y := by
    unfold Open
    rw [hc]
    simp [PASSAGE]
  have mono : ∀ a b, InGrid m a b → Open m s.cells a b → Open m c2 a b := by
    intro a b hab ho
    unfold Open
    rw [hcell a b hab]
    split
    · rfl
    · exact ho
  have newo : ∀ a b, InGrid m a b → Open m c2 a b →
      (a = x ∧ b = y) ∨ (a = x + dx ∧ b = y + dy) ∨ Open m s.cells a b := by
    intro a b hab ho
    unfold Open at ho
    rw [hcell a b hab] at ho
    by_cases h : (a = x ∧ b = y) ∨ (a = x + dx ∧ b = y + dy)
    · rcases h with h | h
      · exact Or.inl h
      · exact Or.inr (Or.inl h)
    · rw [if_neg h] at ho
      exact Or.inr (Or.inr ho)
  have onew : Open m c2 (x + dx) (y + dy) := by
    unfold Open
    rw [hcell _ _ hgw, if_pos (Or.inr ⟨rfl, rfl⟩)]
    rfl
  have old : ∀ a b, Open m s.cells a b → ¬ (a = x ∧ b = y) := by
    intro a b ho h
    rw [h.1, h.2] at ho
    exact hclosed ho
  have roomOpen : ∀ a b, IsRoom m a b → Open m c2 a b →
      (a = x ∧ b = y) ∨ Open m s.cells a b := by
    intro a b hra hoa
    rcases newo a b (room_inGrid m _ _ hra) hoa with h | h | h
    · exact Or.inl h
    · exfalso
      unfold IsRoom at hra
      omega
    · exact Or.inr h
  have stepGrid : ∀ a b ex ey, IsRoom m a b → Dir ex ey → InGrid m (a + ex) (b + ey) := by
    intro a b ex ey hra he
    obtain ⟨_, _, hwo, hho, _, _⟩ := ha
    unfold IsRoom at hra
    unfold Dir at he
    unfold InGrid
    omega
  -- the age of the carved edge is the depth of the room it was discovered from
  have hage : item.a = (depth (x + 2 * dx) (y + 2 * dy) : Int) := by
    obtain ⟨x1, y1, ex, ey, he, hr1, hq1, _, hn1, hp1, ha1⟩ :=
      d4 item (hp.symm.subset (List.mem_cons_self _ _))
    have hr1N := hr1
    have hq1N := hq1
    have heN := he
    unfold IsRoom at hr1N hq1N
    unfold Dir at heN
    rw [hn] at hn1
    rw [hpi] at hp1
    obtain ⟨a1, a2⟩ := index_inj m ha _ _ _ _ hg (room_inGrid m _ _ hr1) hn1
    obtain ⟨b1, b2⟩ := index_inj m ha _ _ _ _ hgw (by unfold InGrid; omega) hp1
    have e1 : x1 + 2 * ex = x + 2 * dx := by omega
    have e2 : y1 + 2 * ey = y + 2 * dy := by omega
    rw [ha1, e1, e2]
  refine ⟨?_, ?_, ?_, ?_, ?_⟩
  · rw [bumpOrd_ne _ _ _ _ _ _ (old _ _ hi.startOpen)]
    exact d1
  · intro a b hra hoa hns
    rcases roomOpen a b hra hoa with h | h
    · obtain ⟨h1, h2⟩ := h
      subst h1 h2
      refine ⟨dx, dy, hd, onew, hq, mono _ _ (room_inGrid m _ _ hq) hqo, ?_⟩
      rw [bumpOrd_eq _ _ _ _ _ _ ⟨rfl, rfl⟩, bumpOrd_ne _ _ _ _ _ _ (old _ _ hqo)]
    · obtain ⟨ex, ey, he, ho1, hr2, ho2, hlt⟩ := d2 a b hra h hns
      refine ⟨ex, ey, he, mono _ _ (stepGrid a b ex ey hra he) ho1, hr2,
        mono _ _ (room_inGrid m _ _ hr2) ho2, ?_⟩
      rw [bumpOrd_ne _ _ _ _ _ _ (old _ _ ho2), bumpOrd_ne _ _ _ _ _ _ (old _ _ h)]
      exact hlt
  · intro a b ex ey hra hoa he hoe
    have hraN := hra
    unfold IsRoom at hraN
    rcases roomOpen a b hra hoa with h | h
    · obtain ⟨h1, h2⟩ := h
      subst h1 h2
      have hed : ex = dx ∧ ey = dy := by
        have heN := he
        unfold Dir at heN
        rcases newo _ _ (stepGrid a b ex ey hra he) hoe with h | h | h
        · omega
        · omega
        · exact absurd (wall_open_ends m ha s hi a b ex ey hra he h).1 hclosed
      rw [hed.1, hed.2, bumpOrd_eq _ _ _ _ _ _ ⟨rfl, rfl⟩,
        bumpOrd_ne _ _ _ _ _ _ (old _ _ hqo)]
      omega
    · have hne := old a b h
      rw [bumpOrd_ne _ _ _ _ _ _ hne]
      rcases newo _ _ (stepGrid a b ex ey hra he) hoe with h1 | h1 | h1
      · exact absurd h1 (geo_not_room a b x y ex ey hraN.2.2.2.2.1 hraN.2.2.2.2.2
          hrN.2.2.2.2.1 hrN.2.2.2.2.2 he)
      · have hcase := geo_across a b x y dx dy ex ey hraN.2.2.2.2.1 hraN.2.2.2.2.2
          hrN.2.2.2.2.1 hrN.2.2.2.2.2 hd he h1 hne
        rw [bumpOrd_eq _ _ _ _ _ _ hcase]
        have hab : a = x + 2 * dx ∧ b = y + 2 * dy := by
          have heN := he
          unfold Dir at heN
          omega
        rw [hab.1, hab.2]
      · have hw := wall_open_ends m ha s hi a b ex ey hra he h1
        rw [bumpOrd_ne _ _ _ _ _ _ (old _ _ hw.2.2)]
        exact d3 a b ex ey hra h he h1
  · intro e he
    obtain ⟨x1, y1, ex, ey, hde, hr1, hq1, ho1, hn1, hp1, ha1⟩ :=
      d4 e (hp.symm.subset (List.mem_cons_of_mem _ he))
    refine ⟨x1, y1, ex, ey, hde, hr1, hq1, mono _ _ (room_inGrid m _ _ hq1) ho1, hn1, hp1, ?_⟩
    rw [bumpOrd_ne _ _ _ _ _ _ (old _ _ ho1)]
    exact ha1
  · refine ⟨x, y, hr, hn, ?_⟩
    rw [bumpOrd_eq _ _ _ _ _ _ ⟨rfl, rfl⟩]
    show item.a + 1 = _
    rw [hage]
    push_cast
    rfl

/-- Every state that `generate` reaches satisfies the depth invariant. -/
theorem run_depth (m : maze) (ha : Admissible m) : ∀ k s,
    runSteps m k = Status.running s → ∃ depth, DepthInv m s depth := by
  intro k
  induction k with
  | zero =>
    intro s hs
    obtain ⟨s0, h0, honly⟩ := start_only m ha
    obtain ⟨s1, h1, hi, _, hage, hh, hp, _⟩ := start_spec m ha
    have e0 : runSteps m 0 = start m := rfl
    rw [e0, h0] at hs
    rw [h0] at h1
    cases hs
    cases h1
    have hroom := start_isRoom m ha
    refine ⟨fun _ _ => 0, rfl, ?_, ?_, ?_, ?_⟩
    · intro x y hr ho hns
      exact absurd (honly x y (room_inGrid m _ _ hr) ho) hns
    · intro x y dx dy _ _ _ _
      exact Nat.le_succ 0
    · intro e he
      rw [hh] at he
      simp at he
    · exact ⟨startX m, startY m, hroom, hp, by rw [hage]; rfl⟩
  | succ k ih =>
    intro s1 hs1
    rcases run_inv m ha k with ⟨s, hs, hi, _⟩ | ⟨s, hs, _⟩
    · obtain ⟨depth, hdp⟩ := ih s hs
      rw [runSteps_succ_running m k s hs] at hs1
      cases hat : s.atLoop with
      | true =>
        obtain ⟨d1, d2, d3, d4, x, y, hr, hp, hage⟩ := hdp
        obtain ⟨h1, e1, hsrc⟩ := expand_src m ha s.cells hi.len hi.bits s.h hi.heap s.age x y hr
        have hstep : step m s = Status.running { s with h := h1, atLoop := false } := by
          unfold step
          rw [if_pos hat, hp, e1]
        rw [hstep] at hs1
        cases hs1
        refine ⟨depth, d1, d2, d3, ?_, x, y, hr, hp, hage⟩
        intro e he
        rcases hsrc e he with h | ⟨ha1, dx, dy, hd, hrt, hn, hpe⟩
        · exact d4 e h
        · have hcur : Open m s.cells x y := by
            obtain ⟨cx, cy, hcr, hcp, hco⟩ := hi.cur
            rw [hp] at hcp
            obtain ⟨a1, a2⟩ := index_inj m ha _ _ _ _ (room_inGrid m _ _ hr)
              (room_inGrid m _ _ hcr) hcp
            rw [a1, a2]
            exact hco
          have e1 : x - 2 * dx + 2 * dx = x := by ring
          have e2 : y - 2 * dy + 2 * dy = y := by ring
          have e3 : x - 2 * dx + dx = x - dx := by ring
          have e4 : y - 2 * dy + dy = y - dy := by ring
          refine ⟨x - 2 * dx, y - 2 * dy, dx, dy, hd, hrt, ?_, ?_, hn, ?_, ?_⟩
          · rw [e1, e2]; exact hr
          · rw [e1, e2]; exact hcur
          · rw [e3, e4]; exact hpe
          · rw [e1, e2, ha1]; exact hage
      | false =>
        by_cases hne : 0 < s.h.length
        · obtain ⟨item, h1, x, y, dx, dy, _, p1, _, _, hd, hr, hq, hqo, hn, hpi, _, hcase⟩ :=
            step_pop m ha s hi hat hne
          rcases hcase with ⟨_, e1⟩ | ⟨hcl, c2, e1, _, _, _, hcell⟩
          · rw [e1] at hs1
            cases hs1
            obtain ⟨d1, d2, d3, d4, d5⟩ := hdp
            refine ⟨depth, d1, d2, d3, ?_, d5⟩
            intro e he
            exact d4 e (p1.symm.subset (List.mem_cons_of_mem _ he))
          · rw [e1] at hs1
            cases hs1
            exact ⟨_, depth_carve m ha s hi depth hdp item h1 x y dx dy c2 p1 hd hr hq hqo
              hn hpi hcl hcell⟩
        · have he : s.h = [] := List.length_eq_zero.1 (by omega)
          rw [step_done m s hat he] at hs1
          cases hs1
    · rw [runSteps_succ, hs] at hs1
      cases hs1

/-! ## The claims, continued -/

theorem generate_done (m : maze) (cells : List Nat) (h : generate m = Res.ok cells) :
    runSteps m (stepBound m) = Status.done cells := by
  unfold generate at h
  cases hr : runSteps m (stepBound m) with
  | running s => rw [hr] at h; cases h
  | done c =>
    rw [hr] at h
    simp only [Res.ok.injEq] at h
    rw [h]
  | failed => rw [hr] at h; cases h
  | starved => rw [hr] at h; cases h

/-- C11 (empty-render signal). For a maze value whose cell grid is nil,
`writeBase64` builds no raster, sends no bytes to the writer and returns the
nil error. For every maze value with a present cell grid the outcome differs
from that one: whenever the method returns, it has built a raster `p` and sent
the bytes `enc p` of its encoding. A present grid of `width * height` cells is
rendered into the raster `Pix = cells`, and the all-`WALL` grid into the raster
of index 1 only, which is a raster all the same. The error returned for a
present grid is the one of closing the encoder, so the two outcomes differ in
the raster and the bytes written, whatever the returned error. -/
theorem empty_render_signal (m : maze) (closeErr : Option String) (hg : m.grid = none) :
    writeBase64 m closeErr = Res.ok (none, none) ∧
    (∀ (enc : Paletted → List Nat) (r : Option Paletted) (e : Option String),
      writeBase64 m closeErr = Res.ok (r, e) → r = none ∧ e = none ∧ writtenBytes enc r = []) ∧
    (∀ (m2 : maze) (c2 : Option String), m2.grid ≠ none →
      writeBase64 m2 c2 ≠ writeBase64 m closeErr ∧
      ∀ (r : Option Paletted) (e : Option String), writeBase64 m2 c2 = Res.ok (r, e) →
        e = c2 ∧ ∃ p, r = some p ∧ ∀ enc : Paletted → List Nat, writtenBytes enc r = enc p) ∧
    (∀ (m2 : maze) (c2 : Option String) (cells : List Nat), m2.grid = some cells →
      0 ≤ m2.Dx → 0 ≤ m2.Dy → (cells.length : Int) = m2.Dx * m2.Dy →
      ∃ p, writeBase64 m2 c2 = Res.ok (some p, c2) ∧ p.Pix = cells ∧
        p.Stride = m2.Dx ∧ p.Dx = m2.Dx ∧ p.Dy = m2.Dy ∧
        writeBase64 m2 c2 ≠ writeBase64 m closeErr) ∧
    (∀ (m2 : maze) (c2 : Option String), 0 ≤ m2.Dx → 0 ≤ m2.Dy →
      m2.grid = some (List.replicate (m2.Dx * m2.Dy).toNat WALL) →
      ∃ p, writeBase64 m2 c2 = Res.ok (some p, c2) ∧
        p.Pix = List.replicate (m2.Dx * m2.Dy).toNat WALL ∧
        writeBase64 m2 c2 ≠ writeBase64 m closeErr) := by
  have h0 : writeBase64 m closeErr = Res.ok (none, none) := by
    unfold writeBase64
    rw [hg]
  have hsome : ∀ (m2 : maze) (c2 : Option String), m2.grid ≠ none →
      ∀ (r : Option Paletted) (e : Option String), writeBase64 m2 c2 = Res.ok (r, e) →
        e = c2 ∧ ∃ p, r = some p := by
    intro m2 c2 hn r e h
    unfold writeBase64 at h
    cases hgr : m2.grid with
    | none => exact absurd hgr hn
    | some cells =>
      rw [hgr] at h
      simp only at h
      cases hp : NewPaletted m2.Dx m2.Dy with
      | none => rw [hp] at h; cases h
      | some p0 =>
        rw [hp] at h
        simp only at h
        cases hr : renderRows m2 cells m2.Dy.toNat 0 0 p0 with
        | ok p1 =>
          rw [hr] at h
          simp only [Res.ok.injEq, Prod.mk.injEq] at h
          exact ⟨h.2.symm, p1, h.1.symm⟩
        | panic => rw [hr] at h; cases h
        | timeout => rw [hr] at h; cases h
  have hne : ∀ (m2 : maze) (c2 : Option String), m2.grid ≠ none →
      writeBase64 m2 c2 ≠ writeBase64 m closeErr := by
    intro m2 c2 hn heq
    rw [h0] at heq
    obtain ⟨_, p, hp⟩ := hsome m2 c2 hn none none heq
    cases hp
  have hren : ∀ (m2 : maze) (c2 : Option String) (cells : List Nat), m2.grid = some cells →
      0 ≤ m2.Dx → 0 ≤ m2.Dy → (cells.length : Int) = m2.Dx * m2.Dy →
      ∃ p, writeBase64 m2 c2 = Res.ok (some p, c2) ∧ p.Pix = cells ∧
        p.Stride = m2.Dx ∧ p.Dx = m2.Dx ∧ p.Dy = m2.Dy := by
    intro m2 c2 cells hc hw hh hl
    have hm : { m2 with grid := some cells } = m2 := by
      cases m2
      simp only at hc
      simp only [hc]
    have := writeBase64_spec m2 cells c2 hw hh hl
    rw [hm] at this
    exact this
  refine ⟨h0, ?_, ?_, ?_, ?_⟩
  · intro enc r e h
    rw [h0] at h
    simp only [Res.ok.injEq, Prod.mk.injEq] at h
    obtain ⟨h1, h2⟩ := h
    subst h1
    exact ⟨rfl, h2.symm, rfl⟩
  · intro m2 c2 hn
    refine ⟨hne m2 c2 hn, ?_⟩
    intro r e h
    obtain ⟨he, p, hp⟩ := hsome m2 c2 hn r e h
    refine ⟨he, p, hp, ?_⟩
    intro enc
    rw [hp]
    rfl
  · intro m2 c2 cells hc hw hh hl
    obtain ⟨p, h1, h2, h3, h4, h5⟩ := hren m2 c2 cells hc hw hh hl
    exact ⟨p, h1, h2, h3, h4, h5, hne m2 c2 (by rw [hc]; exact Option.some_ne_none _)⟩
  · intro m2 c2 hw hh hc
    obtain ⟨p, h1, h2, _⟩ := hren m2 c2 _ hc hw hh (by
      rw [List.length_replicate]
      exact Int.toNat_of_nonneg (mul_nonneg hw hh))
    exact ⟨p, h1, h2, hne m2 c2 (by rw [hc]; exact Option.some_ne_none _)⟩

/-- Witness of `empty_render_signal` on the flat 11 by 11 maze value: the nil
grid gives no raster, the all-`WALL` grid of 121 cells gives a raster of 121
indices 1. -/
theorem empty_render_signal_witness :
    (flat 11 11).grid = none ∧
    writeBase64 (flat 11 11) none = Res.ok (none, none) ∧
    (∃ p, writeBase64 { flat 11 11 with grid := some (List.replicate 121 WALL) } none
        = Res.ok (some p, none) ∧
      p.Pix = List.replicate 121 WALL ∧
      writeBase64 { flat 11 11 with grid := some (List.replicate 121 WALL) } none
        ≠ writeBase64 (flat 11 11) none) :=
  ⟨rfl, (empty_render_signal (flat 11 11) none rfl).1,
    (empty_render_signal (flat 11 11) none rfl).2.2.2.2
      { flat 11 11 with grid := some (List.replicate 121 WALL) } none
      (by decide) (by decide) rfl⟩

/-- C12 (termination). For odd width and height in `[11, 501]` and every
intensity grid, `generate` returns a cell grid; every jump back to the label
`loop` has turned one `WALL` room into `PASSAGE`, and there are at most
`((width-1)/2) * ((height-1)/2) - 1` of them; a step is the return exactly when
control is at the head of the `for` loop and the frontier is empty; the
frontier is empty at the start. -/
theorem generate_terminates (m : maze) (hv : Valid m) :
    (∃ cells, generate m = Res.ok cells) ∧
    (∀ k, (loopEntries m k : Int) ≤ ((m.Dx - 1) / 2) * ((m.Dy - 1) / 2) - 1) ∧
    (∀ k s1, runSteps m (k + 1) = Status.running s1 → s1.atLoop = true →
      ∃ s x y, runSteps m k = Status.running s ∧ IsRoom m x y ∧ s1.p = m.index x y ∧
        cellAt m s.cells x y = some WALL ∧ cellAt m s1.cells x y = some PASSAGE ∧
        passageRoomCount m s1.cells = passageRoomCount m s.cells + 1) ∧
    (∀ k s, runSteps m k = Status.running s →
      (runSteps m (k + 1) = Status.done s.cells ↔ (s.atLoop = false ∧ s.h = []))) ∧
    (∃ s0, runSteps m 0 = Status.running s0 ∧ s0.h = [] ∧ s0.atLoop = true) := by
  have ha := valid_admissible m hv
  refine ⟨?_, ?_, ?_, ?_, ?_⟩
  · obtain ⟨s, hs, _⟩ := generate_spec m ha
    exact ⟨s.cells, hs⟩
  · intro k
    have hcells : ∃ cells, statusCells (runSteps m k) = some cells := by
      rcases run_inv m ha k with ⟨s, hs, _⟩ | ⟨s, hs, _⟩
      · exact ⟨s.cells, by rw [hs]; rfl⟩
      · exact ⟨s.cells, by rw [hs]; rfl⟩
    obtain ⟨cells, hc⟩ := hcells
    obtain ⟨h1, _⟩ := run_counted m ha k cells hc
    have h2 := count_le_rooms m ha cells
    rw [h1] at h2
    push_cast at h2
    omega
  · intro k s1 hs1 hat1
    rcases run_inv m ha k with ⟨s, hs, hi, _⟩ | ⟨s, hs, _⟩
    · have hnext := runSteps_succ_running m k s hs
      rw [hnext] at hs1
      cases hat : s.atLoop with
      | true =>
        obtain ⟨h1, _, e1, _⟩ := step_expand m ha s hi hat
        rw [e1] at hs1
        cases hs1
        simp at hat1
      | false =>
        by_cases hne : 0 < s.h.length
        · obtain ⟨item, h1, x, y, dx, dy, _, _, _, _, _, hr, _, _, hn, _, _, hcase⟩ :=
            step_pop m ha s hi hat hne
          rcases hcase with ⟨_, e1⟩ | ⟨hcl, c2, e1, _, _, _, hcell⟩
          · rw [e1] at hs1
            cases hs1
            simp only at hat1
            rw [hat] at hat1
            cases hat1
          · have hk := run_counted m ha k s.cells (by rw [hs]; rfl)
            have hk1 := run_counted m ha (k + 1) c2 (by rw [hnext, e1]; rfl)
            rw [loopEntries_succ, hnext, e1] at hk1
            simp only [atLabel, if_true] at hk1
            rw [e1] at hs1
            cases hs1
            refine ⟨s, x, y, hs, hr, hn, hcl, ?_, ?_⟩
            · simp only
              rw [hcell x y (room_inGrid m _ _ hr), if_pos (Or.inl ⟨rfl, rfl⟩)]
              rfl
            · simp only
              rw [hk1.1, hk.1]
        · have he : s.h = [] := List.length_eq_zero.1 (by omega)
          rw [step_done m s hat he] at hs1
          cases hs1
    · rw [runSteps_succ, hs] at hs1
      cases hs1
  · intro k s hs
    have hi := reach_inv m ha k s hs
    rw [runSteps_succ_running m k s hs]
    constructor
    · intro hd
      rcases step_progress m ha s hi with ⟨s1, e1, _⟩ | ⟨_, hat, hh⟩
      · rw [e1] at hd
        cases hd
      · exact ⟨hat, hh⟩
    · intro h
      exact step_done m s h.1 h.2
  · obtain ⟨s, hs, _, hat, _, hh, _⟩ := start_spec m ha
    exact ⟨s, hs, hh, hat⟩

/-- Witness of `generate_terminates` on the flat 11 by 11 grid, with the first
jump back to the label `loop`. -/
theorem generate_terminates_witness :
    Valid (flat 11 11) ∧
    (∃ cells, generate (flat 11 11) = Res.ok cells) ∧
    (loopEntries (flat 11 11) 2 : Int)
      ≤ (((flat 11 11).Dx - 1) / 2) * (((flat 11 11).Dy - 1) / 2) - 1 ∧
    (∃ s1, runSteps (flat 11 11) 2 = Status.running s1 ∧ s1.atLoop = true ∧
      ∃ s x y, runSteps (flat 11 11) 1 = Status.running s ∧ IsRoom (flat 11 11) x y ∧
        s1.p = (flat 11 11).index x y ∧
        cellAt (flat 11 11) s.cells x y = some WALL ∧
        cellAt (flat 11 11) s1.cells x y = some PASSAGE ∧
        passageRoomCount (flat 11 11) s1.cells = passageRoomCount (flat 11 11) s.cells + 1) := by
  have hv : Valid (flat 11 11) := by simp [Valid, flat, mazeOf]
  refine ⟨hv, (generate_terminates (flat 11 11) hv).1,
    (generate_terminates (flat 11 11) hv).2.1 2, _, rfl, rfl, ?_⟩
  exact (generate_terminates (flat 11 11) hv).2.2.1 1 _ rfl rfl

/-- C13 (index safety). For odd width and height in `[11, 501]` and `Pix` of
`width * height` bytes with `Stride = width`: the cell grid has
`width * height` cells, and the start position, the current room, the target
and the wall of every frontier edge (so of every popped edge), and the
neighbour room and connecting wall of each of the four guarded pushes lie in
`[0, width * height)`; no step panics and `generate` returns a cell grid. -/
theorem index_safety (m : maze) (hv : Valid m) :
    (m.Pix.length : Int) = m.Dx * m.Dy ∧
    (0 ≤ m.index (startX m) (startY m) ∧ m.index (startX m) (startY m) < m.Dx * m.Dy) ∧
    (∀ k s, runSteps m k = Status.running s →
      (s.cells.length : Int) = m.Dx * m.Dy ∧
      (0 ≤ s.p ∧ s.p < m.Dx * m.Dy) ∧
      (∀ e ∈ s.h, 0 ≤ e.n ∧ e.n < m.Dx * m.Dy ∧ 0 ≤ e.p ∧ e.p < m.Dx * m.Dy) ∧
      ((m.position s.p).2 - 2 > 0 →
        0 ≤ m.index (m.position s.p).1 ((m.position s.p).2 - 2) ∧
        m.index (m.position s.p).1 ((m.position s.p).2 - 2) < m.Dx * m.Dy ∧
        0 ≤ m.index (m.position s.p).1 ((m.position s.p).2 - 2) + m.Dx ∧
        m.index (m.position s.p).1 ((m.position s.p).2 - 2) + m.Dx < m.Dx * m.Dy) ∧
      ((m.position s.p).2 + 2 < m.Dy →
        0 ≤ m.index (m.position s.p).1 ((m.position s.p).2 + 2) ∧
        m.index (m.position s.p).1 ((m.position s.p).2 + 2) < m.Dx * m.Dy ∧
        0 ≤ m.index (m.position s.p).1 ((m.position s.p).2 + 2) - m.Dx ∧
        m.index (m.position s.p).1 ((m.position s.p).2 + 2) - m.Dx < m.Dx * m.Dy) ∧
      ((m.position s.p).1 - 2 > 0 →
        0 ≤ m.index ((m.position s.p).1 - 2) (m.position s.p).2 ∧
        m.index ((m.position s.p).1 - 2) (m.position s.p).2 < m.Dx * m.Dy ∧
        0 ≤ m.index ((m.position s.p).1 - 2) (m.position s.p).2 + 1 ∧
        m.index ((m.position s.p).1 - 2) (m.position s.p).2 + 1 < m.Dx * m.Dy) ∧
      ((m.position s.p).1 + 2 < m.Dx →
        0 ≤ m.index ((m.position s.p).1 + 2) (m.position s.p).2 ∧
        m.index ((m.position s.p).1 + 2) (m.position s.p).2 < m.Dx * m.Dy ∧
        0 ≤ m.index ((m.position s.p).1 + 2) (m.position s.p).2 - 1 ∧
        m.index ((m.position s.p).1 + 2) (m.position s.p).2 - 1 < m.Dx * m.Dy)) ∧
    (∀ k, runSteps m k ≠ Status.failed) ∧
    generate m ≠ Res.panic ∧ ∃ cells, generate m = Res.ok cells := by
  have ha := valid_admissible m hv
  have hst := ha.1
  have rng : ∀ x y, InGrid m x y → 0 ≤ m.index x y ∧ m.index x y < m.Dx * m.Dy :=
    fun x y hg => index_range m ha x y hg
  refine ⟨ha.2.1, rng _ _ (room_inGrid m _ _ (start_isRoom m ha)), ?_, ?_, ?_⟩
  · intro k s hs
    have hi := reach_inv m ha k s hs
    obtain ⟨x, y, hr, hp, _⟩ := hi.cur
    have hrN := hr
    unfold IsRoom at hrN
    obtain ⟨_, _, hwo, hho, _, _⟩ := ha
    have ha := valid_admissible m hv
    rw [hp, position_index m ha x y (room_inGrid m _ _ hr)]
    simp only
    have w1 : m.index x (y - 2) + m.Dx = m.index x (y - 1) := by
      unfold maze.index; rw [hst]; ring
    have w2 : m.index x (y + 2) - m.Dx = m.index x (y + 1) := by
      unfold maze.index; rw [hst]; ring
    have w3 : m.index (x - 2) y + 1 = m.index (x - 1) y := by
      unfold maze.index; ring
    have w4 : m.index (x + 2) y - 1 = m.index (x + 1) y := by
      unfold maze.index; ring
    rw [w1, w2, w3, w4]
    refine ⟨hi.len, rng x y (room_inGrid m _ _ hr), ?_, ?_, ?_, ?_, ?_⟩
    · intro e he
      obtain ⟨ex, ey, dx, dy, hd, hre, hqe, _, hn, hpe, _⟩ := hi.edges e he
      have hreN := hre
      have hqeN := hqe
      unfold IsRoom at hreN hqeN
      unfold Dir at hd
      have g1 := rng ex ey (room_inGrid m _ _ hre)
      have g2 := rng (ex + dx) (ey + dy) (by unfold InGrid; omega)
      rw [hn, hpe]
      exact ⟨g1.1, g1.2, g2.1, g2.2⟩
    · intro h
      have g1 := rng x (y - 2) (by unfold InGrid; omega)
      have g2 := rng x (y - 1) (by unfold InGrid; omega)
      exact ⟨g1.1, g1.2, g2.1, g2.2⟩
    · intro h
      have g1 := rng x (y + 2) (by unfold InGrid; omega)
      have g2 := rng x (y + 1) (by unfold InGrid; omega)
      exact ⟨g1.1, g1.2, g2.1, g2.2⟩
    · intro h
      have g1 := rng (x - 2) y (by unfold InGrid; omega)
      have g2 := rng (x - 1) y (by unfold InGrid; omega)
      exact ⟨g1.1, g1.2, g2.1, g2.2⟩
    · intro h
      have g1 := rng (x + 2) y (by unfold InGrid; omega)
      have g2 := rng (x + 1) y (by unfold InGrid; omega)
      exact ⟨g1.1, g1.2, g2.1, g2.2⟩
  · intro k hf
    rcases run_inv m ha k with ⟨s, hs, _⟩ | ⟨s, hs, _⟩
    · rw [hs] at hf
      cases hf
    · rw [hs] at hf
      cases hf
  · obtain ⟨s, hs, _⟩ := generate_spec m ha
    refine ⟨?_, s.cells, hs⟩
    rw [hs]
    intro h
    cases h

/-- Witness of `index_safety` on the grid `spot`. -/
theorem index_safety_witness :
    Valid spot ∧ (spot.Pix.length : Int) = spot.Dx * spot.Dy ∧
    (0 ≤ spot.index (startX spot) (startY spot) ∧
      spot.index (startX spot) (startY spot) < spot.Dx * spot.Dy) ∧
    (∃ s, runSteps spot 1 = Status.running s ∧ (0 ≤ s.p ∧ s.p < spot.Dx * spot.Dy) ∧
      (∀ e ∈ s.h, 0 ≤ e.n ∧ e.n < spot.Dx * spot.Dy ∧ 0 ≤ e.p ∧ e.p < spot.Dx * spot.Dy)) ∧
    (∀ k, runSteps spot k ≠ Status.failed) ∧
    generate spot ≠ Res.panic ∧ ∃ cells, generate spot = Res.ok cells := by
  have hv : Valid spot := by simp [Valid, spot, mazeOf]
  have h := index_safety spot hv
  refine ⟨hv, h.1, h.2.1, ⟨_, rfl, ?_, ?_⟩, h.2.2.2⟩
  · exact (h.2.2.1 1 _ rfl).2.1
  · exact (h.2.2.1 1 _ rfl).2.2.1

/-- C14 (start room). For odd width and height in `[11, 501]` the start room
of `generate` is `(sx, sy)` with `sx` the largest odd integer not above
`width / 2` and `sy` the largest odd integer not above `height / 2`; after the
prologue it is the current room, it is `PASSAGE` and the frontier is still
empty; for width or height 11, and also 13, the coordinate is 5. -/
theorem start_room (m : maze) (hv : Valid m) :
    (startX m % 2 = 1 ∧ startX m ≤ m.Dx / 2 ∧
      ∀ z : Int, z % 2 = 1 → z ≤ m.Dx / 2 → z ≤ startX m) ∧
    (startY m % 2 = 1 ∧ startY m ≤ m.Dy / 2 ∧
      ∀ z : Int, z % 2 = 1 → z ≤ m.Dy / 2 → z ≤ startY m) ∧
    (∃ s0, runSteps m 0 = Status.running s0 ∧ s0.h = [] ∧ s0.atLoop = true ∧
      m.position s0.p = (startX m, startY m) ∧
      cellAt m s0.cells (startX m) (startY m) = some PASSAGE) ∧
    (m.Dx = 11 → startX m = 5) ∧ (m.Dy = 11 → startY m = 5) ∧
    (m.Dx = 13 → startX m = 5) ∧ (m.Dy = 13 → startY m = 5) := by
  have ha := valid_admissible m hv
  have ex := startX_eq m ha
  have ey := startY_eq m ha
  refine ⟨?_, ?_, ?_, ?_, ?_, ?_, ?_⟩
  · rw [ex]
    split
    · refine ⟨by omega, by omega, ?_⟩
      intro z h1 h2
      omega
    · refine ⟨by omega, by omega, ?_⟩
      intro z h1 h2
      omega
  · rw [ey]
    split
    · refine ⟨by omega, by omega, ?_⟩
      intro z h1 h2
      omega
    · refine ⟨by omega, by omega, ?_⟩
      intro z h1 h2
      omega
  · obtain ⟨s, hs, hi, hat, _, hh, hp, _⟩ := start_spec m ha
    refine ⟨s, hs, hh, hat, ?_, hi.startOpen⟩
    rw [hp, position_index m ha _ _ (room_inGrid m _ _ (start_isRoom m ha))]
  · intro h
    rw [ex, h]
    decide
  · intro h
    rw [ey, h]
    decide
  · intro h
    rw [ex, h]
    decide
  · intro h
    rw [ey, h]
    decide

/-- Witness of `start_room` on the flat 11 by 11 grid. -/
theorem start_room_witness :
    Valid (flat 11 11) ∧
    ((startX (flat 11 11) % 2 = 1 ∧ startX (flat 11 11) ≤ (flat 11 11).Dx / 2 ∧
      ∀ z : Int, z % 2 = 1 → z ≤ (flat 11 11).Dx / 2 → z ≤ startX (flat 11 11)) ∧
    (startY (flat 11 11) % 2 = 1 ∧ startY (flat 11 11) ≤ (flat 11 11).Dy / 2 ∧
      ∀ z : Int, z % 2 = 1 → z ≤ (flat 11 11).Dy / 2 → z ≤ startY (flat 11 11)) ∧
    (∃ s0, runSteps (flat 11 11) 0 = Status.running s0 ∧ s0.h = [] ∧ s0.atLoop = true ∧
      (flat 11 11).position s0.p = (startX (flat 11 11), startY (flat 11 11)) ∧
      cellAt (flat 11 11) s0.cells (startX (flat 11 11)) (startY (flat 11 11))
        = some PASSAGE) ∧
    ((flat 11 11).Dx = 11 → startX (flat 11 11) = 5) ∧
    ((flat 11 11).Dy = 11 → startY (flat 11 11) = 5) ∧
    ((flat 11 11).Dx = 13 → startX (flat 11 11) = 5) ∧
    ((flat 11 11).Dy = 13 → startY (flat 11 11) = 5)) :=
  ⟨by simp [Valid, flat, mazeOf], start_room (flat 11 11) (by simp [Valid, flat, mazeOf])⟩

/-- The steps of `generate` read the maze value only through `Pix`, `Stride`
and the dimensions. -/
theorem runSteps_congr (m1 m2 : maze) (hp : m1.Pix = m2.Pix) (hs : m1.Stride = m2.Stride)
    (hx : m1.Dx = m2.Dx) (hy : m1.Dy = m2.Dy) : ∀ k, runSteps m1 k = runSteps m2 k := by
  have hidx : ∀ x y, m1.index x y = m2.index x y := by
    intro x y
    unfold maze.index
    rw [hs]
  have hpos : ∀ p, m1.position p = m2.position p := by
    intro p
    unfold maze.position
    rw [hs]
  have hw : ∀ n p, m1.weight n p = m2.weight n p := by
    intro n p
    unfold maze.weight
    rw [hp]
  have htry : ∀ cells age h inside next wall,
      tryPush m1 cells age h inside next wall = tryPush m2 cells age h inside next wall := by
    intro cells age h inside next wall
    unfold tryPush
    rw [hw]
  have hexp : ∀ cells h p age, expand m1 cells h p age = expand m2 cells h p age := by
    intro cells h p age
    unfold expand
    simp only [htry, hidx, hpos, hx, hy]
  have hstep : ∀ s, step m1 s = step m2 s := by
    intro s
    unfold step
    rw [hexp]
  have hstart : start m1 = start m2 := by
    unfold start
    simp only [hidx, hx, hy]
  intro k
  induction k with
  | zero => exact hstart
  | succ k ih =>
    show (runSteps m1 k).next m1 = (runSteps m2 k).next m2
    rw [ih]
    cases runSteps m2 k with
    | running s => exact hstep s
    | done c => rfl
    | failed => rfl
    | starved => rfl

/-- C15 (determinism). The outcome of `generate` is a function of `Pix`,
`Stride` and the dimensions: two maze values that agree on them give the same
outcome, whatever their cell-grid fields hold; in particular a second run on a
maze value that already holds the cell grid of a first run returns the same
cell grid. -/
theorem generate_deterministic (m1 m2 : maze) (hp : m1.Pix = m2.Pix)
    (hs : m1.Stride = m2.Stride) (hx : m1.Dx = m2.Dx) (hy : m1.Dy = m2.Dy) :
    generate m1 = generate m2 ∧
    ∀ cells, generate m1 = Res.ok cells →
      generate { m1 with grid := some cells } = Res.ok cells := by
  have key1 : ∀ a b : maze, a.Pix = b.Pix → a.Stride = b.Stride → a.Dx = b.Dx →
      a.Dy = b.Dy → generate a = generate b := by
    intro a b h1 h2 h3 h4
    unfold generate stepBound
    rw [runSteps_congr a b h1 h2 h3 h4, h3, h4]
  refine ⟨key1 m1 m2 hp hs hx hy, ?_⟩
  intro cells hc
  rw [← hc]
  exact key1 _ _ rfl rfl rfl rfl

/-- Witness of `generate_deterministic`: the flat 11 by 11 grid with a nil cell
grid and with an all-`WALL` cell grid left by an earlier run. -/
theorem generate_deterministic_witness :
    (flat 11 11).Pix = ({ flat 11 11 with grid := some (List.replicate 121 1) } : maze).Pix ∧
    (generate (flat 11 11)
        = generate { flat 11 11 with grid := some (List.replicate 121 1) } ∧
      ∀ cells, generate (flat 11 11) = Res.ok cells →
        generate { flat 11 11 with grid := some cells } = Res.ok cells) :=
  ⟨rfl, generate_deterministic (flat 11 11)
    { flat 11 11 with grid := some (List.replicate 121 1) } rfl rfl rfl rfl⟩

/-- C16 (stale-edge discard). For odd width and height in `[11, 501]`: a pop
of an edge whose target room is already `PASSAGE` changes only the frontier
(cell grid, current room and age counter stay, control stays at the `for`
loop); no step turns a `PASSAGE` cell back, so a room is opened at most once;
a carve opens exactly the target room and the wall of its edge, both `WALL`
before; and in the returned grid the `PASSAGE` cells are the
`((width-1)/2) * ((height-1)/2)` rooms and one wall for each room but one. -/
theorem stale_edge_discard (m : maze) (hv : Valid m) :
    (∀ k s item h1, runSteps m k = Status.running s → s.atLoop = false →
      heapPop s.h = Res.ok (item, h1) → idx? s.cells item.n = some PASSAGE →
      runSteps m (k + 1) = Status.running { s with h := h1 }) ∧
    (∀ k s s1, runSteps m k = Status.running s → runSteps m (k + 1) = Status.running s1 →
      ∀ x y : Int, InGrid m x y → cellAt m s.cells x y = some PASSAGE →
        cellAt m s1.cells x y = some PASSAGE) ∧
    (∀ k s item h1, runSteps m k = Status.running s → s.atLoop = false →
      heapPop s.h = Res.ok (item, h1) → idx? s.cells item.n = some WALL →
      runSteps m (k + 1) = Status.running
        { cells := (s.cells.set item.n.toNat 0).set item.p.toNat 0, h := h1, p := item.n,
          age := item.a + 1, atLoop := true } ∧
      idx? s.cells item.p = some WALL ∧ item.n ≠ item.p) ∧
    (∃ cells, generate m = Res.ok cells ∧
      (passageRoomCount m cells : Int) = ((m.Dx - 1) / 2) * ((m.Dy - 1) / 2) ∧
      (cells.count PASSAGE : Int) = 2 * (((m.Dx - 1) / 2) * ((m.Dy - 1) / 2)) - 1) := by
  have ha := valid_admissible m hv
  refine ⟨?_, ?_, ?_, ?_⟩
  · intro k s item h1 hs hat hpop hc
    rw [runSteps_succ_running m k s hs]
    exact step_discard m s item h1 hat hpop hc
  · intro k s s1 hs hs1 x y hg hc
    have hi := reach_inv m ha k s hs
    rw [runSteps_succ_running m k s hs] at hs1
    cases hat : s.atLoop with
    | true =>
      obtain ⟨h1, _, e1, _⟩ := step_expand m ha s hi hat
      rw [e1] at hs1
      cases hs1
      exact hc
    | false =>
      by_cases hne : 0 < s.h.length
      · obtain ⟨item, h1, x0, y0, dx, dy, _, _, _, _, _, _, _, _, _, _, _, hcase⟩ :=
          step_pop m ha s hi hat hne
        rcases hcase with ⟨_, e1⟩ | ⟨_, c2, e1, _, _, _, hcell⟩
        · rw [e1] at hs1
          cases hs1
          exact hc
        · rw [e1] at hs1
          cases hs1
          simp only
          rw [hcell x y hg]
          split
          · rfl
          · exact hc
      · have he : s.h = [] := List.length_eq_zero.1 (by omega)
        rw [step_done m s hat he] at hs1
        cases hs1
  · intro k s item h1 hs hat hpop hc
    have hi := reach_inv m ha k s hs
    rw [runSteps_succ_running m k s hs]
    obtain ⟨e1, e2, e3, _⟩ := step_carve m ha s hi item h1 hat hpop hc
    exact ⟨e1, e2, e3⟩
  · obtain ⟨s, hs, hi, hat, hh⟩ := generate_spec m ha
    have hall : ∀ x y, IsRoom m x y → Open m s.cells x y :=
      fun x y hr => final_all_rooms m ha s hi hat hh x y hr
    have hcount := count_all_rooms m ha s.cells hall
    have hdone := generate_done m s.cells hs
    obtain ⟨c1, c2⟩ := run_counted m ha (stepBound m) s.cells (by rw [hdone]; rfl)
    have hz := count_zero_add_sum s.cells hi.bits
    have hl := hi.len
    refine ⟨s.cells, hs, hcount, ?_⟩
    rw [c1] at hcount
    have hsz : 0 ≤ m.Dx * m.Dy := by
      obtain ⟨_, _, _, _, hw, hh⟩ := ha
      exact mul_nonneg (by omega) (by omega)
    have h3 : ((s.cells.sum + 2 * loopEntries m (stepBound m) + 1 : Nat) : Int)
        = m.Dx * m.Dy := by
      rw [c2]
      exact Int.toNat_of_nonneg hsz
    have h4 : ((List.count 0 s.cells + s.cells.sum : Nat) : Int) = m.Dx * m.Dy := by
      rw [hz]
      exact hl
    push_cast at h3 h4 hcount
    show (List.count 0 s.cells : Int) = _
    rw [← hcount]
    omega

/-- Witness of `stale_edge_discard` on the flat 11 by 11 grid: the first stale
pop is at step 49, the first carve at step 1. -/
theorem stale_edge_discard_witness :
    Valid (flat 11 11) ∧
    (∃ s item h1, runSteps (flat 11 11) 49 = Status.running s ∧ s.atLoop = false ∧
      heapPop s.h = Res.ok (item, h1) ∧ idx? s.cells item.n = some PASSAGE ∧
      runSteps (flat 11 11) 50 = Status.running { s with h := h1 }) ∧
    (∃ s item h1, runSteps (flat 11 11) 1 = Status.running s ∧ s.atLoop = false ∧
      heapPop s.h = Res.ok (item, h1) ∧ idx? s.cells item.n = some WALL ∧
      (runSteps (flat 11 11) 2 = Status.running
        { cells := (s.cells.set item.n.toNat 0).set item.p.toNat 0, h := h1, p := item.n,
          age := item.a + 1, atLoop := true } ∧
      idx? s.cells item.p = some WALL ∧ item.n ≠ item.p)) ∧
    (∃ cells, generate (flat 11 11) = Res.ok cells ∧
      (passageRoomCount (flat 11 11) cells : Int)
        = (((flat 11 11).Dx - 1) / 2) * (((flat 11 11).Dy - 1) / 2) ∧
      (cells.count PASSAGE : Int)
        = 2 * ((((flat 11 11).Dx - 1) / 2) * (((flat 11 11).Dy - 1) / 2)) - 1) := by
  have hv : Valid (flat 11 11) := by simp [Valid, flat, mazeOf]
  have h := stale_edge_discard (flat 11 11) hv
  refine ⟨hv, ⟨_, _, _, rfl, rfl, rfl, rfl, ?_⟩, ⟨_, _, _, rfl, rfl, rfl, rfl, ?_⟩, h.2.2.2⟩
  · exact h.1 49 _ _ _ rfl rfl rfl rfl
  · exact h.2.2.1 1 _ _ _ rfl rfl rfl rfl

/-- The age of a frontier edge is the depth of the room it was discovered from. -/
theorem edge_age_depth (m : maze) (ha : Admissible m) (s : State)
    (depth : Int → Int → Nat) (hdp : DepthInv m s depth) (e : edge) (he : e ∈ s.h)
    (qx qy dx dy : Int) (hd : Dir dx dy) (hq : IsRoom m qx qy)
    (ht : IsRoom m (qx - 2 * dx) (qy - 2 * dy))
    (hn : e.n = m.index (qx - 2 * dx) (qy - 2 * dy))
    (hp : e.p = m.index (qx - dx) (qy - dy)) :
    e.a = (depth qx qy : Int) := by
  obtain ⟨_, _, _, d4, _⟩ := hdp
  obtain ⟨x1, y1, ex, ey, hde, hr1, hq1, _, hn1, hp1, ha1⟩ := d4 e he
  have hdN := hd
  have hqN := hq
  have htN := ht
  have hr1N := hr1
  have hq1N := hq1
  unfold IsRoom at hqN htN hr1N hq1N
  unfold Dir at hdN hde
  rw [hn] at hn1
  rw [hp] at hp1
  obtain ⟨a1, a2⟩ := index_inj m ha _ _ _ _ (room_inGrid m _ _ ht) (room_inGrid m _ _ hr1) hn1
  obtain ⟨b1, b2⟩ := index_inj m ha (qx - dx) (qy - dy) (x1 + ex) (y1 + ey)
    (by unfold InGrid; omega) (by unfold InGrid; omega) hp1
  have e1 : x1 + 2 * ex = qx := by omega
  have e2 : y1 + 2 * ey = qy := by omega
  rw [ha1, e1, e2]

/-- C17 (age equals tree depth). For odd width and height in `[11, 501]`: the
age of every frontier edge is the number of carved walls on the path of the
room graph from the start room to the room the edge was discovered from; edges
discovered from the same room carry the same age, and edges discovered from
the start room carry age 0; a carve sets the counter to the age of the carved
edge plus one. On the flat 11 by 11 grid the carve at step 26 sets the counter
to 8 although an edge of age 11 was in the frontier at step 23. -/
theorem age_is_depth (m : maze) (hv : Valid m) :
    (∀ k s e, runSteps m k = Status.running s → e ∈ s.h →
      ∃ (hs : PassageRoom m s.cells (startX m, startY m))
        (q : { r : Int × Int // PassageRoom m s.cells r }) (dx dy : Int),
        Dir dx dy ∧ e.n = m.index (q.1.1 - 2 * dx) (q.1.2 - 2 * dy) ∧
        e.p = m.index (q.1.1 - dx) (q.1.2 - dy) ∧
        e.a = ((roomGraph m s.cells).dist ⟨(startX m, startY m), hs⟩ q : Int)) ∧
    (∀ k s e1 e2 qx qy d1x d1y d2x d2y, runSteps m k = Status.running s →
      e1 ∈ s.h → e2 ∈ s.h → IsRoom m qx qy → Dir d1x d1y → Dir d2x d2y →
      IsRoom m (qx - 2 * d1x) (qy - 2 * d1y) → IsRoom m (qx - 2 * d2x) (qy - 2 * d2y) →
      e1.n = m.index (qx - 2 * d1x) (qy - 2 * d1y) → e1.p = m.index (qx - d1x) (qy - d1y) →
      e2.n = m.index (qx - 2 * d2x) (qy - 2 * d2y) → e2.p = m.index (qx - d2x) (qy - d2y) →
      e1.a = e2.a) ∧
    (∀ k s e dx dy, runSteps m k = Status.running s → e ∈ s.h → Dir dx dy →
      IsRoom m (startX m - 2 * dx) (startY m - 2 * dy) →
      e.n = m.index (startX m - 2 * dx) (startY m - 2 * dy) →
      e.p = m.index (startX m - dx) (startY m - dy) → e.a = 0) ∧
    (∀ k s item h1, runSteps m k = Status.running s → s.atLoop = false →
      heapPop s.h = Res.ok (item, h1) → idx? s.cells item.n = some WALL →
      ∃ s1, runSteps m (k + 1) = Status.running s1 ∧ s1.atLoop = true ∧
        s1.age = item.a + 1) ∧
    (∃ s23 s26 e, runSteps (flat 11 11) 23 = Status.running s23 ∧ e ∈ s23.h ∧ e.a = 11 ∧
      runSteps (flat 11 11) 26 = Status.running s26 ∧ s26.atLoop = true ∧ s26.age = 8) := by
  have ha := valid_admissible m hv
  refine ⟨?_, ?_, ?_, ?_, ?_⟩
  · intro k s e hs he
    have hi := reach_inv m ha k s hs
    obtain ⟨depth, hdp⟩ := run_depth m ha k s hs
    have hst : PassageRoom m s.cells (startX m, startY m) :=
      ⟨start_isRoom m ha, hi.startOpen⟩
    obtain ⟨d1, d2, d3, d4, _⟩ := hdp
    obtain ⟨x, y, dx, dy, hd, _, hq, hqo, hn, hp, hage⟩ := d4 e he
    have hdist := dist_eq_depth (roomGraph m s.cells) (fun v => depth v.1.1 v.1.2)
      ⟨(startX m, startY m), hst⟩ d1
      (by
        intro v hv
        have hns : ¬ (v.1.1 = startX m ∧ v.1.2 = startY m) := by
          intro h
          apply hv
          apply Subtype.ext
          exact Prod.ext h.1 h.2
        obtain ⟨ex, ey, he, ho, hr, hro, hlt⟩ := d2 v.1.1 v.1.2 v.2.1 v.2.2 hns
        exact ⟨⟨(v.1.1 + 2 * ex, v.1.2 + 2 * ey), ⟨hr, hro⟩⟩,
          ⟨ex, ey, he, rfl, rfl, ho⟩, hlt⟩)
      (by
        intro u v hadj
        obtain ⟨ex, ey, he, a1, a2, ho⟩ := hadj
        have := d3 u.1.1 u.1.2 ex ey u.2.1 u.2.2 he ho
        show depth v.1.1 v.1.2 ≤ depth u.1.1 u.1.2 + 1
        rw [a1, a2]
        exact this)
    refine ⟨hst, ⟨(x + 2 * dx, y + 2 * dy), ⟨hq, hqo⟩⟩, dx, dy, hd, ?_, ?_, ?_⟩
    · have e1 : x + 2 * dx - 2 * dx = x := by ring
      have e2 : y + 2 * dy - 2 * dy = y := by ring
      simp only
      rw [e1, e2]
      exact hn
    · have e1 : x + 2 * dx - dx = x + dx := by ring
      have e2 : y + 2 * dy - dy = y + dy := by ring
      simp only
      rw [e1, e2]
      exact hp
    · rw [hdist, hage]
  · intro k s e1 e2 qx qy d1x d1y d2x d2y hs h1 h2 hq hd1 hd2 ht1 ht2 n1 p1 n2 p2
    obtain ⟨depth, hdp⟩ := run_depth m ha k s hs
    rw [edge_age_depth m ha s depth hdp e1 h1 qx qy d1x d1y hd1 hq ht1 n1 p1,
      edge_age_depth m ha s depth hdp e2 h2 qx qy d2x d2y hd2 hq ht2 n2 p2]
  · intro k s e dx dy hs he hd ht hn hp
    obtain ⟨depth, hdp⟩ := run_depth m ha k s hs
    rw [edge_age_depth m ha s depth hdp e he _ _ dx dy hd (start_isRoom m ha) ht hn hp,
      hdp.1]
    rfl
  · intro k s item h1 hs hat hpop hc
    have hi := reach_inv m ha k s hs
    obtain ⟨e1, _⟩ := step_carve m ha s hi item h1 hat hpop hc
    rw [runSteps_succ_running m k s hs]
    exact ⟨_, e1, rfl, rfl⟩
  · refine ⟨_, _, ⟨12, 23, 11, 0⟩, rfl, ?_, rfl, rfl, rfl, rfl⟩
    decide

/-- Witness of `age_is_depth` on the flat 11 by 11 grid: the edge to room 38,
discovered from the start room, and the first carve. -/
theorem age_is_depth_witness :
    Valid (flat 11 11) ∧
    (∃ s, runSteps (flat 11 11) 1 = Status.running s ∧ (⟨38, 49, 0, 0⟩ : edge) ∈ s.h ∧
      (∃ (hs : PassageRoom (flat 11 11) s.cells (startX (flat 11 11), startY (flat 11 11)))
        (q : { r : Int × Int // PassageRoom (flat 11 11) s.cells r }) (dx dy : Int),
        Dir dx dy ∧
        (⟨38, 49, 0, 0⟩ : edge).n = (flat 11 11).index (q.1.1 - 2 * dx) (q.1.2 - 2 * dy) ∧
        (⟨38, 49, 0, 0⟩ : edge).p = (flat 11 11).index (q.1.1 - dx) (q.1.2 - dy) ∧
        (⟨38, 49, 0, 0⟩ : edge).a = ((roomGraph (flat 11 11) s.cells).dist
          ⟨(startX (flat 11 11), startY (flat 11 11)), hs⟩ q : Int)) ∧
      s.atLoop = false ∧
      heapPop s.h = Res.ok (⟨38, 49, 0, 0⟩,
        [⟨62, 61, 0, 0⟩, ⟨82, 71, 0, 0⟩, ⟨58, 59, 0, 0⟩]) ∧
      idx? s.cells 38 = some WALL ∧
      ∃ s1, runSteps (flat 11 11) 2 = Status.running s1 ∧ s1.atLoop = true ∧
        s1.age = (⟨38, 49, 0, 0⟩ : edge).a + 1) := by
  have hv : Valid (flat 11 11) := by simp [Valid, flat, mazeOf]
  have h := age_is_depth (flat 11 11) hv
  refine ⟨hv, _, rfl, by decide, ?_, rfl, rfl, rfl, ?_⟩
  · exact h.1 1 _ _ rfl (by decide)
  · exact h.2.2.2.1 1 _ ⟨38, 49, 0, 0⟩ _ rfl rfl rfl rfl

/-- C18 (no index safety outside the precondition). For width and height 1
(with the stride 1 that `newMaze` gives), `generate` computes the start
coordinates `(-1, -1)`, the start position `-2`, and the write of the
one-element cell grid at that position is out of range: the prologue panics,
and so does `generate`. These are the dimensions `index` passes when the
custom size flag is set and neither field parses. -/
theorem generate_one_by_one (m : maze) (hx : m.Dx = 1) (hy : m.Dy = 1) (hs : m.Stride = 1) :
    startX m = -1 ∧ startY m = -1 ∧ m.index (startX m) (startY m) = -2 ∧
    (List.replicate (m.Dx * m.Dy).toNat 1).length = 1 ∧
    upd? (List.replicate (m.Dx * m.Dy).toNat 1) (m.index (startX m) (startY m)) 0 = none ∧
    start m = Status.failed ∧ generate m = Res.panic ∧
    (∀ (scale : Int → Int → Int → Int) (w h dimDx dimDy : Int),
      indexDims scale true w false h false dimDx dimDy = (m.Dx, m.Dy)) := by
  have sx : startX m = -1 := by
    unfold startX
    rw [hx]
    decide
  have sy : startY m = -1 := by
    unfold startY
    rw [hy]
    decide
  have hidx : m.index (startX m) (startY m) = -2 := by
    unfold maze.index
    rw [sx, sy, hs]
    decide
  have hstart : start m = Status.failed := by
    unfold start
    simp only
    rw [hx, hy]
    unfold maze.index
    rw [hs]
    decide
  have hrun : ∀ k, runSteps m k = Status.failed := by
    intro k
    induction k with
    | zero => exact hstart
    | succ k ih =>
      show (runSteps m k).next m = _
      rw [ih]
      rfl
  refine ⟨sx, sy, hidx, ?_, ?_, hstart, ?_, ?_⟩
  · rw [hx, hy]
    decide
  · rw [hidx, hx, hy]
    decide
  · unfold generate
    rw [hrun]
  · intro scale w h dimDx dimDy
    rw [hx, hy]
    rfl

/-- Witness of `generate_one_by_one`: the 1 by 1 maze with one byte of
intensity 0. -/
theorem generate_one_by_one_witness :
    (mazeOf 1 1 [0]).Dx = 1 ∧ (mazeOf 1 1 [0]).Dy = 1 ∧ (mazeOf 1 1 [0]).Stride = 1 ∧
    (startX (mazeOf 1 1 [0]) = -1 ∧ startY (mazeOf 1 1 [0]) = -1 ∧
    (mazeOf 1 1 [0]).index (startX (mazeOf 1 1 [0])) (startY (mazeOf 1 1 [0])) = -2 ∧
    (List.replicate ((mazeOf 1 1 [0]).Dx * (mazeOf 1 1 [0]).Dy).toNat 1).length = 1 ∧
    upd? (List.replicate ((mazeOf 1 1 [0]).Dx * (mazeOf 1 1 [0]).Dy).toNat 1)
      ((mazeOf 1 1 [0]).index (startX (mazeOf 1 1 [0])) (startY (mazeOf 1 1 [0]))) 0 = none ∧
    start (mazeOf 1 1 [0]) = Status.failed ∧ generate (mazeOf 1 1 [0]) = Res.panic ∧
    (∀ (scale : Int → Int → Int → Int) (w h dimDx dimDy : Int),
      indexDims scale true w false h false dimDx dimDy
        = ((mazeOf 1 1 [0]).Dx, (mazeOf 1 1 [0]).Dy))) :=
  ⟨rfl, rfl, rfl, generate_one_by_one (mazeOf 1 1 [0]) rfl rfl rfl⟩

/-- C19 (strict weak ordering). The comparison of `edgeHeap.Less` is
irreflexive, transitive and asymmetric; two edges are incomparable exactly when
they have equal weight and equal age; the fields `n` and `p` do not influence
it; and on a slice `Less(i, j)` is that comparison of `e[i]` and `e[j]`. -/
theorem less_strict_weak_order :
    (∀ x : edge, edge.less x x = false) ∧
    (∀ x y z : edge, edge.less x y = true → edge.less y z = true → edge.less x z = true) ∧
    (∀ x y : edge, ¬ (edge.less x y = true ∧ edge.less y x = true)) ∧
    (∀ x y : edge, (edge.less x y = false ∧ edge.less y x = false) ↔
      (x.v = y.v ∧ x.a = y.a)) ∧
    (∀ x y x1 y1 : edge, x.v = x1.v → x.a = x1.a → y.v = y1.v → y.a = y1.a →
      edge.less x y = edge.less x1 y1) ∧
    (∀ (e : edgeHeap) (i j : Nat) (x y : edge), e[i]? = some x → e[j]? = some y →
      e.Less i j = some (edge.less x y)) := by
  have hl : ∀ x y : edge, edge.less x y = true ↔ (y.v < x.v ∨ (y.v = x.v ∧ y.a < x.a)) := by
    intro x y
    rw [less_iff]
    unfold key
    rw [Prod.Lex.lt_iff]
  have hf : ∀ x y : edge, edge.less x y = false ↔ ¬ (y.v < x.v ∨ (y.v = x.v ∧ y.a < x.a)) := by
    intro x y
    rw [← hl]
    simp
  refine ⟨?_, ?_, ?_, ?_, ?_, ?_⟩
  · intro x
    rw [hf]
    omega
  · intro x y z h1 h2
    rw [hl] at h1 h2 ⊢
    omega
  · intro x y h
    rw [hl, hl] at h
    omega
  · intro x y
    rw [hf, hf]
    omega
  · intro x y x1 y1 h1 h2 h3 h4
    cases h : edge.less x1 y1 with
    | true =>
      rw [hl] at h ⊢
      omega
    | false =>
      rw [hf] at h ⊢
      omega
  · intro e i j x y hx hy
    exact Less_eq e i j x y hx hy

end AwsImageMaze
